import Mathlib

/-!
# Verification of the Grafatko graph model, animation engine and force layout

Shallow embedding of `grafatko/graph.py`, `grafatko/animation.py` and the
force-simulation section of `Canvas.update` in `grafatko/__init__.py`.

Python node objects are identified by stable natural-number handles; `is`
(object identity) becomes equality of handles.  A `Vertex` object is the
record of its two endpoint handles and its weight (Python weights are `int`
or `float`; we use `ℚ`).  The per-node `adjacent` sets of the Python code
are kept in sync with the graph's vertex list by construction (every
mutator updates both together), so adjacency is embedded as the derived
query over the vertex list.
-/

namespace Grafatko

/-- `Vertex.__init__`: a vertex from `node_from` to `node_to` with a weight
(default 1 in the source). -/
structure Vert where
  nfrom : ℕ
  nto : ℕ
  weight : ℚ
deriving DecidableEq, Repr

/-- `Graph.__init__` state: the `directed`/`weighted` flags, the node list,
the vertex list, and the cached component array (`self.components`). -/
structure Graph where
  directed : Bool
  weighted : Bool
  nodes : List ℕ
  vertices : List Vert
  components : List (Finset ℕ)
deriving DecidableEq

/-- The freshly constructed graph.  (The source initializes `components`
to `None`; it is rebuilt by the first mutation, and `[]` is what the
rebuild produces for the empty graph.) -/
def initGraph : Graph := ⟨false, false, [], [], []⟩

/-- `Node.is_adjacent_to`: `n2` is among the out-neighbours of `n1`
(the per-node adjacent sets hold exactly the vertices leaving the node). -/
def Graph.adjacentTo (g : Graph) (n1 n2 : ℕ) : Bool :=
  g.vertices.any fun v => v.nfrom = n1 ∧ v.nto = n2

/-- `Node.get_adjacent_nodes` for the node `n`: the set of out-neighbours. -/
def Graph.outAdj (g : Graph) (n : ℕ) : Finset ℕ :=
  ((g.vertices.filter fun v => v.nfrom = n).map Vert.nto).toFinset

/-- `Graph.get_weight(n1, n2)`: weight of the first vertex equal to
`(n1, n2)`, `None` if there is none. -/
def Graph.get_weight (g : Graph) (n1 n2 : ℕ) : Option ℚ :=
  (g.vertices.find? fun v => v.nfrom = n1 ∧ v.nto = n2).map Vert.weight

/-- The inner `while` loop of `recalculate_components`: scan the current
component list, merging every set that intersects the candidate into it
(`component |= self.components.pop(i)`) and keeping the others in order.
Returns the grown candidate and the kept sets. -/
def mergeScan : List (Finset ℕ) → Finset ℕ → Finset ℕ × List (Finset ℕ)
  | [], cand => (cand, [])
  | c :: rest, cand =>
    if (c ∩ cand).Nonempty then
      mergeScan rest (cand ∪ c)
    else
      let r := mergeScan rest cand
      (r.1, c :: r.2)

/-- One iteration of the `for node in self.get_nodes()` loop of
`recalculate_components`: form the candidate `{node} ∪ adjacent(node)`,
merge intersecting sets, append the result. -/
def recalcStep (adj : ℕ → Finset ℕ) (comps : List (Finset ℕ)) (v : ℕ) :
    List (Finset ℕ) :=
  let r := mergeScan comps (insert v (adj v))
  r.2 ++ [r.1]

/-- The body of the `recalculate_components` decorator: rebuild the
component list from scratch, one node at a time in insertion order. -/
def recalcFold (ns : List ℕ) (adj : ℕ → Finset ℕ) : List (Finset ℕ) :=
  ns.foldl (recalcStep adj) []

/-- Rebuild `self.components` of a graph (the decorator's post-step). -/
def recalc (g : Graph) : Graph :=
  { g with components := recalcFold g.nodes g.outAdj }

/-- `Graph.add_node` (wrapped in `@recalculate_components`). -/
def Graph.add_node (g : Graph) (n : ℕ) : Graph :=
  recalc { g with nodes := g.nodes ++ [n] }

/-- `Graph.remove_node` (wrapped in `@recalculate_components`): drop the
node (`list.remove` deletes the first occurrence) and every vertex
incident to it; the per-node adjacent sets are pruned accordingly. -/
def Graph.remove_node (g : Graph) (n : ℕ) : Graph :=
  recalc { g with
    nodes := g.nodes.erase n
    vertices := g.vertices.filter fun v => v.nfrom ≠ n ∧ v.nto ≠ n }

/-- `Graph.add_vertex` (wrapped in `@recalculate_components`): refuse
loops in undirected graphs and duplicates; otherwise append the vertex,
and its reverse as well when the graph is undirected.  Note that the
decorator rebuilds the components even on the early-return path. -/
def Graph.add_vertex (g : Graph) (n1 n2 : ℕ) (w : ℚ) : Graph :=
  recalc <|
    if (n1 = n2 ∧ g.directed = false) ∨ g.adjacentTo n1 n2 then g
    else if g.directed then
      { g with vertices := g.vertices ++ [⟨n1, n2, w⟩] }
    else
      { g with vertices := g.vertices ++ [⟨n1, n2, w⟩, ⟨n2, n1, w⟩] }

/-- `Graph.remove_vertex` (wrapped in `@recalculate_components`): the
`while` loop deletes every vertex equal to `(n1, n2)` — and to `(n2, n1)`
when the graph is undirected — keeping the rest in order. -/
def Graph.remove_vertex (g : Graph) (n1 n2 : ℕ) : Graph :=
  recalc { g with
    vertices := g.vertices.filter fun v =>
      ¬((v.nfrom = n1 ∧ v.nto = n2) ∨
        (g.directed = false ∧ v.nfrom = n2 ∧ v.nto = n1)) }

/-- `Graph.toggle_vertex`: remove the vertex if present, else add it
(with the default weight 1). -/
def Graph.toggle_vertex (g : Graph) (n1 n2 : ℕ) : Graph :=
  if g.adjacentTo n1 n2 then g.remove_vertex n1 n2 else g.add_vertex n1 n2 1

/-- `Graph.set_weighted`. -/
def Graph.set_weighted (g : Graph) (b : Bool) : Graph :=
  { g with weighted := b }

/-- `Graph.set_weight`: set the weight of the given vertex and, for an
undirected graph, of the (first) vertex going the other way. -/
def Graph.set_weight (g : Graph) (n1 n2 : ℕ) (w : ℚ) : Graph :=
  { g with vertices := g.vertices.map fun v =>
      if (v.nfrom = n1 ∧ v.nto = n2) ∨
         (g.directed = false ∧ v.nfrom = n2 ∧ v.nto = n1) then
        { v with weight := w }
      else v }

/-- The out-neighbour snapshot `node.get_adjacent_nodes()` as a duplicate
free list (the source iterates a Python set; for graphs without duplicate
vertices the iteration order does not affect any property proved here, so
we fix the order induced by the vertex list). -/
def Graph.outAdjList (g : Graph) (n : ℕ) : List ℕ :=
  ((g.vertices.filter fun v => v.nfrom = n).map Vert.nto).dedup

/-- One index step of the weight-equalization double loop of
`set_directed`: `v1 = vertices[i]`; every `v2` whose endpoint pair is the
reverse of `v1`'s gets `v1`'s current weight. -/
def eqStep (vs : List Vert) (i : ℕ) : List Vert :=
  match vs[i]? with
  | none => vs
  | some v1 =>
    vs.map fun v2 =>
      if v1.nfrom = v2.nto ∧ v1.nto = v2.nfrom then
        { v2 with weight := v1.weight }
      else v2

/-- The full `for v1 in self.get_vertices(): for v2 in ...` loop:
weights are mutated in place, so later iterations see earlier updates. -/
def equalizeWeights (vs : List Vert) : List Vert :=
  (List.range vs.length).foldl eqStep vs

/-- Body of the inner loop of `set_directed`'s conversion pass: for the
snapshot neighbour `nb` of `node`, remove the loop or add the reverse. -/
def convInnerStep (node : ℕ) (acc2 : Graph) (nb : ℕ) : Graph :=
  if node = nb then acc2.remove_vertex node nb
  else acc2.add_vertex nb node 1

/-- One iteration of `for node in self.get_nodes()` in `set_directed`:
take the snapshot `node.get_adjacent_nodes()` and process each entry. -/
def convOuterStep (acc : Graph) (node : ℕ) : Graph :=
  (acc.outAdjList node).foldl (convInnerStep node) acc

/-- `Graph.set_directed`: when the graph is currently directed, walk the
nodes and, for each out-neighbour in the snapshot, remove the loop or add
the reverse vertex (weight defaults to 1); then equalize the weights of
every two-way pair; finally store the flag.  When the graph is already
undirected the body is skipped and only the flag is stored. -/
def Graph.set_directed (g : Graph) (d : Bool) : Graph :=
  let g' :=
    if g.directed then
      let g1 := g.nodes.foldl convOuterStep g
      { g1 with vertices := equalizeWeights g1.vertices }
    else g
  { g' with directed := d }

/-- The ordered pairs `(n1, n2)` visited by the
`for i, n1 in enumerate(nodes): for n2 in nodes[i:]` double loop. -/
def pairsFrom (l : List ℕ) : List (ℕ × ℕ) :=
  (List.range l.length).flatMap fun i =>
    match l[i]? with
    | none => []
    | some n1 => (l.drop i).map fun n2 => (n1, n2)

/-- `Graph.reorient`: for every node pair carrying an edge in exactly one
direction, flip it with two toggles. -/
def Graph.reorient (g : Graph) : Graph :=
  (pairsFrom g.nodes).foldl
    (fun acc p =>
      if acc.adjacentTo p.1 p.2 ≠ acc.adjacentTo p.2 p.1 then
        (acc.toggle_vertex p.1 p.2).toggle_vertex p.2 p.1
      else acc)
    g

/-- `Graph.complement`: toggle every pair, and the reverse direction too
when the graph is directed (`is_directed()` is re-read after the first
toggle, which leaves the flag unchanged). -/
def Graph.complement (g : Graph) : Graph :=
  (pairsFrom g.nodes).foldl
    (fun acc p =>
      if (acc.toggle_vertex p.1 p.2).directed then
        (acc.toggle_vertex p.1 p.2).toggle_vertex p.2 p.1
      else acc.toggle_vertex p.1 p.2)
    g

/-- `Graph.weakly_connected`: scan the component list; `some true` on the
first set containing both nodes, `some false` on the first set containing
exactly one, `none` (Python `None`) if the scan falls through. -/
def weaklyConnectedScan (comps : List (Finset ℕ)) (n1 n2 : ℕ) : Option Bool :=
  match comps with
  | [] => none
  | c :: rest =>
    if n1 ∈ c ∧ n2 ∈ c then some true
    else if n1 ∈ c ∨ n2 ∈ c then some false
    else weaklyConnectedScan rest n1 n2

/-- `Graph.weakly_connected(n1, n2)`. -/
def Graph.weakly_connected (g : Graph) (n1 n2 : ℕ) : Option Bool :=
  weaklyConnectedScan g.components n1 n2

/-- The graph states reachable through the public mutation API, starting
from a fresh graph.  `add_vertex`/`toggle_vertex` are invoked by the
application on nodes of the graph; `add_node` is invoked on freshly
created node objects, whose identity differs from every existing node. -/
inductive Reachable : Graph → Prop where
  | init : Reachable initGraph
  | add_node {g n} : Reachable g → n ∉ g.nodes → Reachable (g.add_node n)
  | remove_node {g n} : Reachable g → n ∈ g.nodes → Reachable (g.remove_node n)
  | add_vertex {g n1 n2 w} : Reachable g → n1 ∈ g.nodes → n2 ∈ g.nodes →
      Reachable (g.add_vertex n1 n2 w)
  | remove_vertex {g n1 n2} : Reachable g → Reachable (g.remove_vertex n1 n2)
  | toggle_vertex {g n1 n2} : Reachable g → n1 ∈ g.nodes → n2 ∈ g.nodes →
      Reachable (g.toggle_vertex n1 n2)
  | set_weight {g n1 n2 w} : Reachable g → Reachable (g.set_weight n1 n2 w)
  | set_weighted {g b} : Reachable g → Reachable (g.set_weighted b)
  | set_directed {g d} : Reachable g → Reachable (g.set_directed d)
  | reorient {g} : Reachable g → Reachable g.reorient
  | complement {g} : Reachable g → Reachable g.complement

/-- The endpoint pair of a vertex (the notion `Vertex.__eq__` compares). -/
def pairOf (v : Vert) : ℕ × ℕ := (v.nfrom, v.nto)

/-- Adjacency as a proposition. -/
def Graph.isAdj (g : Graph) (a b : ℕ) : Prop := g.adjacentTo a b = true

instance (g : Graph) (a b : ℕ) : Decidable (g.isAdj a b) := by
  unfold Graph.isAdj; infer_instance

/-- Data invariants of the Python implementation:
* vertex endpoints are nodes of the graph;
* no two vertices share the same endpoint pair (`add_vertex` refuses
  duplicates);
* in an undirected graph every vertex has its exact mirror (same weight)
  in the list and no vertex is a loop;
* the cached component array is the one `recalculate_components` would
  produce for the current node and vertex lists (every mutator rebuilds it
  before returning). -/
structure WF (g : Graph) : Prop where
  endpoints : ∀ v ∈ g.vertices, v.nfrom ∈ g.nodes ∧ v.nto ∈ g.nodes
  nodup : g.vertices.Pairwise fun a b => pairOf a ≠ pairOf b
  sym : g.directed = false → ∀ v ∈ g.vertices,
    (⟨v.nto, v.nfrom, v.weight⟩ : Vert) ∈ g.vertices
  noloop : g.directed = false → ∀ v ∈ g.vertices, v.nfrom ≠ v.nto
  comps : g.components = recalcFold g.nodes g.outAdj

/-- Partial run of the equalization loop: only indices `< k` processed. -/
def equalizeUpTo (vs : List Vert) (k : ℕ) : List Vert :=
  (List.range k).foldl eqStep vs


/-- Union of a list of node sets. -/
def unionList (l : List (Finset ℕ)) : Finset ℕ := l.foldr (· ∪ ·) ∅

/-- The star of a node: itself together with its out-neighbours — exactly
the candidate set formed by `recalculate_components`. -/
def star (adj : ℕ → Finset ℕ) (n : ℕ) : Finset ℕ := insert n (adj n)

/-- Two elements share the star of some processed node. -/
def starRel (ns : List ℕ) (adj : ℕ → Finset ℕ) (x y : ℕ) : Prop :=
  ∃ n ∈ ns, x ∈ star adj n ∧ y ∈ star adj n

/-- Invariant of the component-rebuilding fold after processing the node
list `ns`. -/
structure RecalcInv (ns : List ℕ) (adj : ℕ → Finset ℕ)
    (comps : List (Finset ℕ)) : Prop where
  pw : comps.Pairwise Disjoint
  union : ∀ x, x ∈ unionList comps ↔ ∃ n ∈ ns, x ∈ star adj n
  conn : ∀ c ∈ comps, ∀ x ∈ c, ∀ y ∈ c,
    Relation.TransGen (starRel ns adj) x y
  covered : ∀ n ∈ ns, ∃ c ∈ comps, star adj n ⊆ c

/-- One undirected step: an edge in either direction. -/
def symEdge (g : Graph) (x y : ℕ) : Prop := g.isAdj x y ∨ g.isAdj y x

/-- `b` is reachable from `a` by a sequence of edges, ignoring direction. -/
def WeakReach (g : Graph) (a b : ℕ) : Prop :=
  Relation.ReflTransGen (symEdge g) a b

/-- Two disjoint triangles 0-1-2 and 3-4-5, built through the public API
(undirected, default weights). -/
def triangles : Graph :=
  ((((((((((((initGraph.add_node 0).add_node 1).add_node 2).add_node
    3).add_node 4).add_node 5).add_vertex 0 1 1).add_vertex 1 2
    1).add_vertex 0 2 1).add_vertex 3 4 1).add_vertex 4 5 1).add_vertex 3 5 1)

/-- A small undirected weighted graph: nodes 1 and 2 joined with weight 5. -/
def twoNodeGraph : Graph :=
  ((initGraph.add_node 1).add_node 2).add_vertex 1 2 5

/-- A directed graph with the single edge 0 → 1 of weight 5, built
through the public API. -/
def c9Graph : Graph :=
  (((initGraph.set_directed true).add_node 0).add_node 1).add_vertex 0 1 5

/-! ### The animation engine (`grafatko/animation.py`) -/

/-- `Animation` state: duration and parallel flag from `__init__`, the
started flag, the `QElapsedTimer` reference instant (meaningful once
started), the paused flag and the frozen `paused_time`.  Wall-clock time
is an abstract tick counter `t : ℕ` supplied to each operation; the
colour endpoints of `ColorAnimation` play no role in the scheduling
claims and are carried by the queue's target handle instead. -/
structure Animation where
  duration : ℕ
  parallel : Bool
  started : Bool
  startTime : ℕ
  paused : Bool
  pausedTime : ℕ
deriving DecidableEq, Repr

/-- `Animation.__init__(duration, parallel)`. -/
def mkAnimation (d : ℕ) (par : Bool) : Animation :=
  ⟨d, par, false, 0, false, 0⟩

/-- `QElapsedTimer.elapsed()` at wall time `t`. -/
def Animation.elapsed (a : Animation) (t : ℕ) : ℕ := t - a.startTime

/-- `Animation.start()` at wall time `t` (`timer.start()`). -/
def Animation.start (a : Animation) (t : ℕ) : Animation :=
  { a with started := true, startTime := t }

/-- `Animation.pause()`: only if started and not paused; stores
`paused_time = timer.elapsed()` (overwriting, not accumulating). -/
def Animation.pause (a : Animation) (t : ℕ) : Animation :=
  if a.started = true ∧ ¬a.paused = true then
    { a with paused := true, pausedTime := a.elapsed t }
  else a

/-- `Animation.resume()`: only if started and paused; restarts the
timer. -/
def Animation.resume (a : Animation) (t : ℕ) : Animation :=
  if a.started = true ∧ a.paused = true then
    { a with paused := false, startTime := t }
  else a

/-- The `time` value computed in `Animation.__call__`: the frozen
`paused_time` plus, when unpaused, the running timer. -/
def Animation.logicalTime (a : Animation) (t : ℕ) : ℕ :=
  a.pausedTime + (if a.paused = true then 0 else a.elapsed t)

/-- `Animation.__call__` with the default (linear) easing curve: the
progress `time / duration` clamped to [0, 1]. -/
def Animation.call (a : Animation) (t : ℕ) : ℚ :=
  min (max 0 ((a.logicalTime t : ℚ) / (a.duration : ℚ))) 1

/-- `Animation.has_finished()`. -/
def Animation.has_finished (a : Animation) (t : ℕ) : Bool :=
  a.started ∧ (a.pausedTime + a.elapsed t > a.duration) ∧ ¬a.paused = true

/-- The continuation of the start loop in `DrawableGraph.draw` after the
first animation has been started: keep starting un-started entries while
both the previous animation and the current one are parallel-flagged. -/
def startRun (t : ℕ) (prev : Animation) :
    List (ℕ × Animation) → List (ℕ × Animation)
  | [] => []
  | (o, a) :: rest =>
    if a.started = true then (o, a) :: rest
    else if a.parallel = true ∧ prev.parallel = true then
      (o, a.start t) :: startRun t (a.start t) rest
    else (o, a) :: rest

/-- The start loop of `DrawableGraph.draw`: the first un-started entry at
the front starts unconditionally (`i == 0`); the scan stops at the first
already-started entry. -/
def startPhase (t : ℕ) :
    List (ℕ × Animation) → List (ℕ × Animation)
  | [] => []
  | (o, a) :: rest =>
    if a.started = true then (o, a) :: rest
    else (o, a.start t) :: startRun t (a.start t) rest

/-- The removal loop of `DrawableGraph.draw`: pop finished animations
from the front only. -/
def dropFinished (t : ℕ) :
    List (ℕ × Animation) → List (ℕ × Animation)
  | [] => []
  | (o, a) :: rest =>
    if a.has_finished t then dropFinished t rest else (o, a) :: rest

/-- One tick of the animation part of `DrawableGraph.draw` at wall time
`t`: start eligible animations (when the queue is non-empty), then drop
the finished prefix. -/
def animTick (t : ℕ) (q : List (ℕ × Animation)) : List (ℕ × Animation) :=
  dropFinished t (if q.isEmpty then q else startPhase t q)

/-- The queue shapes reachable by draw ticks from two un-started
parallel animations queued in front of an un-started non-parallel one
(keys `o1`, `o2`, `o3`): entries leave only from the front and only
when finished, the two parallel entries start together, and the third
entry stays un-started while either of the first two is still present. -/
def C6Inv (o1 o2 o3 : ℕ) (q : List (ℕ × Animation)) : Prop :=
  (∃ b1 b2 b3 : Animation, q = [(o1, b1), (o2, b2), (o3, b3)] ∧
    b1.parallel = true ∧ b2.parallel = true ∧
    b3.parallel = false ∧ b3.started = false ∧
    ((b1.started = false ∧ b2.started = false) ∨
     (b1.started = true ∧ b2.started = true))) ∨
  (∃ b2 b3 : Animation, q = [(o2, b2), (o3, b3)] ∧
    b2.started = true ∧ b3.started = false) ∨
  (∃ b3 : Animation, q = [(o3, b3)]) ∨
  q = []

/-! ### The force simulation (`Canvas.update`) -/

/-- Drawable-node state for the force pass: position, pending force list
and whether the node is currently dragged (`drag is not None`).
Positions are real 2-vectors: Python floats are embedded as reals, so
float-specific NaN behaviour is outside the model; the `d == 0` guard of
the source appears below as the branch that never reaches the
unit-vector division. -/
structure NodeState where
  pos : ℝ × ℝ
  forces : List (ℝ × ℝ)
  drag : Bool

/-- `Vector.distance`: Euclidean distance. -/
noncomputable def vdist (a b : ℝ × ℝ) : ℝ :=
  Real.sqrt ((a.1 - b.1) ^ 2 + (a.2 - b.2) ^ 2)

/-- Scalar multiple of a 2-vector. -/
noncomputable def vscale (c : ℝ) (v : ℝ × ℝ) : ℝ × ℝ := (c * v.1, c * v.2)

/-- `Canvas.repulsion`: `(1 / distance) ** 2`. -/
noncomputable def repulsion (d : ℝ) : ℝ := (1 / d) ^ 2

/-- `Canvas.attraction`: `-(distance - 6) / 3`. -/
noncomputable def attraction (d : ℝ) : ℝ := -(d - 6) / 3

/-- `DrawableNode.add_force`: append to the pending-force list. -/
def NodeState.add_force (n : NodeState) (f : ℝ × ℝ) : NodeState :=
  { n with forces := n.forces ++ [f] }

/-- Sum of the pending forces (the `while` loop of `evaluate_forces`
pops them one at a time; vector addition is commutative so the sum is
order-independent). -/
noncomputable def sumForces (l : List (ℝ × ℝ)) : ℝ × ℝ :=
  l.foldr (· + ·) (0, 0)

/-- `DrawableNode.evaluate_forces`: drain the force list, moving the
node by each force unless it is being dragged. -/
noncomputable def NodeState.evaluate_forces (n : NodeState) : NodeState :=
  { n with
    pos := if n.drag then n.pos else n.pos + sumForces n.forces
    forces := [] }

/-- `DrawableNode.clear_forces`. -/
def NodeState.clear_forces (n : NodeState) : NodeState :=
  { n with forces := [] }

/-- Pointwise update of the node-state map. -/
def updState (ns : ℕ → NodeState) (i : ℕ) (v : NodeState) :
    ℕ → NodeState :=
  fun j => if j = i then v else ns j

/-- Body of `for n2 in self.graph.get_nodes()[i + 1:]` in
`Canvas.update`: skip the pair unless weakly connected; at distance zero
add a random force to `n1` only and skip the rest; otherwise apply the
repulsion along the unit vector to both nodes and, when an edge exists
in either direction, the attraction as well.  `rand` supplies the
`Vector(random(), random())` drawn for the pair. -/
noncomputable def innerForceStep (g : Graph) (rand : ℕ → ℕ → ℝ × ℝ)
    (n1 : ℕ) (ns : ℕ → NodeState) (n2 : ℕ) : ℕ → NodeState :=
  if g.weakly_connected n1 n2 = some true then
    if vdist (ns n1).pos (ns n2).pos = 0 then
      updState ns n1 ((ns n1).add_force (rand n1 n2))
    else
      let d := vdist (ns n1).pos (ns n2).pos
      let uv := vscale (1 / d) ((ns n2).pos - (ns n1).pos)
      let fr := repulsion d
      let ns1 := updState ns n1 ((ns n1).add_force (vscale fr (-uv)))
      let ns2 := updState ns1 n2 ((ns1 n2).add_force (vscale fr uv))
      if g.adjacentTo n1 n2 = true ∨ g.adjacentTo n2 n1 = true then
        let fa := attraction d
        let ns3 := updState ns2 n1 ((ns2 n1).add_force (vscale fa (-uv)))
        updState ns3 n2 ((ns3 n2).add_force (vscale fa uv))
      else ns2
  else ns

/-- One iteration of `for i, n1 in enumerate(self.graph.get_nodes())`:
run the inner pairwise loop over the tail of the node list; then the
root keeps its anchor (`clear_forces`) while every other node applies
its accumulated forces. -/
noncomputable def outerForceStep (g : Graph) (root : Option ℕ)
    (rand : ℕ → ℕ → ℝ × ℝ) (acc : ℕ → NodeState) (i : ℕ) :
    ℕ → NodeState :=
  match g.nodes[i]? with
  | none => acc
  | some n1 =>
    let acc1 := (g.nodes.drop (i + 1)).foldl (innerForceStep g rand n1) acc
    if root = some n1 then updState acc1 n1 ((acc1 n1).clear_forces)
    else updState acc1 n1 ((acc1 n1).evaluate_forces)

/-- The pairwise force section of `Canvas.update` (forces enabled), one
full simulation step. -/
noncomputable def forcePass (g : Graph) (root : Option ℕ)
    (rand : ℕ → ℕ → ℝ × ℝ) (ns : ℕ → NodeState) : ℕ → NodeState :=
  (List.range g.nodes.length).foldl (outerForceStep g root rand) ns

/-! ### Serialization (`Graph.from_string` / `Graph.to_string`)

The Python functions work on whitespace-separated text lines.  We embed
one level up: a file is a list of lines and a line is a list of tokens,
where a token is a node name, one of the two arrow markers, or a
numeric literal (`str(weight)` on export, `literal_eval` on import).

This granularity is coarser than the strings the code manipulates:
`Tok.name s` is structurally distinct from `Tok.arrowTo`/`Tok.arrowFrom`
even when `s` spells `"->"` or `"<-"`, and it stays one token even when
`s` is empty or contains whitespace, while `line.strip().split()` on the
real export would then produce a different token list and
`parts[1] in ("->", "<-")` would mis-infer the directed flag.  The
token-level embedding therefore coincides with the string-level code
exactly for labels that are nonempty, whitespace-free and distinct from
the two arrow spellings — the predicate `GoodLabel` below — and the
round-trip theorem for C5 carries that restriction as a hypothesis.
The C5 counterexamples use such labels, so the failures they exhibit
are failures of the real code, not artifacts of the embedding. -/

inductive Tok where
  | name (s : String)
  | arrowTo
  | arrowFrom
  | num (q : ℚ)
deriving DecidableEq, Repr

/-- `str(weight)` for the optional result of `get_weight` (`str(None)`
would produce the unparseable token `None`). -/
def weightTok : Option ℚ → Tok
  | some q => Tok.num q
  | none => Tok.name "None"

/-- The `node_dictionary` of `from_string`: name → node handle, in
insertion order (handles are allocated 0, 1, 2, … as nodes are created). -/
def lookupS : List (String × ℕ) → String → Option ℕ
  | [], _ => none
  | e :: rest, s => if e.1 = s then some e.2 else lookupS rest s

/-- The `added` map of `to_string`: node handle → generated label. -/
def lookupN : List (ℕ × String) → ℕ → Option String
  | [], _ => none
  | e :: rest, n => if e.1 = n then some e.2 else lookupN rest n

/-- `if name not in node_dictionary: node_dictionary[name] = Node(label=name);
graph.add_node(...)` — create the node for a name unless already known. -/
def ensureNode (st : Graph × List (String × ℕ)) (name : String) :
    Graph × List (String × ℕ) :=
  match lookupS st.2 name with
  | some _ => st
  | none => (st.1.add_node st.2.length, st.2 ++ [(name, st.2.length)])

/-- One loop iteration of `from_string` (flags already inferred):
read the two names and the weight, create missing nodes, swap on a
reverse arrow, add the vertex.  `none` models the Python exceptions
(IndexError on short lines, literal_eval failure on a non-numeric weight
token, arrows in name position). -/
def parseLine (directed weighted : Bool) (st : Graph × List (String × ℕ))
    (parts : List Tok) : Option (Graph × List (String × ℕ)) :=
  match parts[0]?, parts[if directed then 2 else 1]? with
  | some (Tok.name nameA), some (Tok.name nameB) =>
    (match (if weighted then
        (match parts[if directed then 3 else 2]? with
         | some (Tok.num q) => some q
         | _ => none)
      else some 0) with
     | none => none
     | some w =>
       let st2 := ensureNode (ensureNode st nameA) nameB
       match lookupS st2.2 nameA, lookupS st2.2 nameB with
       | some i1, some i2 =>
         match parts[1]? with
         | some Tok.arrowFrom => some (st2.1.add_vertex i2 i1 w, st2.2)
         | _ => some (st2.1.add_vertex i1 i2 w, st2.2)
       | _, _ => none)
  | _, _ => none

/-- `Graph.from_string`: infer the directed/weighted flags from the
first line, then run the line loop.  `none` when there are no (nonempty)
lines — the Python version would return `None` — or on any parse
error. -/
def from_string (lines : List (List Tok)) :
    Option (Graph × List (String × ℕ)) :=
  match lines with
  | [] => none
  | first :: _ =>
    match first[1]? with
    | none => none
    | some t1 =>
      let directed : Bool := t1 = Tok.arrowTo ∨ t1 = Tok.arrowFrom
      let weighted : Bool := first.length = (if directed then 4 else 3)
      lines.foldlM (parseLine directed weighted)
        ((initGraph.set_directed directed).set_weighted weighted, [])

/-- Label resolution of `to_string`: `n1.get_label() or …` — a falsy
label (Python `None` or the empty string) falls back to a fresh numeric
name from the counter, recorded in `added`; any other label is used as
is.  `(label n).getD ""` is `""` exactly when the label is `None` or
empty. -/
def labelOf (label : ℕ → Option String) (st : ℕ × List (ℕ × String))
    (n : ℕ) : String × ℕ × List (ℕ × String) :=
  if (label n).getD "" = "" then
    match lookupN st.2 n with
    | some s => (s, st)
    | none => (toString (st.1 + 1), st.1 + 1, st.2 ++ [(n, toString (st.1 + 1))])
  else ((label n).getD "", st)

/-- One loop iteration of `to_string` over a vertex: skip the
second-listed copy of an undirected pair (`id(n1) > id(n2)`, object ids
modelled by the node handles); otherwise emit the forward line and, for
directed graphs with the reverse vertex present, the backward line. -/
def to_stringFold (g : Graph) (label : ℕ → Option String)
    (acc : (ℕ × List (ℕ × String)) × List (List Tok)) (v : Vert) :
    (ℕ × List (ℕ × String)) × List (List Tok) :=
  if g.directed = false ∧ v.nto < v.nfrom then acc
  else
    let r1 := labelOf label acc.1 v.nfrom
    let r2 := labelOf label r1.2 v.nto
    let lines1 :=
      if g.adjacentTo v.nfrom v.nto = true then
        acc.2 ++ [[Tok.name r1.1] ++
          (if g.directed then [Tok.arrowTo] else []) ++ [Tok.name r2.1] ++
          (if g.weighted then [weightTok (g.get_weight v.nfrom v.nto)] else [])]
      else acc.2
    let lines2 :=
      if g.adjacentTo v.nto v.nfrom = true ∧ g.directed = true then
        lines1 ++ [[Tok.name r1.1, Tok.arrowFrom, Tok.name r2.1] ++
          (if g.weighted then [weightTok (g.get_weight v.nto v.nfrom)] else [])]
      else lines1
    (r2.2, lines2)

/-- `Graph.to_string`, parameterized by the node labels (`Node.label`). -/
def Graph.to_string (g : Graph) (label : ℕ → Option String) :
    List (List Tok) :=
  (g.vertices.foldl (to_stringFold g label) ((0, []), [])).2

/-- The shape of every line `to_string` emits: name, optional arrow,
name, optional weight. -/
def encodeLine (directed weighted back : Bool) (sa sb : String) (w : ℚ) :
    List Tok :=
  [Tok.name sa] ++
  (if directed then [if back then Tok.arrowFrom else Tok.arrowTo] else []) ++
  [Tok.name sb] ++ (if weighted then [Tok.num w] else [])

/-- The lines emitted for one vertex when every node is labelled (the
counter/`added` machinery stays untouched in that case). -/
def emitLines (g : Graph) (lab : ℕ → String) (v : Vert) : List (List Tok) :=
  if g.directed = false ∧ v.nto < v.nfrom then []
  else
    (if g.adjacentTo v.nfrom v.nto = true then
      [[Tok.name (lab v.nfrom)] ++
        (if g.directed then [Tok.arrowTo] else []) ++ [Tok.name (lab v.nto)] ++
        (if g.weighted then [weightTok (g.get_weight v.nfrom v.nto)] else [])]
     else []) ++
    (if g.adjacentTo v.nto v.nfrom = true ∧ g.directed = true then
      [[Tok.name (lab v.nfrom), Tok.arrowFrom, Tok.name (lab v.nto)] ++
        (if g.weighted then [weightTok (g.get_weight v.nto v.nfrom)] else [])]
     else [])

/-- The node correspondence induced by the import dictionary: a node of
the original graph is sent to the handle its label maps to. -/
def rho (label : ℕ → Option String) (dict : List (String × ℕ)) (n : ℕ) :
    Option ℕ :=
  (label n).bind (lookupS dict)

/-- Invariant of the `from_string` line loop run on the export of `g`:
flags agree, the built graph is well-formed with nodes `0, …, |dict|-1`,
dictionary entries hold distinct names (labels of `g`-nodes) and their
own position as handle, and every imported edge is the `rho`-image of an
edge of `g`, with the weight carried over when the graph is weighted. -/
structure ImportInv (g : Graph) (label : ℕ → Option String)
    (st : Graph × List (String × ℕ)) : Prop where
  dirEq : st.1.directed = g.directed
  wtEq : st.1.weighted = g.weighted
  wf : WF st.1
  nodesEq : st.1.nodes = List.range st.2.length
  dictPos : ∀ (p : ℕ) (e : String × ℕ), st.2[p]? = some e → e.2 = p
  dictNames : ∀ e ∈ st.2, ∃ n ∈ g.nodes, label n = some e.1
  dictNodup : st.2.Pairwise fun e e' => e.1 ≠ e'.1
  upper : ∀ i j : ℕ, st.1.isAdj i j → ∃ a ∈ g.nodes, ∃ b ∈ g.nodes,
    rho label st.2 a = some i ∧ rho label st.2 b = some j ∧
    g.isAdj a b ∧
    (g.weighted = true → st.1.get_weight i j = g.get_weight a b)

/-- The semantic content of a line of the export of `g`: the token list
encodes an edge of `g` together with its weight, in forward or reverse
orientation, between two labelled nodes. -/
def ExportLine (g : Graph) (label : ℕ → Option String)
    (line : List Tok) : Prop :=
  ∃ (back : Bool) (a b : ℕ) (sa sb : String) (w : ℚ),
    a ∈ g.nodes ∧ b ∈ g.nodes ∧ label a = some sa ∧ label b = some sb ∧
    line = encodeLine g.directed g.weighted back sa sb w ∧
    g.isAdj (if back then b else a) (if back then a else b) ∧
    (g.weighted = true →
      g.get_weight (if back then b else a) (if back then a else b) = some w) ∧
    (back = true → g.directed = true)

/-- C5 counterexample graph: a single node and no vertex — the export is
the empty line list, which `from_string` cannot re-import (`None`). -/
def c5Graph : Graph := initGraph.add_node 0

/-- C5 counterexample graph for the weight loss: one undirected edge
with the default weight 1 in an unweighted graph. -/
def c5Graph2 : Graph := ((initGraph.add_node 0).add_node 1).add_vertex 0 1 1

/-- Labels for the C5 example graphs. -/
def c5Label : ℕ → Option String :=
  fun n => if n = 0 then some "A" else if n = 1 then some "B" else none

/-- Labels on which the whitespace-separated line format of the real
serializer coincides with the token-level embedding: a label must be a
single nonempty whitespace-free token, and must not be spelled like one
of the two arrow markers, which `from_string` compares the second token
of the first line against to infer the directed flag.
(`Node.__init__` accepts arbitrary label strings; outside this set the
string-level round trip breaks — an empty label takes the generated-name
fallback of `to_string`, a whitespace-containing label splits into
several tokens on import, and an arrow-spelled label in the second
position of the first line mis-infers the flags — so the round-trip
theorem below carries this restriction as a hypothesis.) -/
def GoodLabel (s : String) : Prop :=
  s ≠ "" ∧ (∀ c ∈ s.data, ¬c.isWhitespace) ∧ s ≠ "->" ∧ s ≠ "<-"

instance (s : String) : Decidable (GoodLabel s) := by
  unfold GoodLabel
  infer_instance

theorem isAdj_iff (g : Graph) (a b : ℕ) :
    g.isAdj a b ↔ ∃ v ∈ g.vertices, v.nfrom = a ∧ v.nto = b := by
  simp [Graph.isAdj, Graph.adjacentTo, List.any_eq_true]

theorem get_weight_isSome_iff (g : Graph) (a b : ℕ) :
    (g.get_weight a b).isSome ↔ g.isAdj a b := by
  simp [Graph.get_weight, isAdj_iff, List.find?_isSome]

@[simp] theorem recalc_directed (g : Graph) : (recalc g).directed = g.directed := rfl

@[simp] theorem recalc_weighted (g : Graph) : (recalc g).weighted = g.weighted := rfl

@[simp] theorem recalc_nodes (g : Graph) : (recalc g).nodes = g.nodes := rfl

@[simp] theorem recalc_vertices (g : Graph) : (recalc g).vertices = g.vertices := rfl

@[simp] theorem recalc_components (g : Graph) :
    (recalc g).components = recalcFold g.nodes g.outAdj := rfl

theorem outAdj_eq (g : Graph) (n : ℕ) :
    g.outAdj n = ((g.vertices.filter fun v => v.nfrom = n).map Vert.nto).toFinset :=
  rfl

theorem mem_outAdj (g : Graph) (n m : ℕ) :
    m ∈ g.outAdj n ↔ ∃ v ∈ g.vertices, v.nfrom = n ∧ v.nto = m := by
  simp only [Graph.outAdj, List.mem_toFinset, List.mem_map, List.mem_filter,
    decide_eq_true_eq]
  constructor
  · rintro ⟨v, ⟨hv, hf⟩, ht⟩; exact ⟨v, hv, hf, ht⟩
  · rintro ⟨v, hv, hf, ht⟩; exact ⟨v, ⟨hv, hf⟩, ht⟩

/-- `outAdj` only depends on the endpoint pairs of the vertex list. -/
theorem outAdj_congr {g h : Graph}
    (hp : g.vertices.map pairOf = h.vertices.map pairOf) (n : ℕ) :
    g.outAdj n = h.outAdj n := by
  ext m
  rw [mem_outAdj, mem_outAdj]
  constructor
  · rintro ⟨v, hv, hf, ht⟩
    have : pairOf v ∈ h.vertices.map pairOf := by
      rw [← hp]; exact List.mem_map_of_mem pairOf hv
    obtain ⟨w, hw, hpw⟩ := List.mem_map.mp this
    exact ⟨w, hw, by
      have h1 : w.nfrom = v.nfrom := congrArg Prod.fst hpw
      have h2 : w.nto = v.nto := congrArg Prod.snd hpw
      exact ⟨h1.trans hf, h2.trans ht⟩⟩
  · rintro ⟨v, hv, hf, ht⟩
    have : pairOf v ∈ g.vertices.map pairOf := by
      rw [hp]; exact List.mem_map_of_mem pairOf hv
    obtain ⟨w, hw, hpw⟩ := List.mem_map.mp this
    exact ⟨w, hw, by
      have h1 : w.nfrom = v.nfrom := congrArg Prod.fst hpw
      have h2 : w.nto = v.nto := congrArg Prod.snd hpw
      exact ⟨h1.trans hf, h2.trans ht⟩⟩

/-- `adjacentTo` only depends on the endpoint pairs of the vertex list. -/
theorem isAdj_congr {g h : Graph}
    (hp : g.vertices.map pairOf = h.vertices.map pairOf) (a b : ℕ) :
    g.isAdj a b ↔ h.isAdj a b := by
  rw [isAdj_iff, isAdj_iff]
  constructor
  · rintro ⟨v, hv, hf, ht⟩
    have : pairOf v ∈ h.vertices.map pairOf := by
      rw [← hp]; exact List.mem_map_of_mem pairOf hv
    obtain ⟨w, hw, hpw⟩ := List.mem_map.mp this
    exact ⟨w, hw, (congrArg Prod.fst hpw).trans hf, (congrArg Prod.snd hpw).trans ht⟩
  · rintro ⟨v, hv, hf, ht⟩
    have : pairOf v ∈ g.vertices.map pairOf := by
      rw [hp]; exact List.mem_map_of_mem pairOf hv
    obtain ⟨w, hw, hpw⟩ := List.mem_map.mp this
    exact ⟨w, hw, (congrArg Prod.fst hpw).trans hf, (congrArg Prod.snd hpw).trans ht⟩

/-! ### Field computations for the mutators -/

@[simp] theorem add_node_nodes (g : Graph) (n : ℕ) :
    (g.add_node n).nodes = g.nodes ++ [n] := rfl

@[simp] theorem add_node_vertices (g : Graph) (n : ℕ) :
    (g.add_node n).vertices = g.vertices := rfl

@[simp] theorem add_node_directed (g : Graph) (n : ℕ) :
    (g.add_node n).directed = g.directed := rfl

@[simp] theorem remove_node_nodes (g : Graph) (n : ℕ) :
    (g.remove_node n).nodes = g.nodes.erase n := rfl

@[simp] theorem remove_node_vertices (g : Graph) (n : ℕ) :
    (g.remove_node n).vertices =
      g.vertices.filter fun v => v.nfrom ≠ n ∧ v.nto ≠ n := rfl

@[simp] theorem remove_node_directed (g : Graph) (n : ℕ) :
    (g.remove_node n).directed = g.directed := rfl

@[simp] theorem add_vertex_nodes (g : Graph) (n1 n2 : ℕ) (w : ℚ) :
    (g.add_vertex n1 n2 w).nodes = g.nodes := by
  unfold Graph.add_vertex
  split
  · rfl
  · split <;> rfl

@[simp] theorem add_vertex_directed (g : Graph) (n1 n2 : ℕ) (w : ℚ) :
    (g.add_vertex n1 n2 w).directed = g.directed := by
  unfold Graph.add_vertex
  split
  · rfl
  · split <;> rfl

@[simp] theorem add_vertex_weighted (g : Graph) (n1 n2 : ℕ) (w : ℚ) :
    (g.add_vertex n1 n2 w).weighted = g.weighted := by
  unfold Graph.add_vertex
  split
  · rfl
  · split <;> rfl

@[simp] theorem remove_vertex_nodes (g : Graph) (n1 n2 : ℕ) :
    (g.remove_vertex n1 n2).nodes = g.nodes := rfl

@[simp] theorem remove_vertex_directed (g : Graph) (n1 n2 : ℕ) :
    (g.remove_vertex n1 n2).directed = g.directed := rfl

@[simp] theorem remove_vertex_weighted (g : Graph) (n1 n2 : ℕ) :
    (g.remove_vertex n1 n2).weighted = g.weighted := rfl

@[simp] theorem remove_vertex_vertices (g : Graph) (n1 n2 : ℕ) :
    (g.remove_vertex n1 n2).vertices =
      g.vertices.filter fun v =>
        ¬((v.nfrom = n1 ∧ v.nto = n2) ∨
          (g.directed = false ∧ v.nfrom = n2 ∧ v.nto = n1)) := rfl

@[simp] theorem toggle_vertex_nodes (g : Graph) (n1 n2 : ℕ) :
    (g.toggle_vertex n1 n2).nodes = g.nodes := by
  unfold Graph.toggle_vertex; split <;> simp

@[simp] theorem toggle_vertex_directed (g : Graph) (n1 n2 : ℕ) :
    (g.toggle_vertex n1 n2).directed = g.directed := by
  unfold Graph.toggle_vertex; split <;> simp

@[simp] theorem set_weight_nodes (g : Graph) (n1 n2 : ℕ) (w : ℚ) :
    (g.set_weight n1 n2 w).nodes = g.nodes := rfl

@[simp] theorem set_weight_directed (g : Graph) (n1 n2 : ℕ) (w : ℚ) :
    (g.set_weight n1 n2 w).directed = g.directed := rfl

@[simp] theorem set_weight_components (g : Graph) (n1 n2 : ℕ) (w : ℚ) :
    (g.set_weight n1 n2 w).components = g.components := rfl

theorem set_weight_pairs (g : Graph) (n1 n2 : ℕ) (w : ℚ) :
    (g.set_weight n1 n2 w).vertices.map pairOf = g.vertices.map pairOf := by
  unfold Graph.set_weight
  simp only [List.map_map]
  apply List.map_congr_left
  intro v _
  simp only [Function.comp_apply]
  split <;> rfl

/-! ### Characterization of `add_vertex` / `remove_vertex` -/

theorem add_vertex_guard {g : Graph} {n1 n2 : ℕ} (w : ℚ)
    (h : (n1 = n2 ∧ g.directed = false) ∨ g.isAdj n1 n2) :
    g.add_vertex n1 n2 w = recalc g := by
  have h' : (n1 = n2 ∧ g.directed = false) ∨ g.adjacentTo n1 n2 = true := h
  unfold Graph.add_vertex
  rw [if_pos h']

theorem add_vertex_vertices_directed {g : Graph} {n1 n2 : ℕ} (w : ℚ)
    (hd : g.directed = true) (hg : ¬g.isAdj n1 n2) :
    (g.add_vertex n1 n2 w).vertices = g.vertices ++ [⟨n1, n2, w⟩] := by
  have hc : ¬((n1 = n2 ∧ g.directed = false) ∨ g.adjacentTo n1 n2 = true) := by
    rintro (⟨-, hff⟩ | ha)
    · rw [hd] at hff; exact Bool.noConfusion hff
    · exact hg ha
  unfold Graph.add_vertex
  rw [if_neg hc, if_pos hd]
  rfl

theorem add_vertex_vertices_undirected {g : Graph} {n1 n2 : ℕ} (w : ℚ)
    (hd : g.directed = false) (hne : n1 ≠ n2) (hg : ¬g.isAdj n1 n2) :
    (g.add_vertex n1 n2 w).vertices =
      g.vertices ++ [⟨n1, n2, w⟩, ⟨n2, n1, w⟩] := by
  have hc : ¬((n1 = n2 ∧ g.directed = false) ∨ g.adjacentTo n1 n2 = true) := by
    rintro (⟨he, -⟩ | ha)
    · exact hne he
    · exact hg ha
  have hd' : ¬(g.directed = true) := by rw [hd]; exact Bool.noConfusion
  unfold Graph.add_vertex
  rw [if_neg hc, if_neg hd']
  rfl

theorem mem_remove_vertex_vertices {g : Graph} {n1 n2 : ℕ} {v : Vert} :
    v ∈ (g.remove_vertex n1 n2).vertices ↔
      v ∈ g.vertices ∧ ¬((v.nfrom = n1 ∧ v.nto = n2) ∨
        (g.directed = false ∧ v.nfrom = n2 ∧ v.nto = n1)) := by
  rw [remove_vertex_vertices, List.mem_filter]
  simp only [decide_not, Bool.not_eq_true', decide_eq_false_iff_not]

theorem isAdj_remove_vertex (g : Graph) (n1 n2 a b : ℕ) :
    (g.remove_vertex n1 n2).isAdj a b ↔
      g.isAdj a b ∧ ¬((a = n1 ∧ b = n2) ∨
        (g.directed = false ∧ a = n2 ∧ b = n1)) := by
  rw [isAdj_iff, isAdj_iff]
  constructor
  · rintro ⟨v, hv, hf, ht⟩
    rw [mem_remove_vertex_vertices] at hv
    subst hf; subst ht
    exact ⟨⟨v, hv.1, rfl, rfl⟩, hv.2⟩
  · rintro ⟨⟨v, hv, hf, ht⟩, hnot⟩
    subst hf; subst ht
    exact ⟨v, mem_remove_vertex_vertices.mpr ⟨hv, hnot⟩, rfl, rfl⟩

theorem isAdj_add_vertex_directed {g : Graph} {n1 n2 : ℕ} (w : ℚ)
    (hd : g.directed = true) (a b : ℕ) :
    (g.add_vertex n1 n2 w).isAdj a b ↔ g.isAdj a b ∨ (a = n1 ∧ b = n2) := by
  by_cases hg : g.isAdj n1 n2
  · rw [add_vertex_guard w (Or.inr hg)]
    constructor
    · exact fun h => Or.inl h
    · rintro (h | ⟨rfl, rfl⟩)
      · exact h
      · exact hg
  · rw [isAdj_iff, isAdj_iff]
    rw [show (g.add_vertex n1 n2 w).vertices = g.vertices ++ [⟨n1, n2, w⟩] from
      add_vertex_vertices_directed w hd hg]
    simp only [List.mem_append, List.mem_singleton]
    constructor
    · rintro ⟨v, hv | rfl, hf, ht⟩
      · exact Or.inl ⟨v, hv, hf, ht⟩
      · exact Or.inr ⟨hf.symm, ht.symm⟩
    · rintro (⟨v, hv, hf, ht⟩ | ⟨rfl, rfl⟩)
      · exact ⟨v, Or.inl hv, hf, ht⟩
      · exact ⟨⟨a, b, w⟩, Or.inr rfl, rfl, rfl⟩

/-! ### The well-formedness invariant -/


theorem WF.init : WF initGraph := by
  constructor <;> simp [initGraph, recalcFold]

theorem WF.add_node {g : Graph} (hw : WF g) (n : ℕ) : WF (g.add_node n) := by
  refine ⟨?_, hw.nodup, hw.sym, hw.noloop, rfl⟩
  intro v hv
  obtain ⟨h1, h2⟩ := hw.endpoints v hv
  exact ⟨List.mem_append_left _ h1, List.mem_append_left _ h2⟩

theorem WF.remove_node {g : Graph} (hw : WF g) (n : ℕ) : WF (g.remove_node n) := by
  refine ⟨?_, ?_, ?_, ?_, rfl⟩
  · intro v hv
    simp only [remove_node_vertices, List.mem_filter, decide_eq_true_eq,
      Bool.and_eq_true, decide_not, Bool.not_eq_true', decide_eq_false_iff_not] at hv
    obtain ⟨hv, hf, ht⟩ := hv
    obtain ⟨h1, h2⟩ := hw.endpoints v hv
    exact ⟨List.mem_erase_of_ne hf |>.mpr h1, List.mem_erase_of_ne ht |>.mpr h2⟩
  · exact hw.nodup.sublist (List.filter_sublist _)
  · intro hd v hv
    simp only [remove_node_vertices, List.mem_filter, decide_eq_true_eq,
      Bool.and_eq_true, decide_not, Bool.not_eq_true', decide_eq_false_iff_not] at hv ⊢
    obtain ⟨hv, hf, ht⟩ := hv
    exact ⟨hw.sym hd v hv, ht, hf⟩
  · intro hd v hv
    simp only [remove_node_vertices, List.mem_filter] at hv
    exact hw.noloop hd v hv.1

theorem WF.remove_vertex {g : Graph} (hw : WF g) (n1 n2 : ℕ) :
    WF (g.remove_vertex n1 n2) := by
  refine ⟨?_, ?_, ?_, ?_, rfl⟩
  · intro v hv
    exact hw.endpoints v (mem_remove_vertex_vertices.mp hv).1
  · exact hw.nodup.sublist (List.filter_sublist _)
  · intro hd v hv
    rw [mem_remove_vertex_vertices] at hv
    obtain ⟨hv', hnot⟩ := hv
    rw [mem_remove_vertex_vertices]
    have hdg : g.directed = false := hd
    refine ⟨hw.sym hdg v hv', ?_⟩
    simp only [hdg, true_and] at hnot ⊢
    tauto
  · intro hd v hv
    rw [mem_remove_vertex_vertices] at hv
    exact hw.noloop hd v hv.1

theorem WF.add_vertex {g : Graph} (hw : WF g) {n1 n2 : ℕ}
    (h1 : n1 ∈ g.nodes) (h2 : n2 ∈ g.nodes) (w : ℚ) :
    WF (g.add_vertex n1 n2 w) := by
  by_cases hguard : (n1 = n2 ∧ g.directed = false) ∨ g.isAdj n1 n2
  · rw [add_vertex_guard w hguard]
    exact ⟨hw.endpoints, hw.nodup, hw.sym, hw.noloop, rfl⟩
  · push_neg at hguard
    obtain ⟨hloop, hadj⟩ := hguard
    have hdirEq : (g.add_vertex n1 n2 w).directed = g.directed :=
      add_vertex_directed g n1 n2 w
    have hcompEq : (g.add_vertex n1 n2 w).components =
        recalcFold (g.add_vertex n1 n2 w).nodes (g.add_vertex n1 n2 w).outAdj := by
      unfold Graph.add_vertex
      split
      · rfl
      · split <;> rfl
    cases hd : g.directed with
    | true =>
      have hv := add_vertex_vertices_directed w hd hadj
      refine ⟨?_, ?_, ?_, ?_, hcompEq⟩
      · rw [add_vertex_nodes, hv]
        intro v hmem
        rcases List.mem_append.mp hmem with hm | hm
        · exact hw.endpoints v hm
        · rw [List.mem_singleton] at hm
          subst hm
          exact ⟨h1, h2⟩
      · rw [hv, List.pairwise_append]
        refine ⟨hw.nodup, List.pairwise_singleton _ _, ?_⟩
        intro v hvmem v' hv'
        rw [List.mem_singleton] at hv'
        subst hv'
        intro hpair
        apply hadj
        rw [isAdj_iff]
        exact ⟨v, hvmem, congrArg Prod.fst hpair, congrArg Prod.snd hpair⟩
      · intro hdf
        rw [hdirEq, hd] at hdf
        exact Bool.noConfusion hdf
      · intro hdf
        rw [hdirEq, hd] at hdf
        exact Bool.noConfusion hdf
    | false =>
      have hne : n1 ≠ n2 := fun he => (hloop he).elim hd
      have hv := add_vertex_vertices_undirected w hd hne hadj
      have hadj' : ¬g.isAdj n2 n1 := by
        intro hrev
        apply hadj
        rw [isAdj_iff] at hrev ⊢
        obtain ⟨v, hvm, hf, ht⟩ := hrev
        have := hw.sym hd v hvm
        exact ⟨⟨v.nto, v.nfrom, v.weight⟩, this, by rw [ht], by rw [hf]⟩
      refine ⟨?_, ?_, ?_, ?_, hcompEq⟩
      · rw [add_vertex_nodes, hv]
        intro v hmem
        rcases List.mem_append.mp hmem with hm | hm
        · exact hw.endpoints v hm
        · rw [List.mem_pair] at hm
          rcases hm with hm | hm
          · subst hm; exact ⟨h1, h2⟩
          · subst hm; exact ⟨h2, h1⟩
      · rw [hv, List.pairwise_append]
        refine ⟨hw.nodup, ?_, ?_⟩
        · refine List.pairwise_cons.mpr ⟨?_, List.pairwise_singleton _ _⟩
          intro v' hv'
          rw [List.mem_singleton] at hv'
          subst hv'
          intro hpair
          exact hne (congrArg Prod.fst hpair)
        · intro v hvmem v' hv'
          rw [List.mem_pair] at hv'
          rcases hv' with hm | hm
          · subst hm
            intro hpair
            apply hadj
            rw [isAdj_iff]
            exact ⟨v, hvmem, congrArg Prod.fst hpair, congrArg Prod.snd hpair⟩
          · subst hm
            intro hpair
            apply hadj'
            rw [isAdj_iff]
            exact ⟨v, hvmem, congrArg Prod.fst hpair, congrArg Prod.snd hpair⟩
      · intro hdf v hvm
        rw [hv] at hvm ⊢
        rcases List.mem_append.mp hvm with hm | hm
        · exact List.mem_append_left _ (hw.sym hd v hm)
        · rw [List.mem_pair] at hm
          rcases hm with hm | hm
          · subst hm
            apply List.mem_append_right
            rw [List.mem_pair]
            exact Or.inr rfl
          · subst hm
            apply List.mem_append_right
            rw [List.mem_pair]
            exact Or.inl rfl
      · intro hdf v hvm
        rw [hv] at hvm
        rcases List.mem_append.mp hvm with hm | hm
        · exact hw.noloop hd v hm
        · rw [List.mem_pair] at hm
          rcases hm with hm | hm
          · subst hm; exact hne
          · subst hm; exact hne.symm

theorem WF.toggle_vertex {g : Graph} (hw : WF g) {n1 n2 : ℕ}
    (h1 : n1 ∈ g.nodes) (h2 : n2 ∈ g.nodes) :
    WF (g.toggle_vertex n1 n2) := by
  unfold Graph.toggle_vertex
  split
  · exact hw.remove_vertex n1 n2
  · exact hw.add_vertex h1 h2 1

theorem WF.set_weighted {g : Graph} (hw : WF g) (b : Bool) :
    WF (g.set_weighted b) :=
  ⟨hw.endpoints, hw.nodup, hw.sym, hw.noloop, by
    have : (g.set_weighted b).outAdj = g.outAdj := by
      funext n; exact outAdj_congr rfl n
    rw [show (g.set_weighted b).components = g.components from rfl, this, hw.comps]
    rfl⟩

theorem pairwise_pair_congr {l1 l2 : List Vert}
    (h : l1.map pairOf = l2.map pairOf) :
    (l1.Pairwise fun a b => pairOf a ≠ pairOf b) ↔
      (l2.Pairwise fun a b => pairOf a ≠ pairOf b) := by
  rw [← List.pairwise_map (f := pairOf) (R := (· ≠ ·)),
    ← List.pairwise_map (f := pairOf) (R := (· ≠ ·)), h]

theorem mem_of_pair_mem {l1 l2 : List Vert}
    (h : l1.map pairOf = l2.map pairOf) {v : Vert} (hv : v ∈ l1) :
    ∃ v' ∈ l2, v'.nfrom = v.nfrom ∧ v'.nto = v.nto := by
  have : pairOf v ∈ l2.map pairOf := by
    rw [← h]; exact List.mem_map_of_mem pairOf hv
  obtain ⟨w, hw, hpw⟩ := List.mem_map.mp this
  exact ⟨w, hw, congrArg Prod.fst hpw, congrArg Prod.snd hpw⟩

theorem WF.set_weight {g : Graph} (hw : WF g) (n1 n2 : ℕ) (w : ℚ) :
    WF (g.set_weight n1 n2 w) := by
  have hpairs := set_weight_pairs g n1 n2 w
  refine ⟨?_, ?_, ?_, ?_, ?_⟩
  · intro v hv
    obtain ⟨v', hv', hf, ht⟩ := mem_of_pair_mem hpairs hv
    obtain ⟨e1, e2⟩ := hw.endpoints v' hv'
    rw [← hf, ← ht]
    exact ⟨e1, e2⟩
  · exact (pairwise_pair_congr hpairs).mpr hw.nodup
  · intro hd v hv
    have hdg : g.directed = false := hd
    unfold Graph.set_weight at hv ⊢
    obtain ⟨u, hu, hueq⟩ := List.mem_map.mp hv
    by_cases hcond : (u.nfrom = n1 ∧ u.nto = n2) ∨
        (g.directed = false ∧ u.nfrom = n2 ∧ u.nto = n1)
    · rw [if_pos hcond] at hueq
      subst hueq
      refine List.mem_map.mpr ⟨⟨u.nto, u.nfrom, u.weight⟩, hw.sym hdg u hu, ?_⟩
      rw [if_pos ?_]
      rcases hcond with ⟨hf, ht⟩ | ⟨-, hf, ht⟩
      · exact Or.inr ⟨hdg, by rw [ht], by rw [hf]⟩
      · exact Or.inl ⟨by rw [ht], by rw [hf]⟩
    · rw [if_neg hcond] at hueq
      subst hueq
      refine List.mem_map.mpr ⟨⟨u.nto, u.nfrom, u.weight⟩, hw.sym hdg u hu, ?_⟩
      rw [if_neg ?_]
      rintro (⟨hf, ht⟩ | ⟨-, hf, ht⟩)
      · exact hcond (Or.inr ⟨hdg, by exact ht, by exact hf⟩)
      · exact hcond (Or.inl ⟨by exact ht, by exact hf⟩)
  · intro hd v hv
    obtain ⟨v', hv', hf, ht⟩ := mem_of_pair_mem hpairs hv
    have hdg : g.directed = false := hd
    have := hw.noloop hdg v' hv'
    rw [← hf, ← ht]
    exact this
  · rw [set_weight_components, hw.comps, set_weight_nodes]
    congr 1
    funext n
    exact (outAdj_congr hpairs n).symm

/-! ### The weight-equalization loop of `set_directed` -/

theorem eqStep_getElem? (vs : List Vert) (i j : ℕ) {v1 : Vert}
    (hi : vs[i]? = some v1) :
    (eqStep vs i)[j]? = (vs[j]?).map fun v2 =>
      if v1.nfrom = v2.nto ∧ v1.nto = v2.nfrom then
        { v2 with weight := v1.weight } else v2 := by
  unfold eqStep
  rw [hi]
  exact List.getElem?_map _ _ _

theorem eqStep_pairs (vs : List Vert) (i : ℕ) :
    (eqStep vs i).map pairOf = vs.map pairOf := by
  unfold eqStep
  cases h : vs[i]? with
  | none => rfl
  | some v1 =>
    rw [List.map_map]
    apply List.map_congr_left
    intro v _
    simp only [Function.comp_apply]
    split <;> rfl


theorem equalizeUpTo_succ (vs : List Vert) (k : ℕ) :
    equalizeUpTo vs (k + 1) = eqStep (equalizeUpTo vs k) k := by
  unfold equalizeUpTo
  rw [List.range_succ, List.foldl_append]
  rfl

theorem equalizeUpTo_pairs (vs : List Vert) (k : ℕ) :
    (equalizeUpTo vs k).map pairOf = vs.map pairOf := by
  induction k with
  | zero => rfl
  | succ k ih => rw [equalizeUpTo_succ, eqStep_pairs, ih]

theorem equalizeWeights_eq_upTo (vs : List Vert) :
    equalizeWeights vs = equalizeUpTo vs vs.length := rfl

theorem equalizeWeights_pairs (vs : List Vert) :
    (equalizeWeights vs).map pairOf = vs.map pairOf :=
  equalizeUpTo_pairs vs vs.length

theorem pairOf_getElem?_congr {l1 l2 : List Vert}
    (h : l1.map pairOf = l2.map pairOf) (j : ℕ) :
    (l1[j]?).map pairOf = (l2[j]?).map pairOf := by
  rw [← List.getElem?_map, ← List.getElem?_map, h]

/-- After the full equalization loop, any two entries whose endpoint
pairs are mutually reversed carry the same weight (given no duplicate
pairs in the input). -/
theorem equalizeUpTo_symWeights (vs : List Vert)
    (hnd : ∀ i j : ℕ, i ≠ j → ∀ vi vj : Vert, vs[i]? = some vi →
      vs[j]? = some vj → pairOf vi ≠ pairOf vj) (k : ℕ) :
    ∀ i < k, ∀ (j : ℕ) (vi vj : Vert), (equalizeUpTo vs k)[i]? = some vi →
      (equalizeUpTo vs k)[j]? = some vj →
      vj.nfrom = vi.nto → vj.nto = vi.nfrom → vj.weight = vi.weight := by
  induction k with
  | zero => intro i hi; omega
  | succ k ih =>
    intro i hik j vi vj hvi hvj hjf hjt
    rw [equalizeUpTo_succ] at hvi hvj
    -- pair information is stable, so positions keep their endpoint pairs
    have hpairs := equalizeUpTo_pairs vs k
    cases hk : (equalizeUpTo vs k)[k]? with
    | none =>
      -- index k out of range: eqStep is the identity
      have hid : eqStep (equalizeUpTo vs k) k = equalizeUpTo vs k := by
        unfold eqStep; rw [hk]
      rw [hid] at hvi hvj
      rcases Nat.lt_succ_iff_lt_or_eq.mp hik with hik' | rfl
      · exact ih i hik' j vi vj hvi hvj hjf hjt
      · rw [hvi] at hk; cases hk
    | some vk =>
      rw [eqStep_getElem? _ _ _ hk] at hvi hvj
      cases hvi' : (equalizeUpTo vs k)[i]? with
      | none => rw [hvi'] at hvi; cases hvi
      | some ui =>
        cases hvj' : (equalizeUpTo vs k)[j]? with
        | none => rw [hvj'] at hvj; cases hvj
        | some uj =>
          rw [hvi'] at hvi
          rw [hvj'] at hvj
          simp only [Option.map_some', Option.some_inj] at hvi hvj
          -- positional pair-distinctness transfers to the partial run
          have hnd' : ∀ a b : ℕ, a ≠ b → ∀ va vb : Vert,
              (equalizeUpTo vs k)[a]? = some va →
              (equalizeUpTo vs k)[b]? = some vb → pairOf va ≠ pairOf vb := by
            intro a b hab va vb hva hvb
            have ha := pairOf_getElem?_congr hpairs a
            have hb := pairOf_getElem?_congr hpairs b
            rw [hva] at ha
            rw [hvb] at hb
            cases hva' : vs[a]? with
            | none => rw [hva'] at ha; cases ha
            | some wa =>
              cases hvb' : vs[b]? with
              | none => rw [hvb'] at hb; cases hb
              | some wb =>
                rw [hva'] at ha
                rw [hvb'] at hb
                simp only [Option.map_some', Option.some_inj] at ha hb
                rw [ha, hb]
                exact hnd a b hab wa wb hva' hvb'
          rcases Nat.lt_succ_iff_lt_or_eq.mp hik with hik' | rfl
          · -- i was already processed in the partial run
            by_cases hjaff : vk.nfrom = uj.nto ∧ vk.nto = uj.nfrom
            · -- position j is re-assigned by step k: pair_j is the reverse
              -- of pair_k, and pair_j is the reverse of pair_i, so i = k,
              -- contradicting i < k — unless j = k is itself involved
              rw [if_pos hjaff] at hvj
              subst hvj
              by_cases hiaff : vk.nfrom = ui.nto ∧ vk.nto = ui.nfrom
              · rw [if_pos hiaff] at hvi
                subst hvi
                -- both i and j reversed against k: pair_i = pair_j
                -- (both are the reverse of pair_k); nodup forces i = j
                by_cases hij : i = j
                · subst hij
                  rfl
                · exfalso
                  apply hnd' i j hij ui uj hvi' hvj'
                  dsimp only at hjf hjt
                  unfold pairOf
                  rw [Prod.mk.injEq]
                  omega
              · rw [if_neg hiaff] at hvi
                subst hvi
                -- i untouched; pair_k = reverse pair_i would force i = k
                -- so k is untouched by its own step unless loop; here the
                -- relation pair_j = rev pair_i and pair_j = rev pair_k
                -- forces pair_i = pair_k, so i = k, contradiction
                exfalso
                have hik2 : i = k := by
                  by_contra hne
                  apply hnd' i k hne ui vk hvi' hk
                  dsimp only at hjf hjt
                  unfold pairOf
                  rw [Prod.mk.injEq]
                  omega
                omega
            · rw [if_neg hjaff] at hvj
              subst hvj
              by_cases hiaff : vk.nfrom = ui.nto ∧ vk.nto = ui.nfrom
              · -- i re-assigned from k: then pair_k = rev pair_i = pair_j,
                -- nodup gives j = k, and k itself is untouched
                rw [if_pos hiaff] at hvi
                subst hvi
                have hjk : j = k := by
                  by_contra hne
                  apply hnd' j k hne uj vk hvj' hk
                  dsimp only at hjf hjt
                  unfold pairOf
                  rw [Prod.mk.injEq]
                  omega
                subst hjk
                rw [hk] at hvj'
                cases hvj'
                rfl
              · rw [if_neg hiaff] at hvi
                subst hvi
                exact ih i hik' j ui uj hvi' hvj' hjf hjt
          · -- i = k : freshly processed index
            rw [hvi'] at hk
            injection hk with hkk
            subst hkk
            by_cases hjaff : ui.nfrom = uj.nto ∧ ui.nto = uj.nfrom
            · rw [if_pos hjaff] at hvj
              subst hvj
              by_cases hiaff : ui.nfrom = ui.nto ∧ ui.nto = ui.nfrom
              · rw [if_pos hiaff] at hvi
                subst hvi
                rfl
              · rw [if_neg hiaff] at hvi
                subst hvi
                rfl
            · rw [if_neg hjaff] at hvj
              subst hvj
              exfalso
              apply hjaff
              have h1 : vi.nto = ui.nto := by
                rw [← hvi]; split <;> rfl
              have h2 : vi.nfrom = ui.nfrom := by
                rw [← hvi]; split <;> rfl
              constructor
              · omega
              · omega

theorem pairwise_nodup_positional {vs : List Vert}
    (hnd : vs.Pairwise fun a b => pairOf a ≠ pairOf b) :
    ∀ i j : ℕ, i ≠ j → ∀ vi vj : Vert, vs[i]? = some vi → vs[j]? = some vj →
      pairOf vi ≠ pairOf vj := by
  intro i j hij vi vj hvi hvj
  have hi : i < vs.length := by
    by_contra h
    rw [List.getElem?_eq_none (by omega)] at hvi
    cases hvi
  have hj : j < vs.length := by
    by_contra h
    rw [List.getElem?_eq_none (by omega)] at hvj
    cases hvj
  rw [List.getElem?_eq_getElem hi] at hvi
  rw [List.getElem?_eq_getElem hj] at hvj
  have hvi' := Option.some.inj hvi
  have hvj' := Option.some.inj hvj
  subst hvi'
  subst hvj'
  have hp := List.pairwise_iff_getElem.mp hnd
  rcases Nat.lt_or_ge i j with hlt | hge
  · exact hp i j hi hj hlt
  · have hlt : j < i := by omega
    exact fun he => (hp j i hj hi hlt) he.symm

theorem equalizeWeights_symWeights (vs : List Vert)
    (hnd : vs.Pairwise fun a b => pairOf a ≠ pairOf b) :
    ∀ v ∈ equalizeWeights vs, ∀ v' ∈ equalizeWeights vs,
      v'.nfrom = v.nto → v'.nto = v.nfrom → v'.weight = v.weight := by
  intro v hv v' hv' hf ht
  obtain ⟨i, hi, hvi⟩ := List.mem_iff_getElem.mp hv
  obtain ⟨j, hj, hvj⟩ := List.mem_iff_getElem.mp hv'
  have hlen : (equalizeWeights vs).length = vs.length := by
    have := congrArg List.length (equalizeWeights_pairs vs)
    simpa using this
  refine equalizeUpTo_symWeights vs (pairwise_nodup_positional hnd) vs.length
    i (by omega) j v v' ?_ ?_ hf ht
  · rw [← equalizeWeights_eq_upTo, List.getElem?_eq_getElem hi, hvi]
  · rw [← equalizeWeights_eq_upTo, List.getElem?_eq_getElem hj, hvj]

/-! ### The conversion pass of `set_directed` -/

theorem mem_outAdjList (g : Graph) (n m : ℕ) :
    m ∈ g.outAdjList n ↔ g.isAdj n m := by
  unfold Graph.outAdjList
  rw [List.mem_dedup, isAdj_iff]
  simp only [List.mem_map, List.mem_filter, decide_eq_true_eq]
  constructor
  · rintro ⟨v, ⟨hv, hf⟩, ht⟩
    exact ⟨v, hv, hf, ht⟩
  · rintro ⟨v, hv, hf, ht⟩
    exact ⟨v, ⟨hv, hf⟩, ht⟩

theorem isAdj_mem_nodes {g : Graph} (hw : WF g) {a b : ℕ} (h : g.isAdj a b) :
    a ∈ g.nodes ∧ b ∈ g.nodes := by
  rw [isAdj_iff] at h
  obtain ⟨v, hv, hf, ht⟩ := h
  obtain ⟨e1, e2⟩ := hw.endpoints v hv
  rw [hf] at e1
  rw [ht] at e2
  exact ⟨e1, e2⟩

theorem convInner_spec (node : ℕ) :
    ∀ (S : List ℕ) (acc : Graph), WF acc → acc.directed = true →
      node ∈ acc.nodes → (∀ nb ∈ S, nb ∈ acc.nodes) →
      WF (S.foldl (convInnerStep node) acc) ∧
      (S.foldl (convInnerStep node) acc).directed = true ∧
      (S.foldl (convInnerStep node) acc).nodes = acc.nodes ∧
      (S.foldl (convInnerStep node) acc).weighted = acc.weighted ∧
      ∀ a b, (S.foldl (convInnerStep node) acc).isAdj a b ↔
        ((acc.isAdj a b ∧ ¬(a = node ∧ b = node ∧ node ∈ S)) ∨
         (a ∈ S ∧ a ≠ node ∧ b = node)) := by
  intro S
  induction S with
  | nil =>
    intro acc hw hdir hnode _
    refine ⟨hw, hdir, rfl, rfl, ?_⟩
    intro a b
    simp
  | cons nb S' ih =>
    intro acc hw hdir hnode hS
    rw [List.foldl_cons]
    by_cases hnb : node = nb
    · -- loop removal step
      subst hnb
      have hstep : convInnerStep node acc node = acc.remove_vertex node node := by
        unfold convInnerStep
        rw [if_pos rfl]
      rw [hstep]
      have hw1 := hw.remove_vertex node node
      have hdir1 : (acc.remove_vertex node node).directed = true := hdir
      have hnode1 : node ∈ (acc.remove_vertex node node).nodes := hnode
      have hS1 : ∀ x ∈ S', x ∈ (acc.remove_vertex node node).nodes :=
        fun x hx => hS x (List.mem_cons_of_mem _ hx)
      obtain ⟨hwR, hdirR, hnodesR, hwtR, hadjR⟩ := ih _ hw1 hdir1 hnode1 hS1
      refine ⟨hwR, hdirR, hnodesR.trans rfl, hwtR.trans rfl, ?_⟩
      intro a b
      rw [hadjR a b, isAdj_remove_vertex]
      have hdd : ¬(acc.directed = false) := by rw [hdir]; exact Bool.noConfusion
      constructor
      · rintro (⟨⟨hE, hne⟩, hnn⟩ | ⟨haS, han, hb⟩)
        · refine Or.inl ⟨hE, ?_⟩
          rintro ⟨ha, hb, -⟩
          exact hne (Or.inl ⟨ha, hb⟩)
        · exact Or.inr ⟨List.mem_cons_of_mem _ haS, han, hb⟩
      · rintro (⟨hE, hnn⟩ | ⟨haS, han, hb⟩)
        · refine Or.inl ⟨⟨hE, ?_⟩, ?_⟩
          · rintro (⟨ha, hb⟩ | ⟨hdf, -⟩)
            · exact hnn ⟨ha, hb, List.mem_cons_self _ _⟩
            · exact hdd hdf
          · rintro ⟨ha, hb, hmem⟩
            exact hnn ⟨ha, hb, List.mem_cons_self _ _⟩
        · rcases List.mem_cons.mp haS with rfl | haS'
          · exact absurd rfl han
          · exact Or.inr ⟨haS', han, hb⟩
    · -- reverse-vertex addition step
      have hstep : convInnerStep node acc nb = acc.add_vertex nb node 1 := by
        unfold convInnerStep
        rw [if_neg hnb]
      rw [hstep]
      have hw1 := hw.add_vertex (hS nb (List.mem_cons_self _ _)) hnode 1
      have hdir1 : (acc.add_vertex nb node 1).directed = true := by
        rw [add_vertex_directed]; exact hdir
      have hnode1 : node ∈ (acc.add_vertex nb node 1).nodes := by
        rw [add_vertex_nodes]; exact hnode
      have hS1 : ∀ x ∈ S', x ∈ (acc.add_vertex nb node 1).nodes := by
        intro x hx
        rw [add_vertex_nodes]
        exact hS x (List.mem_cons_of_mem _ hx)
      obtain ⟨hwR, hdirR, hnodesR, hwtR, hadjR⟩ := ih _ hw1 hdir1 hnode1 hS1
      refine ⟨hwR, hdirR, hnodesR.trans (add_vertex_nodes _ _ _ _),
        hwtR.trans (add_vertex_weighted _ _ _ _), ?_⟩
      intro a b
      rw [hadjR a b, isAdj_add_vertex_directed 1 hdir]
      have h1 : (a = nb ∧ b = node) → ¬(a = node) := by
        rintro ⟨rfl, -⟩ rfl
        exact hnb rfl
      constructor
      · rintro (⟨hE | ⟨ha, hb⟩, hnn⟩ | ⟨haS, han, hb⟩)
        · refine Or.inl ⟨hE, ?_⟩
          rintro ⟨ha, hb, hmem⟩
          rcases List.mem_cons.mp hmem with he | hmem'
          · exact hnb he
          · exact hnn ⟨ha, hb, hmem'⟩
        · exact Or.inr ⟨List.mem_cons.mpr (Or.inl ha), h1 ⟨ha, hb⟩, hb⟩
        · exact Or.inr ⟨List.mem_cons_of_mem _ haS, han, hb⟩
      · rintro (⟨hE, hnn⟩ | ⟨haS, han, hb⟩)
        · refine Or.inl ⟨Or.inl hE, ?_⟩
          rintro ⟨ha, hb, hmem'⟩
          exact hnn ⟨ha, hb, List.mem_cons.mpr (Or.inr hmem')⟩
        · rcases List.mem_cons.mp haS with rfl | haS'
          · exact Or.inl ⟨Or.inr ⟨rfl, hb⟩, by
              rintro ⟨ha, -, -⟩
              exact han ha⟩
          · exact Or.inr ⟨haS', han, hb⟩

theorem convOuter_spec :
    ∀ (L : List ℕ) (acc : Graph), WF acc → acc.directed = true →
      (∀ n ∈ L, n ∈ acc.nodes) →
      WF (L.foldl convOuterStep acc) ∧
      (L.foldl convOuterStep acc).directed = true ∧
      (L.foldl convOuterStep acc).nodes = acc.nodes ∧
      (L.foldl convOuterStep acc).weighted = acc.weighted ∧
      ∀ a b, (L.foldl convOuterStep acc).isAdj a b ↔
        ((acc.isAdj a b ∧ ¬(a = b ∧ a ∈ L)) ∨
         (acc.isAdj b a ∧ b ∈ L ∧ a ≠ b)) := by
  intro L
  induction L with
  | nil =>
    intro acc hw hdir _
    refine ⟨hw, hdir, rfl, rfl, ?_⟩
    intro a b
    simp
  | cons u L' ih =>
    intro acc hw hdir hL
    rw [List.foldl_cons]
    have hu : u ∈ acc.nodes := hL u (List.mem_cons_self _ _)
    have hSmem : ∀ nb ∈ acc.outAdjList u, nb ∈ acc.nodes := by
      intro nb hnb
      rw [mem_outAdjList] at hnb
      exact (isAdj_mem_nodes hw hnb).2
    obtain ⟨hw1, hdir1, hnodes1, hwt1, hadj1⟩ :=
      convInner_spec u (acc.outAdjList u) acc hw hdir hu hSmem
    -- simplify the inner formula: snapshot membership is adjacency
    have hadj1' : ∀ a b, (convOuterStep acc u).isAdj a b ↔
        ((acc.isAdj a b ∧ ¬(a = u ∧ b = u)) ∨
         (acc.isAdj u a ∧ a ≠ u ∧ b = u)) := by
      intro a b
      rw [show convOuterStep acc u =
        (acc.outAdjList u).foldl (convInnerStep u) acc from rfl, hadj1 a b]
      rw [mem_outAdjList, mem_outAdjList]
      constructor
      · rintro (⟨hE, hnn⟩ | ⟨haS, han, hb⟩)
        · refine Or.inl ⟨hE, ?_⟩
          rintro ⟨rfl, rfl⟩
          exact hnn ⟨rfl, rfl, hE⟩
        · exact Or.inr ⟨haS, han, hb⟩
      · rintro (⟨hE, hnn⟩ | ⟨haS, han, hb⟩)
        · refine Or.inl ⟨hE, ?_⟩
          rintro ⟨ha, hb, -⟩
          exact hnn ⟨ha, hb⟩
        · exact Or.inr ⟨haS, han, hb⟩
    have hL1 : ∀ n ∈ L', n ∈ (convOuterStep acc u).nodes := by
      intro n hn
      rw [show (convOuterStep acc u).nodes = acc.nodes from hnodes1]
      exact hL n (List.mem_cons_of_mem _ hn)
    obtain ⟨hwR, hdirR, hnodesR, hwtR, hadjR⟩ := ih (convOuterStep acc u) hw1 hdir1 hL1
    refine ⟨hwR, hdirR, hnodesR.trans hnodes1, hwtR.trans hwt1, ?_⟩
    intro a b
    rw [hadjR a b, hadj1' a b, hadj1' b a]
    constructor
    · rintro (⟨h1, h2⟩ | ⟨h1, hbL, hab⟩)
      · rcases h1 with ⟨hE, hnuu⟩ | ⟨hEua, hau, rfl⟩
        · by_cases hab : a = b
          · subst hab
            have hau : a ≠ u := fun he => hnuu ⟨he, he⟩
            have haL : a ∉ L' := fun hm => h2 ⟨rfl, hm⟩
            refine Or.inl ⟨hE, ?_⟩
            rintro ⟨-, hmem⟩
            rcases List.mem_cons.mp hmem with he | hm
            · exact hau he
            · exact haL hm
          · refine Or.inl ⟨hE, ?_⟩
            rintro ⟨he, -⟩
            exact hab he
        · exact Or.inr ⟨hEua, List.mem_cons_self _ _, hau⟩
      · rcases h1 with ⟨hEba, -⟩ | ⟨hEub, hbu, rfl⟩
        · exact Or.inr ⟨hEba, List.mem_cons_of_mem _ hbL, hab⟩
        · refine Or.inl ⟨hEub, ?_⟩
          rintro ⟨he, -⟩
          exact hab he
    · rintro (⟨hE, hnab⟩ | ⟨hE, hbmem, hab⟩)
      · by_cases hab : a = b
        · subst hab
          have hmem : a ∉ u :: L' := fun hm => hnab ⟨rfl, hm⟩
          have hau : a ≠ u := fun he => hmem (he ▸ List.mem_cons_self _ _)
          have haL : a ∉ L' := fun hm => hmem (List.mem_cons_of_mem _ hm)
          refine Or.inl ⟨Or.inl ⟨hE, ?_⟩, ?_⟩
          · rintro ⟨he, -⟩
            exact hau he
          · rintro ⟨-, hm⟩
            exact haL hm
        · refine Or.inl ⟨Or.inl ⟨hE, ?_⟩, ?_⟩
          · rintro ⟨h1, h2⟩
            exact hab (h1.trans h2.symm)
          · rintro ⟨he, -⟩
            exact hab he
      · rcases List.mem_cons.mp hbmem with rfl | hbL
        · refine Or.inl ⟨Or.inr ⟨hE, hab, rfl⟩, ?_⟩
          · rintro ⟨he, -⟩
            exact hab he
        · refine Or.inr ⟨Or.inl ⟨hE, ?_⟩, hbL, hab⟩
          rintro ⟨h1, h2⟩
          exact hab (h2.trans h1.symm)

theorem set_directed_undirected (g : Graph) (hd : g.directed = false) (d : Bool) :
    g.set_directed d = { g with directed := d } := by
  unfold Graph.set_directed
  rw [if_neg (by rw [hd]; exact Bool.noConfusion)]

theorem mem_vertices_isAdj {g : Graph} {v : Vert} (hv : v ∈ g.vertices) :
    g.isAdj v.nfrom v.nto := by
  rw [isAdj_iff]
  exact ⟨v, hv, rfl, rfl⟩

/-- Full behaviour of `set_directed` called on a *directed* graph: the
conversion body runs; the result carries flag `d`, the same nodes, and the
symmetric closure of the old edges with loops dropped; mirrored vertices
end up with equal weights. -/
theorem set_directed_directed_spec (g : Graph) (hw : WF g)
    (hd : g.directed = true) (d : Bool) :
    WF (g.set_directed d) ∧
    (g.set_directed d).directed = d ∧
    (g.set_directed d).nodes = g.nodes ∧
    (g.set_directed d).weighted = g.weighted ∧
    (∀ a b, (g.set_directed d).isAdj a b ↔
      (a ≠ b ∧ (g.isAdj a b ∨ g.isAdj b a))) ∧
    (∀ v ∈ (g.set_directed d).vertices,
      (⟨v.nto, v.nfrom, v.weight⟩ : Vert) ∈ (g.set_directed d).vertices) := by
  obtain ⟨hw1, hdir1, hnodes1, hwt1, hadj1⟩ :=
    convOuter_spec g.nodes g hw hd (fun n hn => hn)
  set g1 := g.nodes.foldl convOuterStep g with hg1
  have hres : g.set_directed d =
      { directed := d, weighted := g1.weighted, nodes := g1.nodes,
        vertices := equalizeWeights g1.vertices,
        components := g1.components } := by
    unfold Graph.set_directed
    rw [if_pos hd]
  have hpairs : (g.set_directed d).vertices.map pairOf =
      g1.vertices.map pairOf := by
    rw [hres]
    exact equalizeWeights_pairs g1.vertices
  have hadjc : ∀ a b, (g.set_directed d).isAdj a b ↔ g1.isAdj a b :=
    fun a b => isAdj_congr hpairs a b
  have hadjFinal : ∀ a b, (g.set_directed d).isAdj a b ↔
      (a ≠ b ∧ (g.isAdj a b ∨ g.isAdj b a)) := by
    intro a b
    rw [hadjc a b, hadj1 a b]
    constructor
    · rintro (⟨hE, hn⟩ | ⟨hE, -, hab⟩)
      · refine ⟨?_, Or.inl hE⟩
        intro he
        subst he
        exact hn ⟨rfl, (isAdj_mem_nodes hw hE).1⟩
      · exact ⟨hab, Or.inr hE⟩
    · rintro ⟨hab, hE | hE⟩
      · refine Or.inl ⟨hE, ?_⟩
        rintro ⟨he, -⟩
        exact hab he
      · exact Or.inr ⟨hE, (isAdj_mem_nodes hw hE).1, hab⟩
  have hsymW : ∀ v ∈ (g.set_directed d).vertices,
      (⟨v.nto, v.nfrom, v.weight⟩ : Vert) ∈ (g.set_directed d).vertices := by
    intro v hv
    have hvadj : (g.set_directed d).isAdj v.nfrom v.nto := mem_vertices_isAdj hv
    have hrev : (g.set_directed d).isAdj v.nto v.nfrom := by
      rw [hadjFinal] at hvadj ⊢
      exact ⟨fun he => hvadj.1 he.symm, hvadj.2.symm⟩
    rw [isAdj_iff] at hrev
    obtain ⟨v', hv', hf, ht⟩ := hrev
    have hveq : v' = ⟨v.nto, v.nfrom, v.weight⟩ := by
      have hw' : v'.weight = v.weight := by
        have hq := equalizeWeights_symWeights g1.vertices hw1.nodup
        rw [hres] at hv hv'
        exact hq v hv v' hv' hf ht
      cases v'
      simp only [Vert.mk.injEq]
      exact ⟨hf, ht, hw'⟩
    rw [← hveq]
    exact hv'
  refine ⟨?_, ?_, ?_, ?_, hadjFinal, hsymW⟩
  · refine ⟨?_, ?_, ?_, ?_, ?_⟩
    · intro v hv
      obtain ⟨v', hv', hf, ht⟩ := mem_of_pair_mem hpairs hv
      obtain ⟨e1, e2⟩ := hw1.endpoints v' hv'
      rw [hf] at e1
      rw [ht] at e2
      have hn : (g.set_directed d).nodes = g1.nodes := by rw [hres]
      rw [hn]
      exact ⟨e1, e2⟩
    · exact (pairwise_pair_congr hpairs).mpr hw1.nodup
    · intro _ v hv
      exact hsymW v hv
    · intro _ v hv
      have := mem_vertices_isAdj hv
      rw [hadjFinal] at this
      exact this.1
    · have hn : (g.set_directed d).nodes = g1.nodes := by rw [hres]
      have hc : (g.set_directed d).components = g1.components := by rw [hres]
      have ho : (g.set_directed d).outAdj = g1.outAdj := by
        funext n
        exact outAdj_congr hpairs n
      rw [hc, hw1.comps, hn, ho]
  · rw [hres]
  · rw [hres]
    exact hnodes1
  · rw [hres]
    exact hwt1

theorem WF.set_directed {g : Graph} (hw : WF g) (d : Bool) :
    WF (g.set_directed d) := by
  cases hd : g.directed with
  | false =>
    rw [set_directed_undirected g hd d]
    refine ⟨hw.endpoints, hw.nodup, ?_, ?_, ?_⟩
    · intro _ v hv
      exact hw.sym hd v hv
    · intro _ v hv
      exact hw.noloop hd v hv
    · show g.components = _
      rw [hw.comps]
      rfl
  | true => exact (set_directed_directed_spec g hw hd d).1

/-! ### `reorient` and `complement` -/

theorem pairsFrom_mem {l : List ℕ} {p : ℕ × ℕ} (hp : p ∈ pairsFrom l) :
    p.1 ∈ l ∧ p.2 ∈ l := by
  unfold pairsFrom at hp
  simp only [List.mem_flatMap, List.mem_range] at hp
  obtain ⟨i, hi, hmem⟩ := hp
  cases h : l[i]? with
  | none =>
    rw [h] at hmem
    cases hmem
  | some n1 =>
    rw [h] at hmem
    obtain ⟨n2, hn2, hpe⟩ := List.mem_map.mp hmem
    subst hpe
    exact ⟨List.getElem?_mem h, List.mem_of_mem_drop hn2⟩

theorem foldl_preserves_WF {α : Type} (f : Graph → α → Graph) (N : List ℕ) :
    ∀ (l : List α), (∀ acc x, x ∈ l → WF acc → acc.nodes = N →
        WF (f acc x) ∧ (f acc x).nodes = N) →
      ∀ acc, WF acc → acc.nodes = N →
        WF (l.foldl f acc) ∧ (l.foldl f acc).nodes = N := by
  intro l
  induction l with
  | nil =>
    intro _ acc h hn
    exact ⟨h, hn⟩
  | cons x xs ih =>
    intro hstep acc h hn
    rw [List.foldl_cons]
    obtain ⟨h1, hn1⟩ := hstep acc x (List.mem_cons_self _ _) h hn
    exact ih (fun acc' x' hx' => hstep acc' x' (List.mem_cons_of_mem _ hx')) _ h1 hn1

theorem WF.reorient {g : Graph} (hw : WF g) : WF g.reorient := by
  unfold Graph.reorient
  refine (foldl_preserves_WF _ g.nodes (pairsFrom g.nodes) ?_ g hw rfl).1
  intro acc p hp hacc hn
  obtain ⟨h1, h2⟩ := pairsFrom_mem hp
  rw [← hn] at h1 h2
  split
  · have hw1 := hacc.toggle_vertex h1 h2
    have hn1 : (acc.toggle_vertex p.1 p.2).nodes = acc.nodes :=
      toggle_vertex_nodes acc p.1 p.2
    refine ⟨hw1.toggle_vertex ?_ ?_, ?_⟩
    · rw [hn1]; exact h2
    · rw [hn1]; exact h1
    · rw [toggle_vertex_nodes, hn1, hn]
  · exact ⟨hacc, hn⟩

theorem WF.complement {g : Graph} (hw : WF g) : WF g.complement := by
  unfold Graph.complement
  refine (foldl_preserves_WF _ g.nodes (pairsFrom g.nodes) ?_ g hw rfl).1
  intro acc p hp hacc hn
  obtain ⟨h1, h2⟩ := pairsFrom_mem hp
  rw [← hn] at h1 h2
  have hw1 := hacc.toggle_vertex h1 h2
  have hn1 : (acc.toggle_vertex p.1 p.2).nodes = acc.nodes :=
    toggle_vertex_nodes acc p.1 p.2
  split
  · refine ⟨hw1.toggle_vertex ?_ ?_, ?_⟩
    · rw [hn1]; exact h2
    · rw [hn1]; exact h1
    · rw [toggle_vertex_nodes, hn1, hn]
  · exact ⟨hw1, hn1.trans hn⟩

/-- Every state reachable through the public API is well-formed: in
particular the cached component array always matches a fresh rebuild. -/
theorem reachable_wf {g : Graph} (h : Reachable g) : WF g := by
  induction h with
  | init => exact WF.init
  | add_node _ _ ih => exact ih.add_node _
  | remove_node _ _ ih => exact ih.remove_node _
  | add_vertex _ h1 h2 ih => exact ih.add_vertex h1 h2 _
  | remove_vertex _ ih => exact ih.remove_vertex _ _
  | toggle_vertex _ h1 h2 ih => exact ih.toggle_vertex h1 h2
  | set_weight _ ih => exact ih.set_weight _ _ _
  | set_weighted _ ih => exact ih.set_weighted _
  | set_directed _ ih => exact ih.set_directed _
  | reorient _ ih => exact ih.reorient
  | complement _ ih => exact ih.complement

/-! ### Correctness of `recalculate_components` -/


theorem mem_unionList {l : List (Finset ℕ)} {x : ℕ} :
    x ∈ unionList l ↔ ∃ c ∈ l, x ∈ c := by
  induction l with
  | nil => simp [unionList]
  | cons c rest ih =>
    unfold unionList at ih ⊢
    rw [List.foldr_cons, Finset.mem_union, ih]
    constructor
    · rintro (h | ⟨c', hc', hx⟩)
      · exact ⟨c, List.mem_cons_self _ _, h⟩
      · exact ⟨c', List.mem_cons_of_mem _ hc', hx⟩
    · rintro ⟨c', hc', hx⟩
      rcases List.mem_cons.mp hc' with rfl | hc'
      · exact Or.inl hx
      · exact Or.inr ⟨c', hc', hx⟩

theorem mergeScan_kept_sublist :
    ∀ (comps : List (Finset ℕ)) (cand : Finset ℕ),
      List.Sublist (mergeScan comps cand).2 comps := by
  intro comps
  induction comps with
  | nil => intro cand; simp [mergeScan]
  | cons c rest ih =>
    intro cand
    by_cases h : (c ∩ cand).Nonempty
    · simp only [mergeScan, if_pos h]
      exact (ih (cand ∪ c)).cons c
    · simp only [mergeScan, if_neg h]
      exact (ih cand).cons₂ c

theorem mergeScan_cand_subset :
    ∀ (comps : List (Finset ℕ)) (cand : Finset ℕ),
      cand ⊆ (mergeScan comps cand).1 := by
  intro comps
  induction comps with
  | nil => intro cand; simp [mergeScan]
  | cons c rest ih =>
    intro cand
    by_cases h : (c ∩ cand).Nonempty
    · simp only [mergeScan, if_pos h]
      exact subset_trans Finset.subset_union_left (ih (cand ∪ c))
    · simp only [mergeScan, if_neg h]
      exact ih cand

theorem mergeScan_mem_cases :
    ∀ (comps : List (Finset ℕ)) (cand : Finset ℕ), ∀ c ∈ comps,
      c ∈ (mergeScan comps cand).2 ∨ c ⊆ (mergeScan comps cand).1 := by
  intro comps
  induction comps with
  | nil => intro cand c hc; cases hc
  | cons c0 rest ih =>
    intro cand c hc
    by_cases h : (c0 ∩ cand).Nonempty
    · simp only [mergeScan, if_pos h]
      rcases List.mem_cons.mp hc with rfl | hc'
      · exact Or.inr (subset_trans Finset.subset_union_right
          (mergeScan_cand_subset rest (cand ∪ c)))
      · exact ih (cand ∪ c0) c hc'
    · simp only [mergeScan, if_neg h]
      rcases List.mem_cons.mp hc with rfl | hc'
      · exact Or.inl (List.mem_cons_self _ _)
      · rcases ih cand c hc' with hk | hs
        · exact Or.inl (List.mem_cons_of_mem _ hk)
        · exact Or.inr hs

theorem mergeScan_union :
    ∀ (comps : List (Finset ℕ)) (cand : Finset ℕ),
      (mergeScan comps cand).1 ∪ unionList (mergeScan comps cand).2 =
        cand ∪ unionList comps := by
  intro comps
  induction comps with
  | nil => intro cand; simp [mergeScan, unionList]
  | cons c rest ih =>
    intro cand
    by_cases h : (c ∩ cand).Nonempty
    · simp only [mergeScan, if_pos h]
      rw [ih (cand ∪ c)]
      unfold unionList
      rw [List.foldr_cons]
      ext x
      simp only [Finset.mem_union]
      tauto
    · simp only [mergeScan, if_neg h]
      have hrec := ih cand
      have hcons1 : unionList (c :: (mergeScan rest cand).2) =
          c ∪ unionList (mergeScan rest cand).2 := rfl
      have hcons2 : unionList (c :: rest) = c ∪ unionList rest := rfl
      rw [hcons1, hcons2]
      ext x
      have hx := Finset.ext_iff.mp hrec x
      simp only [Finset.mem_union] at hx ⊢
      tauto

theorem mergeScan_cand_bound :
    ∀ (comps : List (Finset ℕ)) (cand : Finset ℕ),
      (mergeScan comps cand).1 ⊆ cand ∪ unionList comps := by
  intro comps cand
  intro x hx
  rw [← mergeScan_union comps cand]
  exact Finset.mem_union_left _ hx

theorem mergeScan_kept_disj :
    ∀ (comps : List (Finset ℕ)) (cand : Finset ℕ),
      comps.Pairwise Disjoint →
      ∀ k ∈ (mergeScan comps cand).2, Disjoint k (mergeScan comps cand).1 := by
  intro comps
  induction comps with
  | nil => intro cand _ k hk; cases hk
  | cons c rest ih =>
    intro cand hpw k hk
    rw [List.pairwise_cons] at hpw
    by_cases h : (c ∩ cand).Nonempty
    · simp only [mergeScan, if_pos h] at hk ⊢
      exact ih (cand ∪ c) hpw.2 k hk
    · simp only [mergeScan, if_neg h] at hk ⊢
      rcases List.mem_cons.mp hk with rfl | hk'
      · -- the kept head: disjoint from the original candidate and from
        -- every other set, hence from the final grown candidate
        have hdc : Disjoint k cand := by
          rw [Finset.not_nonempty_iff_eq_empty] at h
          rw [Finset.disjoint_iff_inter_eq_empty]
          exact h
        have hrest : Disjoint k (unionList (mergeScan rest cand).2 ∪ unionList rest) := by
          rw [Finset.disjoint_union_right]
          constructor
          · rw [Finset.disjoint_iff_ne]
            intro a ha b hb he
            rw [mem_unionList] at hb
            obtain ⟨c', hc', hbc⟩ := hb
            have hc'' : c' ∈ rest := (mergeScan_kept_sublist rest cand).mem hc'
            have := hpw.1 c' hc''
            subst he
            exact (Finset.disjoint_left.mp this ha) hbc
          · rw [Finset.disjoint_iff_ne]
            intro a ha b hb he
            rw [mem_unionList] at hb
            obtain ⟨c', hc', hbc⟩ := hb
            have := hpw.1 c' hc'
            subst he
            exact (Finset.disjoint_left.mp this ha) hbc
        intro s hs1 hs2
        refine hrest hs1 ?_
        intro x hx
        have hx2 := hs2 hx
        have := mergeScan_cand_bound rest cand hx2
        rw [Finset.mem_union] at this
        rcases this with hc | hu
        · exact absurd hc (Finset.disjoint_left.mp hdc (hs1 hx))
        · exact Finset.mem_union_right _ hu
      · exact ih cand hpw.2 k hk'

theorem mergeScan_conn {R : ℕ → ℕ → Prop} :
    ∀ (comps : List (Finset ℕ)) (cand : Finset ℕ),
      (∀ x ∈ cand, ∀ y ∈ cand, Relation.TransGen R x y) →
      (∀ c ∈ comps, ∀ x ∈ c, ∀ y ∈ c, Relation.TransGen R x y) →
      ∀ x ∈ (mergeScan comps cand).1, ∀ y ∈ (mergeScan comps cand).1,
        Relation.TransGen R x y := by
  intro comps
  induction comps with
  | nil =>
    intro cand hcand _ x hx y hy
    simp only [mergeScan] at hx hy
    exact hcand x hx y hy
  | cons c rest ih =>
    intro cand hcand hcomps
    by_cases h : (c ∩ cand).Nonempty
    · simp only [mergeScan, if_pos h]
      obtain ⟨z, hz⟩ := h
      rw [Finset.mem_inter] at hz
      have hconn : ∀ x ∈ cand ∪ c, ∀ y ∈ cand ∪ c, Relation.TransGen R x y := by
        intro x hx y hy
        have hxz : Relation.TransGen R x z := by
          rcases Finset.mem_union.mp hx with hx' | hx'
          · exact hcand x hx' z hz.2
          · exact hcomps c (List.mem_cons_self _ _) x hx' z hz.1
        have hzy : Relation.TransGen R z y := by
          rcases Finset.mem_union.mp hy with hy' | hy'
          · exact hcand z hz.2 y hy'
          · exact hcomps c (List.mem_cons_self _ _) z hz.1 y hy'
        exact hxz.trans hzy
      exact ih (cand ∪ c) hconn
        (fun c' hc' => hcomps c' (List.mem_cons_of_mem _ hc'))
    · simp only [mergeScan, if_neg h]
      exact ih cand hcand (fun c' hc' => hcomps c' (List.mem_cons_of_mem _ hc'))


theorem starRel_mono {ns ns' : List ℕ} (h : ∀ n ∈ ns, n ∈ ns')
    (adj : ℕ → Finset ℕ) {x y : ℕ} (hr : starRel ns adj x y) :
    starRel ns' adj x y := by
  obtain ⟨n, hn, hx, hy⟩ := hr
  exact ⟨n, h n hn, hx, hy⟩


theorem recalcStep_inv {ns : List ℕ} {adj : ℕ → Finset ℕ}
    {comps : List (Finset ℕ)} (h : RecalcInv ns adj comps) (v : ℕ) :
    RecalcInv (ns ++ [v]) adj (recalcStep adj comps v) := by
  have hmono : ∀ x y, starRel ns adj x y → starRel (ns ++ [v]) adj x y :=
    fun x y => starRel_mono (fun n hn => List.mem_append_left _ hn) adj
  have hvmem : v ∈ ns ++ [v] :=
    List.mem_append_right _ (List.mem_singleton.mpr rfl)
  have hstep : recalcStep adj comps v =
      (mergeScan comps (star adj v)).2 ++ [(mergeScan comps (star adj v)).1] := by
    unfold recalcStep star
    rfl
  rw [hstep]
  constructor
  · rw [List.pairwise_append]
    refine ⟨(h.pw).sublist (mergeScan_kept_sublist comps _),
      List.pairwise_singleton _ _, ?_⟩
    intro k hk c' hc'
    rw [List.mem_singleton] at hc'
    subst hc'
    exact mergeScan_kept_disj comps _ h.pw k hk
  · intro x
    rw [mem_unionList]
    constructor
    · rintro ⟨c, hc, hx⟩
      rcases List.mem_append.mp hc with hk | hc1
      · have hxu : x ∈ unionList comps :=
          mem_unionList.mpr ⟨c, (mergeScan_kept_sublist comps _).subset hk, hx⟩
        obtain ⟨n, hn, hxn⟩ := (h.union x).mp hxu
        exact ⟨n, List.mem_append_left _ hn, hxn⟩
      · rw [List.mem_singleton] at hc1
        subst hc1
        have := mergeScan_cand_bound comps (star adj v) hx
        rcases Finset.mem_union.mp this with hs | hu
        · exact ⟨v, hvmem, hs⟩
        · obtain ⟨n, hn, hxn⟩ := (h.union x).mp hu
          exact ⟨n, List.mem_append_left _ hn, hxn⟩
    · rintro ⟨n, hn, hxn⟩
      rcases List.mem_append.mp hn with hn' | hn1
      · have hx : x ∈ unionList comps := (h.union x).mpr ⟨n, hn', hxn⟩
        obtain ⟨c, hc, hxc⟩ := mem_unionList.mp hx
        rcases mergeScan_mem_cases comps (star adj v) c hc with hk | hs
        · exact ⟨c, List.mem_append_left _ hk, hxc⟩
        · exact ⟨_, List.mem_append_right _ (List.mem_singleton.mpr rfl), hs hxc⟩
      · rw [List.mem_singleton] at hn1
        subst hn1
        exact ⟨_, List.mem_append_right _ (List.mem_singleton.mpr rfl),
          mergeScan_cand_subset comps _ hxn⟩
  · intro c hc x hx y hy
    rcases List.mem_append.mp hc with hk | hc1
    · have hc' : c ∈ comps := (mergeScan_kept_sublist comps _).subset hk
      exact Relation.TransGen.mono hmono (h.conn c hc' x hx y hy)
    · rw [List.mem_singleton] at hc1
      subst hc1
      refine mergeScan_conn comps (star adj v) ?_ ?_ x hx y hy
      · intro x' hx' y' hy'
        exact Relation.TransGen.single ⟨v, hvmem, hx', hy'⟩
      · intro c' hc' x' hx' y' hy'
        exact Relation.TransGen.mono hmono (h.conn c' hc' x' hx' y' hy')
  · intro n hn
    rcases List.mem_append.mp hn with hn' | hn1
    · obtain ⟨c, hc, hsub⟩ := h.covered n hn'
      rcases mergeScan_mem_cases comps (star adj v) c hc with hk | hs
      · exact ⟨c, List.mem_append_left _ hk, hsub⟩
      · exact ⟨_, List.mem_append_right _ (List.mem_singleton.mpr rfl),
          subset_trans hsub hs⟩
    · rw [List.mem_singleton] at hn1
      subst hn1
      exact ⟨_, List.mem_append_right _ (List.mem_singleton.mpr rfl),
        mergeScan_cand_subset comps _⟩

theorem recalcFold_inv (adj : ℕ → Finset ℕ) :
    ∀ (L P : List ℕ) (comps : List (Finset ℕ)), RecalcInv P adj comps →
      RecalcInv (P ++ L) adj (L.foldl (recalcStep adj) comps) := by
  intro L
  induction L with
  | nil =>
    intro P comps h
    rw [List.foldl_nil, List.append_nil]
    exact h
  | cons v L' ih =>
    intro P comps h
    rw [List.foldl_cons]
    have h1 := recalcStep_inv h v
    have h2 := ih (P ++ [v]) _ h1
    rw [List.append_assoc] at h2
    exact h2

theorem recalcFold_spec (ns : List ℕ) (adj : ℕ → Finset ℕ) :
    RecalcInv ns adj (recalcFold ns adj) := by
  have hbase : RecalcInv [] adj [] := by
    constructor
    · exact List.Pairwise.nil
    · intro x
      simp [unionList]
    · intro c hc
      cases hc
    · intro n hn
      cases hn
  have := recalcFold_inv adj ns [] [] hbase
  rw [List.nil_append] at this
  exact this

theorem pairwise_disjoint_mem_unique :
    ∀ {comps : List (Finset ℕ)}, comps.Pairwise Disjoint →
      ∀ {c c' : Finset ℕ}, c ∈ comps → c' ∈ comps →
      ∀ {x : ℕ}, x ∈ c → x ∈ c' → c = c' := by
  intro comps
  induction comps with
  | nil =>
    intro _ c c' hc
    cases hc
  | cons c0 rest ih =>
    intro hpw c c' hc hc' x hx hx'
    rw [List.pairwise_cons] at hpw
    rcases List.mem_cons.mp hc with rfl | hcr
    · rcases List.mem_cons.mp hc' with rfl | hcr'
      · rfl
      · exact absurd hx' (Finset.disjoint_left.mp (hpw.1 c' hcr') hx)
    · rcases List.mem_cons.mp hc' with rfl | hcr'
      · exact absurd hx (Finset.disjoint_left.mp (hpw.1 c hcr) hx')
      · exact ih hpw.2 hcr hcr' hx hx'

theorem inv_transGen_same {ns : List ℕ} {adj : ℕ → Finset ℕ}
    {comps : List (Finset ℕ)} (h : RecalcInv ns adj comps)
    {x y : ℕ} (hxy : Relation.TransGen (starRel ns adj) x y) :
    ∀ c ∈ comps, x ∈ c → y ∈ c := by
  induction hxy with
  | single hr =>
    intro c hc hx
    obtain ⟨n, hn, hxn, hyn⟩ := hr
    obtain ⟨cn, hcn, hsub⟩ := h.covered n hn
    rw [pairwise_disjoint_mem_unique h.pw hc hcn hx (hsub hxn)]
    exact hsub hyn
  | tail _ hr ih =>
    intro c hc hx
    have hz := ih c hc hx
    obtain ⟨n, hn, hzn, hyn⟩ := hr
    obtain ⟨cn, hcn, hsub⟩ := h.covered n hn
    rw [pairwise_disjoint_mem_unique h.pw hc hcn hz (hsub hzn)]
    exact hsub hyn

theorem weaklyConnectedScan_true_iff :
    ∀ (comps : List (Finset ℕ)), comps.Pairwise Disjoint → ∀ a b : ℕ,
      (weaklyConnectedScan comps a b = some true ↔
        ∃ c ∈ comps, a ∈ c ∧ b ∈ c) := by
  intro comps
  induction comps with
  | nil =>
    intro _ a b
    simp [weaklyConnectedScan]
  | cons c rest ih =>
    intro hpw a b
    rw [List.pairwise_cons] at hpw
    unfold weaklyConnectedScan
    by_cases hab : a ∈ c ∧ b ∈ c
    · rw [if_pos hab]
      constructor
      · intro _
        exact ⟨c, List.mem_cons_self _ _, hab⟩
      · intro _
        rfl
    · rw [if_neg hab]
      by_cases hone : a ∈ c ∨ b ∈ c
      · rw [if_pos hone]
        constructor
        · intro h
          exact absurd (Option.some.inj h) (by decide)
        · rintro ⟨c', hc', ha', hb'⟩
          exfalso
          rcases List.mem_cons.mp hc' with rfl | hc'r
          · exact hab ⟨ha', hb'⟩
          · rcases hone with ha | hb
            · exact (Finset.disjoint_left.mp (hpw.1 c' hc'r) ha) ha'
            · exact (Finset.disjoint_left.mp (hpw.1 c' hc'r) hb) hb'
      · rw [if_neg hone]
        rw [ih hpw.2 a b]
        constructor
        · rintro ⟨c', hc', h⟩
          exact ⟨c', List.mem_cons_of_mem _ hc', h⟩
        · rintro ⟨c', hc', ha', hb'⟩
          rcases List.mem_cons.mp hc' with rfl | hc'r
          · exact absurd (Or.inl ha') hone
          · exact ⟨c', hc'r, ha', hb'⟩

/-! ### Weak reachability -/

theorem mem_outAdj_isAdj (g : Graph) (n m : ℕ) :
    m ∈ g.outAdj n ↔ g.isAdj n m := by
  rw [mem_outAdj, isAdj_iff]


theorem star_step {g : Graph} {x y : ℕ}
    (hr : starRel g.nodes g.outAdj x y) : WeakReach g x y := by
  obtain ⟨n, -, hx, hy⟩ := hr
  unfold star at hx hy
  have hxn : WeakReach g x n := by
    rcases Finset.mem_insert.mp hx with rfl | hmem
    · exact Relation.ReflTransGen.refl
    · exact Relation.ReflTransGen.single
        (Or.inr ((mem_outAdj_isAdj g n x).mp hmem))
  have hny : WeakReach g n y := by
    rcases Finset.mem_insert.mp hy with rfl | hmem
    · exact Relation.ReflTransGen.refl
    · exact Relation.ReflTransGen.single
        (Or.inl ((mem_outAdj_isAdj g n y).mp hmem))
  exact hxn.trans hny

theorem transGen_star_iff_weakReach {g : Graph} (hw : WF g) {a b : ℕ}
    (ha : a ∈ g.nodes) :
    Relation.TransGen (starRel g.nodes g.outAdj) a b ↔ WeakReach g a b := by
  constructor
  · intro h
    induction h with
    | single hr => exact star_step hr
    | tail _ hr ih => exact ih.trans (star_step hr)
  · intro h
    induction h with
    | refl =>
      exact Relation.TransGen.single
        ⟨a, ha, Finset.mem_insert_self _ _, Finset.mem_insert_self _ _⟩
    | @tail z y _ hr ih =>
      rcases hr with he | he
      · refine ih.tail ⟨z, (isAdj_mem_nodes hw he).1,
          Finset.mem_insert_self _ _, ?_⟩
        unfold star
        exact Finset.mem_insert_of_mem ((mem_outAdj_isAdj g z y).mpr he)
      · refine ih.tail ⟨y, (isAdj_mem_nodes hw he).1, ?_,
          Finset.mem_insert_self _ _⟩
        unfold star
        exact Finset.mem_insert_of_mem ((mem_outAdj_isAdj g y z).mpr he)

theorem wf_recalcInv {g : Graph} (hw : WF g) :
    RecalcInv g.nodes g.outAdj g.components := by
  rw [hw.comps]
  exact recalcFold_spec _ _

/-- The cached components of a well-formed graph form an exact partition
of the node set. -/
theorem wf_components_partition {g : Graph} (hw : WF g) :
    (∀ n ∈ g.nodes, ∃ c ∈ g.components, n ∈ c) ∧
    (∀ c ∈ g.components, ∀ x ∈ c, x ∈ g.nodes) ∧
    g.components.Pairwise Disjoint := by
  have hinv := wf_recalcInv hw
  refine ⟨?_, ?_, hinv.pw⟩
  · intro n hn
    have : n ∈ unionList g.components :=
      (hinv.union n).mpr ⟨n, hn, Finset.mem_insert_self _ _⟩
    exact mem_unionList.mp this
  · intro c hc x hx
    have hxu : x ∈ unionList g.components := mem_unionList.mpr ⟨c, hc, hx⟩
    obtain ⟨n, hn, hxs⟩ := (hinv.union x).mp hxu
    rcases Finset.mem_insert.mp hxs with rfl | hmem
    · exact hn
    · rw [mem_outAdj] at hmem
      obtain ⟨v, hv, -, ht⟩ := hmem
      have := (hw.endpoints v hv).2
      rw [ht] at this
      exact this

/-- The connectivity query answers `some true` exactly on weakly
reachable node pairs. -/
theorem wf_weakly_connected_iff {g : Graph} (hw : WF g) {a b : ℕ}
    (ha : a ∈ g.nodes) :
    (g.weakly_connected a b = some true ↔ WeakReach g a b) := by
  have hinv := wf_recalcInv hw
  unfold Graph.weakly_connected
  rw [weaklyConnectedScan_true_iff g.components hinv.pw a b]
  constructor
  · rintro ⟨c, hc, hac, hbc⟩
    exact (transGen_star_iff_weakReach hw ha).mp (hinv.conn c hc a hac b hbc)
  · intro h
    have htg := (transGen_star_iff_weakReach hw ha).mpr h
    obtain ⟨c, hc, hac⟩ := (wf_components_partition hw).1 a ha
    exact ⟨c, hc, hac, inv_transGen_same hinv htg c hc hac⟩

theorem get_weight_of_mem {g : Graph} (hw : WF g) {v : Vert}
    (hv : v ∈ g.vertices) :
    g.get_weight v.nfrom v.nto = some v.weight := by
  unfold Graph.get_weight
  have hsome : (g.vertices.find? fun u =>
      u.nfrom = v.nfrom ∧ u.nto = v.nto).isSome := by
    rw [List.find?_isSome]
    exact ⟨v, hv, by simp⟩
  obtain ⟨u, hu⟩ := Option.isSome_iff_exists.mp hsome
  have hpred := List.find?_some hu
  have humem := List.mem_of_find?_eq_some hu
  simp only [Bool.and_eq_true, decide_eq_true_eq] at hpred
  have huv : u = v := by
    by_cases he : u = v
    · exact he
    · exfalso
      have hsym : Symmetric fun a b : Vert => pairOf a ≠ pairOf b :=
        fun a b h => h.symm
      refine List.Pairwise.forall hsym hw.nodup humem hv he ?_
      unfold pairOf
      rw [Prod.mk.injEq]
      exact ⟨hpred.1, hpred.2⟩
  rw [hu, huv]
  rfl

theorem wf_rev_weight {g : Graph} (hw : WF g) (hd : g.directed = false)
    {a b : ℕ} (h : g.isAdj a b) :
    g.isAdj b a ∧ g.get_weight a b = g.get_weight b a := by
  rw [isAdj_iff] at h
  obtain ⟨v, hv, hf, ht⟩ := h
  subst hf
  subst ht
  have hv' := hw.sym hd v hv
  constructor
  · rw [isAdj_iff]
    exact ⟨_, hv', rfl, rfl⟩
  · rw [get_weight_of_mem hw hv]
    have h2 : g.get_weight v.nto v.nfrom = some v.weight := by
      simpa using get_weight_of_mem hw hv'
    rw [h2]

theorem wf_no_loop {g : Graph} (hw : WF g) (hd : g.directed = false)
    (a : ℕ) : ¬g.isAdj a a := by
  intro h
  rw [isAdj_iff] at h
  obtain ⟨v, hv, hf, ht⟩ := h
  exact hw.noloop hd v hv (hf.trans ht.symm)

/-! ### Claims C1–C3 -/

/-- C1: after every public `Graph` mutation (`add_node`, `remove_node`,
`add_vertex`, `remove_vertex`, `toggle_vertex`, `set_directed`,
`reorient`, `complement`, …) returns, the stored component list is an
exact partition of the current node set: every node lies in at least one
stored set and in at most one (any two stored sets containing a common
node coincide), every stored set contains only current nodes (so the
union of the stored sets is exactly the node set), and the stored sets
are pairwise disjoint.  The state is the one the mutator returns, so no
caller ever observes a stale partition. -/
theorem claim_C1_partition (g : Graph) (h : Reachable g) :
    (∀ n ∈ g.nodes, ∃ c ∈ g.components, n ∈ c) ∧
    (∀ n : ℕ, ∀ c ∈ g.components, ∀ c' ∈ g.components,
      n ∈ c → n ∈ c' → c = c') ∧
    (∀ c ∈ g.components, ∀ x ∈ c, x ∈ g.nodes) ∧
    g.components.Pairwise Disjoint := by
  have hw := reachable_wf h
  obtain ⟨h1, h2, h3⟩ := wf_components_partition hw
  exact ⟨h1, fun n c hc c' hc' hn hn' =>
    pairwise_disjoint_mem_unique h3 hc hc' hn hn', h2, h3⟩

theorem claim_C1_partition_witness :
    Reachable ((((initGraph.add_node 1).add_node 2).add_vertex 1 2
      1).remove_node 1) ∧
    (∀ n ∈ ((((initGraph.add_node 1).add_node 2).add_vertex 1 2
        1).remove_node 1).nodes,
      ∃ c ∈ ((((initGraph.add_node 1).add_node 2).add_vertex 1 2
        1).remove_node 1).components, n ∈ c) := by
  have hr : Reachable ((((initGraph.add_node 1).add_node 2).add_vertex 1 2
      1).remove_node 1) :=
    Reachable.remove_node (Reachable.add_vertex (Reachable.add_node
      (Reachable.add_node Reachable.init (by decide)) (by decide))
      (by decide) (by decide)) (by decide)
  exact ⟨hr, (claim_C1_partition _ hr).1⟩

/-- C2: in every reachable state whose `directed` flag is `false`, every
edge `(a, b)` has a reverse edge `(b, a)` with the same weight, and no
edge is a loop. -/
theorem claim_C2_undirected_invariant (g : Graph) (h : Reachable g)
    (hd : g.directed = false) :
    (∀ a b : ℕ, g.isAdj a b →
      g.isAdj b a ∧ g.get_weight a b = g.get_weight b a) ∧
    (∀ a : ℕ, ¬g.isAdj a a) := by
  have hw := reachable_wf h
  exact ⟨fun a b hab => wf_rev_weight hw hd hab, fun a => wf_no_loop hw hd a⟩

theorem claim_C2_undirected_invariant_witness :
    Reachable twoNodeGraph ∧ twoNodeGraph.directed = false ∧
    (twoNodeGraph.isAdj 1 2 →
      twoNodeGraph.isAdj 2 1 ∧
      twoNodeGraph.get_weight 1 2 = twoNodeGraph.get_weight 2 1) := by
  have hr : Reachable twoNodeGraph :=
    Reachable.add_vertex (Reachable.add_node (Reachable.add_node
      Reachable.init (by decide)) (by decide)) (by decide) (by decide)
  exact ⟨hr, rfl, fun hab =>
    (claim_C2_undirected_invariant twoNodeGraph hr rfl).1 1 2 hab⟩

/-- C3: in every reachable state, for any node `a` of the graph the
connectivity query `weakly_connected a b` answers `True` exactly when `b`
is reachable from `a` by a sequence of edges with direction ignored; and
on the two disjoint triangles 0-1-2 / 3-4-5, `weakly_connected 0 5` is
`False`, `weakly_connected 0 2` is `True`, and after adding the edge
`(2, 3)` the query `weakly_connected 0 5` becomes `True`. -/
theorem claim_C3_connectivity :
    (∀ g : Graph, Reachable g → ∀ a b : ℕ, a ∈ g.nodes →
      (g.weakly_connected a b = some true ↔ WeakReach g a b)) ∧
    triangles.weakly_connected 0 5 = some false ∧
    triangles.weakly_connected 0 2 = some true ∧
    (triangles.add_vertex 2 3 1).weakly_connected 0 5 = some true := by
  refine ⟨fun g h a b ha => wf_weakly_connected_iff (reachable_wf h) ha,
    ?_, ?_, ?_⟩
  · decide
  · decide
  · decide

theorem claim_C3_connectivity_witness :
    Reachable triangles ∧ 0 ∈ triangles.nodes ∧
    (triangles.weakly_connected 0 2 = some true ↔ WeakReach triangles 0 2) := by
  have hr : Reachable triangles :=
    Reachable.add_vertex (Reachable.add_vertex (Reachable.add_vertex
      (Reachable.add_vertex (Reachable.add_vertex (Reachable.add_vertex
        (Reachable.add_node (Reachable.add_node (Reachable.add_node
          (Reachable.add_node (Reachable.add_node (Reachable.add_node
            Reachable.init (by decide)) (by decide)) (by decide))
          (by decide)) (by decide)) (by decide))
        (by decide) (by decide)) (by decide) (by decide))
      (by decide) (by decide)) (by decide) (by decide))
    (by decide) (by decide)) (by decide) (by decide)
  exact ⟨hr, by decide, claim_C3_connectivity.1 triangles hr 0 2 (by decide)⟩

/-! ### Claim C4: double toggle -/

theorem isAdj_add_vertex_undirected {g : Graph} {n1 n2 : ℕ} (w : ℚ)
    (hd : g.directed = false) (hne : n1 ≠ n2) (hg : ¬g.isAdj n1 n2)
    (a b : ℕ) :
    (g.add_vertex n1 n2 w).isAdj a b ↔
      g.isAdj a b ∨ (a = n1 ∧ b = n2) ∨ (a = n2 ∧ b = n1) := by
  rw [isAdj_iff, isAdj_iff,
    add_vertex_vertices_undirected w hd hne hg]
  constructor
  · rintro ⟨v, hv, hf, ht⟩
    rcases List.mem_append.mp hv with hm | hm
    · exact Or.inl ⟨v, hm, hf, ht⟩
    · rw [List.mem_pair] at hm
      rcases hm with rfl | rfl
      · exact Or.inr (Or.inl ⟨hf.symm, ht.symm⟩)
      · exact Or.inr (Or.inr ⟨hf.symm, ht.symm⟩)
  · rintro (⟨v, hv, hf, ht⟩ | ⟨rfl, rfl⟩ | ⟨rfl, rfl⟩)
    · exact ⟨v, List.mem_append_left _ hv, hf, ht⟩
    · exact ⟨⟨a, b, w⟩, List.mem_append_right _
        (List.mem_pair.mpr (Or.inl rfl)), rfl, rfl⟩
    · exact ⟨⟨a, b, w⟩, List.mem_append_right _
        (List.mem_pair.mpr (Or.inr rfl)), rfl, rfl⟩

theorem find?_filter_append {α : Type} (p q : α → Bool) :
    ∀ (l extra : List α), (∀ x ∈ l, p x = true → q x = true) →
      (∀ x ∈ extra, p x = false) →
      (l.filter q ++ extra).find? p = l.find? p := by
  intro l
  induction l with
  | nil =>
    intro extra _ hextra
    rw [List.filter_nil, List.nil_append, List.find?_nil]
    apply List.find?_eq_none.mpr
    intro x hx
    rw [hextra x hx]
    exact Bool.false_ne_true
  | cons x l' ih =>
    intro extra hq hextra
    by_cases hqx : q x = true
    · rw [List.filter_cons_of_pos hqx, List.cons_append]
      cases hpx : p x with
      | false =>
        rw [List.find?_cons_of_neg _ (by rw [hpx]; exact Bool.false_ne_true),
          List.find?_cons_of_neg _ (by rw [hpx]; exact Bool.false_ne_true)]
        exact ih extra (fun y hy => hq y (List.mem_cons_of_mem _ hy)) hextra
      | true =>
        rw [List.find?_cons_of_pos _ hpx, List.find?_cons_of_pos _ hpx]
    · have hpx : p x = false := by
        cases hp : p x
        · rfl
        · exact absurd (hq x (List.mem_cons_self _ _) hp) hqx
      rw [List.filter_cons_of_neg (by rw [Bool.not_eq_true] at hqx; rw [hqx]; exact Bool.false_ne_true),
        List.find?_cons_of_neg _ (by rw [hpx]; exact Bool.false_ne_true)]
      exact ih extra (fun y hy => hq y (List.mem_cons_of_mem _ hy)) hextra

theorem toggle_vertex_absent {g : Graph} {a b : ℕ} (hadj : ¬g.isAdj a b) :
    g.toggle_vertex a b = g.add_vertex a b 1 := by
  have h' : ¬(g.adjacentTo a b = true) := hadj
  unfold Graph.toggle_vertex
  rw [if_neg h']

theorem toggle_vertex_present {g : Graph} {a b : ℕ} (hadj : g.isAdj a b) :
    g.toggle_vertex a b = g.remove_vertex a b := by
  have h' : g.adjacentTo a b = true := hadj
  unfold Graph.toggle_vertex
  rw [if_pos h']

theorem filter_append_eq {α : Type} (q : α → Bool) (l extra : List α)
    (hl : ∀ x ∈ l, q x = true) (hextra : ∀ x ∈ extra, q x = false) :
    (l ++ extra).filter q = l := by
  rw [List.filter_append, List.filter_eq_self.mpr hl,
    List.filter_eq_nil_iff.mpr, List.append_nil]
  intro x hx
  rw [hextra x hx]
  exact Bool.false_ne_true

/-- After a double toggle starting from an absent edge, the vertex list
is exactly the one before. -/
theorem toggle_twice_absent {g : Graph} (hw : WF g) {a b : ℕ}
    (hab : a ≠ b) (hadj : ¬g.isAdj a b) :
    ((g.toggle_vertex a b).toggle_vertex a b).vertices = g.vertices := by
  rw [toggle_vertex_absent hadj]
  have hkeep : ∀ v ∈ g.vertices,
      ¬((v.nfrom = a ∧ v.nto = b) ∨
        ((g.add_vertex a b 1).directed = false ∧ v.nfrom = b ∧ v.nto = a)) := by
    intro v hv
    rintro (⟨hf, ht⟩ | ⟨hdf, hf, ht⟩)
    · exact hadj (by rw [isAdj_iff]; exact ⟨v, hv, hf, ht⟩)
    · have hdd : g.directed = false := by
        rw [← add_vertex_directed g a b 1]
        exact hdf
      have hadj2 : ¬g.isAdj b a := by
        intro hrev
        apply hadj
        rw [isAdj_iff] at hrev ⊢
        obtain ⟨u, hu, huf, hut⟩ := hrev
        exact ⟨⟨u.nto, u.nfrom, u.weight⟩, hw.sym hdd u hu,
          by rw [hut], by rw [huf]⟩
      exact hadj2 (by rw [isAdj_iff]; exact ⟨v, hv, hf, ht⟩)
  cases hdd : g.directed with
  | true =>
    have hver := add_vertex_vertices_directed 1 hdd hadj
    have hadd : (g.add_vertex a b 1).isAdj a b := by
      rw [isAdj_add_vertex_directed 1 hdd]
      exact Or.inr ⟨rfl, rfl⟩
    rw [toggle_vertex_present hadd, remove_vertex_vertices, hver]
    apply filter_append_eq
    · intro v hv
      simp only [decide_eq_true_eq]
      exact hkeep v hv
    · intro v hv
      rw [List.mem_singleton] at hv
      subst hv
      rw [decide_eq_false_iff_not, Decidable.not_not]
      exact Or.inl ⟨rfl, rfl⟩
  | false =>
    have hver := add_vertex_vertices_undirected 1 hdd hab hadj
    have hadd : (g.add_vertex a b 1).isAdj a b := by
      rw [isAdj_add_vertex_undirected 1 hdd hab hadj]
      exact Or.inr (Or.inl ⟨rfl, rfl⟩)
    rw [toggle_vertex_present hadd, remove_vertex_vertices, hver]
    apply filter_append_eq
    · intro v hv
      simp only [decide_eq_true_eq]
      exact hkeep v hv
    · intro v hv
      rw [List.mem_pair] at hv
      rcases hv with rfl | rfl
      · rw [decide_eq_false_iff_not, Decidable.not_not]
        exact Or.inl ⟨rfl, rfl⟩
      · rw [decide_eq_false_iff_not, Decidable.not_not]
        refine Or.inr ⟨?_, rfl, rfl⟩
        rw [add_vertex_directed]
        exact hdd

/-- C4 counterexample: on the undirected graph with the single edge
1 – 2 of weight 5, toggling the edge twice brings the edge back with the
default weight 1, not the prior weight 5 — so the double toggle does NOT
restore the prior adjacency state exactly as the claim states. -/
theorem claim_C4_toggle_counterexample :
    twoNodeGraph.isAdj 1 2 ∧
    twoNodeGraph.get_weight 1 2 = some 5 ∧
    ((twoNodeGraph.toggle_vertex 1 2).toggle_vertex 1 2).get_weight 1 2 =
      some 1 ∧
    ((twoNodeGraph.toggle_vertex 1 2).toggle_vertex 1 2).get_weight 1 2 ≠
      twoNodeGraph.get_weight 1 2 := by
  exact ⟨by decide, by decide, by decide, by decide⟩

/-- C4 (amended): for distinct nodes `a`, `b` of a reachable graph,
toggling the edge `(a, b)` twice restores edge *presence* exactly, and
leaves the weight of every vertex other than the toggled pair unchanged;
but a toggled pair that was present comes back with the default weight 1
rather than its prior weight. -/
theorem claim_C4_toggle_amended (g : Graph) (h : Reachable g)
    {a b : ℕ} (ha : a ∈ g.nodes) (hb : b ∈ g.nodes) (hab : a ≠ b) :
    (∀ x y : ℕ,
      ((g.toggle_vertex a b).toggle_vertex a b).isAdj x y ↔ g.isAdj x y) ∧
    (∀ x y : ℕ,
      ¬((x = a ∧ y = b) ∨ (g.directed = false ∧ x = b ∧ y = a)) →
      ((g.toggle_vertex a b).toggle_vertex a b).get_weight x y =
        g.get_weight x y) ∧
    (g.isAdj a b →
      ((g.toggle_vertex a b).toggle_vertex a b).get_weight a b = some 1) := by
  have hw := reachable_wf h
  by_cases hadj : g.isAdj a b
  · -- present: remove, then re-add with default weight 1
    have hg1 : g.toggle_vertex a b = g.remove_vertex a b :=
      toggle_vertex_present hadj
    have hw1 : WF (g.remove_vertex a b) := hw.remove_vertex a b
    have hnadj1 : ¬(g.remove_vertex a b).isAdj a b := by
      rw [isAdj_remove_vertex]
      rintro ⟨-, hn⟩
      exact hn (Or.inl ⟨rfl, rfl⟩)
    have hg2 : (g.toggle_vertex a b).toggle_vertex a b =
        (g.remove_vertex a b).add_vertex a b 1 := by
      rw [hg1, toggle_vertex_absent hnadj1]
    have hw2 : WF ((g.remove_vertex a b).add_vertex a b 1) :=
      hw1.add_vertex (by rw [remove_vertex_nodes]; exact ha)
        (by rw [remove_vertex_nodes]; exact hb) 1
    have hd1 : (g.remove_vertex a b).directed = g.directed :=
      remove_vertex_directed g a b
    cases hdd : g.directed with
    | true =>
      have hver2 : ((g.remove_vertex a b).add_vertex a b 1).vertices =
          (g.remove_vertex a b).vertices ++ [⟨a, b, 1⟩] :=
        add_vertex_vertices_directed 1 (hd1.trans hdd) hnadj1
      refine ⟨?_, ?_, ?_⟩
      · intro x y
        rw [hg2, isAdj_add_vertex_directed 1 (hd1.trans hdd),
          isAdj_remove_vertex]
        constructor
        · rintro (⟨hE, -⟩ | ⟨rfl, rfl⟩)
          · exact hE
          · exact hadj
        · intro hE
          by_cases hxy : x = a ∧ y = b
          · exact Or.inr hxy
          · refine Or.inl ⟨hE, ?_⟩
            rintro (hp | ⟨hdf, -⟩)
            · exact hxy hp
            · rw [hdd] at hdf
              exact Bool.noConfusion hdf
      · intro x y hxy
        rw [hg2]
        unfold Graph.get_weight
        rw [hver2, remove_vertex_vertices, find?_filter_append]
        · intro v hv hp
          simp only [Bool.and_eq_true, decide_eq_true_eq] at hp
          rw [decide_eq_true_eq]
          rintro (⟨hf, ht⟩ | ⟨hdf, -⟩)
          · exact hxy (Or.inl ⟨hp.1.symm.trans hf, hp.2.symm.trans ht⟩)
          · rw [hdd] at hdf
            exact Bool.noConfusion hdf
        · intro v hv
          rw [List.mem_singleton] at hv
          subst hv
          rw [decide_eq_false_iff_not]
          rintro ⟨hf, ht⟩
          exact hxy (Or.inl ⟨hf.symm, ht.symm⟩)
      · intro _
        rw [hg2]
        have hmem : (⟨a, b, 1⟩ : Vert) ∈
            ((g.remove_vertex a b).add_vertex a b 1).vertices := by
          rw [hver2]
          exact List.mem_append_right _ (List.mem_singleton.mpr rfl)
        have := get_weight_of_mem hw2 hmem
        simpa using this
    | false =>
      have hver2 : ((g.remove_vertex a b).add_vertex a b 1).vertices =
          (g.remove_vertex a b).vertices ++ [⟨a, b, 1⟩, ⟨b, a, 1⟩] :=
        add_vertex_vertices_undirected 1 (hd1.trans hdd) hab hnadj1
      have hrev : g.isAdj b a := (wf_rev_weight hw hdd hadj).1
      refine ⟨?_, ?_, ?_⟩
      · intro x y
        rw [hg2, isAdj_add_vertex_undirected 1 (hd1.trans hdd) hab hnadj1,
          isAdj_remove_vertex]
        constructor
        · rintro (⟨hE, -⟩ | ⟨rfl, rfl⟩ | ⟨rfl, rfl⟩)
          · exact hE
          · exact hadj
          · exact hrev
        · intro hE
          by_cases hxy1 : x = a ∧ y = b
          · exact Or.inr (Or.inl hxy1)
          · by_cases hxy2 : x = b ∧ y = a
            · exact Or.inr (Or.inr hxy2)
            · refine Or.inl ⟨hE, ?_⟩
              rintro (hp | ⟨-, hf, ht⟩)
              · exact hxy1 hp
              · exact hxy2 ⟨hf, ht⟩
      · intro x y hxy
        have hxy1 : ¬(x = a ∧ y = b) := fun hp => hxy (Or.inl hp)
        have hxy2 : ¬(x = b ∧ y = a) := fun hp => hxy (Or.inr ⟨rfl, hp⟩)
        rw [hg2]
        unfold Graph.get_weight
        rw [hver2, remove_vertex_vertices, find?_filter_append]
        · intro v hv hp
          simp only [Bool.and_eq_true, decide_eq_true_eq] at hp
          rw [decide_eq_true_eq]
          rintro (⟨hf, ht⟩ | ⟨-, hf, ht⟩)
          · exact hxy1 ⟨hp.1.symm.trans hf, hp.2.symm.trans ht⟩
          · exact hxy2 ⟨hp.1.symm.trans hf, hp.2.symm.trans ht⟩
        · intro v hv
          rw [List.mem_pair] at hv
          rcases hv with rfl | rfl
          · rw [decide_eq_false_iff_not]
            rintro ⟨hf, ht⟩
            exact hxy1 ⟨hf.symm, ht.symm⟩
          · rw [decide_eq_false_iff_not]
            rintro ⟨hf, ht⟩
            exact hxy2 ⟨hf.symm, ht.symm⟩
      · intro _
        rw [hg2]
        have hmem : (⟨a, b, 1⟩ : Vert) ∈
            ((g.remove_vertex a b).add_vertex a b 1).vertices := by
          rw [hver2]
          exact List.mem_append_right _ (List.mem_pair.mpr (Or.inl rfl))
        have := get_weight_of_mem hw2 hmem
        simpa using this
  · -- absent: add, then remove — the vertex list returns to its old value
    have hv := toggle_twice_absent hw hab hadj
    refine ⟨?_, ?_, ?_⟩
    · intro x y
      rw [isAdj_iff, isAdj_iff, hv]
    · intro x y _
      unfold Graph.get_weight
      rw [hv]
    · intro hcontra
      exact absurd hcontra hadj

theorem claim_C4_toggle_amended_witness :
    Reachable twoNodeGraph ∧ (1 : ℕ) ≠ 2 ∧
    (((twoNodeGraph.toggle_vertex 1 2).toggle_vertex 1 2).isAdj 1 2 ↔
      twoNodeGraph.isAdj 1 2) := by
  have hr : Reachable twoNodeGraph :=
    Reachable.add_vertex (Reachable.add_node (Reachable.add_node
      Reachable.init (by decide)) (by decide)) (by decide) (by decide)
  exact ⟨hr, by decide,
    (claim_C4_toggle_amended twoNodeGraph hr (by decide) (by decide)
      (by decide)).1 1 2⟩

/-- C9: starting from the directed graph with the single edge 0 → 1 of
weight 5, `set_directed false` materializes both 0 → 1 and 1 → 0 with
weight 5; `set_directed true` afterwards keeps both edges (pure flag
flip), and the two directions are then independently mutable: setting
the weight of 0 → 1 to 9 leaves 1 → 0 at 5, and removing 0 → 1 leaves
1 → 0 present. -/
theorem claim_C9_directed_undirected_toggle :
    (c9Graph.directed = true ∧ c9Graph.isAdj 0 1 ∧ ¬c9Graph.isAdj 1 0 ∧
      c9Graph.get_weight 0 1 = some 5) ∧
    ((c9Graph.set_directed false).directed = false ∧
      (c9Graph.set_directed false).isAdj 0 1 ∧
      (c9Graph.set_directed false).isAdj 1 0 ∧
      (c9Graph.set_directed false).get_weight 0 1 = some 5 ∧
      (c9Graph.set_directed false).get_weight 1 0 = some 5) ∧
    (((c9Graph.set_directed false).set_directed true).directed = true ∧
      ((c9Graph.set_directed false).set_directed true).isAdj 0 1 ∧
      ((c9Graph.set_directed false).set_directed true).isAdj 1 0 ∧
      ((c9Graph.set_directed false).set_directed true).get_weight 0 1 =
        some 5 ∧
      ((c9Graph.set_directed false).set_directed true).get_weight 1 0 =
        some 5) ∧
    ((((c9Graph.set_directed false).set_directed true).set_weight 0 1
        9).get_weight 0 1 = some 9 ∧
      (((c9Graph.set_directed false).set_directed true).set_weight 0 1
        9).get_weight 1 0 = some 5) ∧
    ((((c9Graph.set_directed false).set_directed true).remove_vertex 0
        1).isAdj 1 0 ∧
      ¬(((c9Graph.set_directed false).set_directed true).remove_vertex 0
        1).isAdj 0 1) := by
  decide

/-- C10: calling `set_directed(True)` on a graph whose directed flag is
already `true` is not a no-op — the conversion body is guarded by the
*current* directed state, not the target value, so it adds the reverse of
every one-way edge, removes every loop, equalizes the weights of every
two-way pair, and leaves the flag `true`.  On the concrete directed graph
with only the edge 0 → 1, the call creates the reverse edge 1 → 0. -/
theorem claim_C10_set_directed_true (g : Graph) (h : Reachable g)
    (hd : g.directed = true) :
    (g.set_directed true).directed = true ∧
    (∀ a b : ℕ, (g.set_directed true).isAdj a b ↔
      (a ≠ b ∧ (g.isAdj a b ∨ g.isAdj b a))) ∧
    (∀ a : ℕ, ¬(g.set_directed true).isAdj a a) ∧
    (∀ a b : ℕ, (g.set_directed true).isAdj a b →
      (g.set_directed true).get_weight a b =
        (g.set_directed true).get_weight b a) ∧
    (¬c9Graph.isAdj 1 0 ∧ (c9Graph.set_directed true).isAdj 1 0) := by
  have hw := reachable_wf h
  obtain ⟨hw', hdir, hnodes, hwt, hadj, hsymW⟩ :=
    set_directed_directed_spec g hw hd true
  refine ⟨hdir, hadj, ?_, ?_, by decide, by decide⟩
  · intro a hcontra
    exact ((hadj a a).mp hcontra).1 rfl
  · intro a b hab
    rw [isAdj_iff] at hab
    obtain ⟨v, hv, hf, ht⟩ := hab
    subst hf
    subst ht
    rw [get_weight_of_mem hw' hv]
    have h2 : (g.set_directed true).get_weight v.nto v.nfrom =
        some v.weight := by
      simpa using get_weight_of_mem hw' (hsymW v hv)
    rw [h2]

theorem claim_C10_set_directed_true_witness :
    Reachable c9Graph ∧ c9Graph.directed = true ∧
    ((c9Graph.set_directed true).isAdj 1 0 ↔
      ((1 : ℕ) ≠ 0 ∧ (c9Graph.isAdj 1 0 ∨ c9Graph.isAdj 0 1))) := by
  have hr : Reachable c9Graph :=
    Reachable.add_vertex (Reachable.add_node (Reachable.add_node
      (Reachable.set_directed Reachable.init) (by decide)) (by decide))
      (by decide) (by decide)
  exact ⟨hr, by decide,
    (claim_C10_set_directed_true c9Graph hr (by decide)).2.1 1 0⟩

/-! ### Claims C6 and C7: the animation engine -/

theorem startPhase_cons_started {t : ℕ} {o : ℕ} {a : Animation}
    {rest : List (ℕ × Animation)} (h : a.started = true) :
    startPhase t ((o, a) :: rest) = (o, a) :: rest := by
  simp only [startPhase]
  rw [if_pos h]

theorem startPhase_cons_unstarted {t : ℕ} {o : ℕ} {a : Animation}
    {rest : List (ℕ × Animation)} (h : a.started = false) :
    startPhase t ((o, a) :: rest) =
      (o, a.start t) :: startRun t (a.start t) rest := by
  simp only [startPhase]
  rw [if_neg (by rw [h]; exact Bool.noConfusion)]

theorem startRun_cons_par {t : ℕ} {prev : Animation} {o : ℕ} {a : Animation}
    {rest : List (ℕ × Animation)} (h : a.started = false)
    (hp : a.parallel = true ∧ prev.parallel = true) :
    startRun t prev ((o, a) :: rest) =
      (o, a.start t) :: startRun t (a.start t) rest := by
  simp only [startRun]
  rw [if_neg (by rw [h]; exact Bool.noConfusion), if_pos hp]

theorem startRun_cons_stop {t : ℕ} {prev : Animation} {o : ℕ} {a : Animation}
    {rest : List (ℕ × Animation)} (h : a.started = false)
    (hp : ¬(a.parallel = true ∧ prev.parallel = true)) :
    startRun t prev ((o, a) :: rest) = (o, a) :: rest := by
  simp only [startRun]
  rw [if_neg (by rw [h]; exact Bool.noConfusion), if_neg hp]

theorem dropFinished_cons_finished {t : ℕ} {o : ℕ} {a : Animation}
    {rest : List (ℕ × Animation)} (h : a.has_finished t = true) :
    dropFinished t ((o, a) :: rest) = dropFinished t rest := by
  simp only [dropFinished]
  rw [if_pos h]

theorem dropFinished_cons_unfinished {t : ℕ} {o : ℕ} {a : Animation}
    {rest : List (ℕ × Animation)} (h : a.has_finished t = false) :
    dropFinished t ((o, a) :: rest) = (o, a) :: rest := by
  simp only [dropFinished]
  rw [if_neg (by rw [h]; exact Bool.noConfusion)]

theorem mk_start_has_finished (d : ℕ) (p : Bool) (t0 t : ℕ) :
    ((mkAnimation d p).start t0).has_finished t = decide (t - t0 > d) := by
  unfold Animation.has_finished mkAnimation Animation.start Animation.elapsed
  simp

theorem mk_has_finished (d : ℕ) (p : Bool) (t : ℕ) :
    (mkAnimation d p).has_finished t = false := by
  unfold Animation.has_finished mkAnimation Animation.elapsed
  simp

theorem has_finished_of_unstarted {a : Animation} (h : a.started = false)
    (t : ℕ) : a.has_finished t = false := by
  unfold Animation.has_finished
  simp [h]

/-- One draw tick preserves the C6 queue-shape invariant, at every wall
time. -/
theorem animTick_C6Inv (t o1 o2 o3 : ℕ) {q : List (ℕ × Animation)}
    (h : C6Inv o1 o2 o3 q) : C6Inv o1 o2 o3 (animTick t q) := by
  rcases h with ⟨b1, b2, b3, rfl, hp1, hp2, hp3, hs3, hst⟩ |
    ⟨b2, b3, rfl, hs2, hs3⟩ | ⟨b3, rfl⟩ | rfl
  · rcases hst with ⟨hu1, hu2⟩ | ⟨ht1, ht2⟩
    · unfold animTick
      rw [if_neg (by simp)]
      rw [startPhase_cons_unstarted hu1,
        startRun_cons_par hu2 ⟨hp2, show (b1.start t).parallel = true from hp1⟩,
        startRun_cons_stop hs3 (by
          rintro ⟨hc, -⟩
          rw [hp3] at hc
          exact Bool.noConfusion hc)]
      cases hf1 : (b1.start t).has_finished t with
      | false =>
        rw [dropFinished_cons_unfinished hf1]
        exact Or.inl ⟨b1.start t, b2.start t, b3, rfl, hp1, hp2, hp3, hs3,
          Or.inr ⟨rfl, rfl⟩⟩
      | true =>
        rw [dropFinished_cons_finished hf1]
        cases hf2 : (b2.start t).has_finished t with
        | false =>
          rw [dropFinished_cons_unfinished hf2]
          exact Or.inr (Or.inl ⟨b2.start t, b3, rfl, rfl, hs3⟩)
        | true =>
          rw [dropFinished_cons_finished hf2,
            dropFinished_cons_unfinished (has_finished_of_unstarted hs3 t)]
          exact Or.inr (Or.inr (Or.inl ⟨b3, rfl⟩))
    · unfold animTick
      rw [if_neg (by simp)]
      rw [startPhase_cons_started ht1]
      cases hf1 : b1.has_finished t with
      | false =>
        rw [dropFinished_cons_unfinished hf1]
        exact Or.inl ⟨b1, b2, b3, rfl, hp1, hp2, hp3, hs3, Or.inr ⟨ht1, ht2⟩⟩
      | true =>
        rw [dropFinished_cons_finished hf1]
        cases hf2 : b2.has_finished t with
        | false =>
          rw [dropFinished_cons_unfinished hf2]
          exact Or.inr (Or.inl ⟨b2, b3, rfl, ht2, hs3⟩)
        | true =>
          rw [dropFinished_cons_finished hf2,
            dropFinished_cons_unfinished (has_finished_of_unstarted hs3 t)]
          exact Or.inr (Or.inr (Or.inl ⟨b3, rfl⟩))
  · unfold animTick
    rw [if_neg (by simp)]
    rw [startPhase_cons_started hs2]
    cases hf2 : b2.has_finished t with
    | false =>
      rw [dropFinished_cons_unfinished hf2]
      exact Or.inr (Or.inl ⟨b2, b3, rfl, hs2, hs3⟩)
    | true =>
      rw [dropFinished_cons_finished hf2,
        dropFinished_cons_unfinished (has_finished_of_unstarted hs3 t)]
      exact Or.inr (Or.inr (Or.inl ⟨b3, rfl⟩))
  · unfold animTick
    rw [if_neg (by simp)]
    cases hs : b3.started with
    | false =>
      rw [startPhase_cons_unstarted hs]
      cases hf : (b3.start t).has_finished t with
      | false =>
        rw [dropFinished_cons_unfinished hf]
        exact Or.inr (Or.inr (Or.inl ⟨b3.start t, rfl⟩))
      | true =>
        rw [dropFinished_cons_finished hf]
        exact Or.inr (Or.inr (Or.inr rfl))
    | true =>
      rw [startPhase_cons_started hs]
      cases hf : b3.has_finished t with
      | false =>
        rw [dropFinished_cons_unfinished hf]
        exact Or.inr (Or.inr (Or.inl ⟨b3, rfl⟩))
      | true =>
        rw [dropFinished_cons_finished hf]
        exact Or.inr (Or.inr (Or.inr rfl))
  · exact Or.inr (Or.inr (Or.inr rfl))

/-- The invariant holds after every sequence of draw ticks. -/
theorem foldl_animTick_C6Inv (o1 o2 o3 : ℕ) (ts : List ℕ)
    {q : List (ℕ × Animation)} (h : C6Inv o1 o2 o3 q) :
    C6Inv o1 o2 o3 (ts.foldl (fun q' t => animTick t q') q) := by
  induction ts generalizing q with
  | nil => exact h
  | cons t rest ih =>
    rw [List.foldl_cons]
    exact ih (animTick_C6Inv t o1 o2 o3 h)

/-- C6: with two parallel-flagged animations at the front of the queue
and a non-parallel one behind them, one dispatch tick starts both
parallel animations (same tick) and leaves the third un-started; on every
later tick the third entry stays un-started while either parallel
animation is still in the queue, and the tick on which both have
finished removes them both, still leaving the third un-started (it can
only start on the following tick).  The final conjunct covers every
queue state reachable by an arbitrary sequence of ticks — including the
intermediate two-element queue left when the parallel animations finish
on different ticks: whenever the third entry is started, the first two
entries have already been removed from the queue. -/
theorem claim_C6_parallel_grouping (o1 o2 o3 d1 d2 d3 t0 : ℕ) :
    animTick t0 [(o1, mkAnimation d1 true), (o2, mkAnimation d2 true),
        (o3, mkAnimation d3 false)] =
      [(o1, (mkAnimation d1 true).start t0),
       (o2, (mkAnimation d2 true).start t0),
       (o3, mkAnimation d3 false)] ∧
    (mkAnimation d3 false).started = false ∧
    (∀ t : ℕ, t - t0 ≤ d1 →
      animTick t [(o1, (mkAnimation d1 true).start t0),
          (o2, (mkAnimation d2 true).start t0),
          (o3, mkAnimation d3 false)] =
        [(o1, (mkAnimation d1 true).start t0),
         (o2, (mkAnimation d2 true).start t0),
         (o3, mkAnimation d3 false)]) ∧
    (∀ t : ℕ, t - t0 > d1 → t - t0 ≤ d2 →
      animTick t [(o1, (mkAnimation d1 true).start t0),
          (o2, (mkAnimation d2 true).start t0),
          (o3, mkAnimation d3 false)] =
        [(o2, (mkAnimation d2 true).start t0),
         (o3, mkAnimation d3 false)]) ∧
    (∀ t : ℕ, t - t0 > d1 → t - t0 > d2 →
      animTick t [(o1, (mkAnimation d1 true).start t0),
          (o2, (mkAnimation d2 true).start t0),
          (o3, mkAnimation d3 false)] =
        [(o3, mkAnimation d3 false)]) ∧
    (∀ ts : List ℕ, o1 ≠ o3 → o2 ≠ o3 →
      ∀ b : Animation,
        (o3, b) ∈ ts.foldl (fun q t => animTick t q)
          [(o1, mkAnimation d1 true), (o2, mkAnimation d2 true),
           (o3, mkAnimation d3 false)] →
        b.started = true →
        ∀ c : Animation,
          (o1, c) ∉ ts.foldl (fun q t => animTick t q)
            [(o1, mkAnimation d1 true), (o2, mkAnimation d2 true),
             (o3, mkAnimation d3 false)] ∧
          (o2, c) ∉ ts.foldl (fun q t => animTick t q)
            [(o1, mkAnimation d1 true), (o2, mkAnimation d2 true),
             (o3, mkAnimation d3 false)]) := by
  refine ⟨?_, rfl, ?_, ?_, ?_, ?_⟩
  · unfold animTick
    rw [if_neg (by simp)]
    rw [startPhase_cons_unstarted rfl, startRun_cons_par rfl ⟨rfl, rfl⟩,
      startRun_cons_stop rfl (by rintro ⟨h, -⟩; exact Bool.noConfusion h)]
    rw [dropFinished_cons_unfinished (by
      rw [mk_start_has_finished]
      apply decide_eq_false
      omega)]
  · intro t ht
    unfold animTick
    rw [if_neg (by simp)]
    rw [startPhase_cons_started rfl]
    rw [dropFinished_cons_unfinished (by
      rw [mk_start_has_finished]
      apply decide_eq_false
      omega)]
  · intro t ht1 ht2
    unfold animTick
    rw [if_neg (by simp)]
    rw [startPhase_cons_started rfl]
    rw [dropFinished_cons_finished (by
      rw [mk_start_has_finished]
      apply decide_eq_true
      omega)]
    rw [dropFinished_cons_unfinished (by
      rw [mk_start_has_finished]
      apply decide_eq_false
      omega)]
  · intro t ht1 ht2
    unfold animTick
    rw [if_neg (by simp)]
    rw [startPhase_cons_started rfl]
    rw [dropFinished_cons_finished (by
      rw [mk_start_has_finished]
      apply decide_eq_true
      omega)]
    rw [dropFinished_cons_finished (by
      rw [mk_start_has_finished]
      apply decide_eq_true
      omega)]
    rw [dropFinished_cons_unfinished (mk_has_finished d3 false t)]
  · intro ts hne13 hne23 b hmem hstart c
    have hinv := foldl_animTick_C6Inv o1 o2 o3 ts
      (Or.inl ⟨mkAnimation d1 true, mkAnimation d2 true,
        mkAnimation d3 false, rfl, rfl, rfl, rfl, rfl, Or.inl ⟨rfl, rfl⟩⟩)
    rcases hinv with ⟨b1, b2, b3, hq, -, -, -, hs3, -⟩ |
      ⟨b2, b3, hq, -, hs3⟩ | ⟨b3, hq⟩ | hq
    · exfalso
      rw [hq] at hmem
      rcases List.mem_cons.mp hmem with he | hmem2
      · exact hne13 (congrArg Prod.fst he).symm
      rcases List.mem_cons.mp hmem2 with he | hmem3
      · exact hne23 (congrArg Prod.fst he).symm
      rw [List.mem_singleton] at hmem3
      have hb : b = b3 := congrArg Prod.snd hmem3
      rw [hb, hs3] at hstart
      exact Bool.noConfusion hstart
    · exfalso
      rw [hq] at hmem
      rcases List.mem_cons.mp hmem with he | hmem2
      · exact hne23 (congrArg Prod.fst he).symm
      rw [List.mem_singleton] at hmem2
      have hb : b = b3 := congrArg Prod.snd hmem2
      rw [hb, hs3] at hstart
      exact Bool.noConfusion hstart
    · rw [hq]
      constructor
      · intro hc
        rw [List.mem_singleton] at hc
        exact hne13 (congrArg Prod.fst hc)
      · intro hc
        rw [List.mem_singleton] at hc
        exact hne23 (congrArg Prod.fst hc)
    · rw [hq]
      exact ⟨List.not_mem_nil _, List.not_mem_nil _⟩

theorem claim_C6_parallel_grouping_witness :
    (10 : ℕ) - 10 ≤ 2 ∧
    animTick 10 [(0, mkAnimation 2 true), (1, mkAnimation 3 true),
        (2, mkAnimation 5 false)] =
      [(0, (mkAnimation 2 true).start 10),
       (1, (mkAnimation 3 true).start 10),
       (2, mkAnimation 5 false)] ∧
    animTick 17 [(0, (mkAnimation 2 true).start 10),
        (1, (mkAnimation 3 true).start 10), (2, mkAnimation 5 false)] =
      [(2, mkAnimation 5 false)] ∧
    ((2, (mkAnimation 5 false).start 30) ∈
      [10, 20, 30].foldl (fun q t => animTick t q)
        [(0, mkAnimation 2 true), (1, mkAnimation 3 true),
         (2, mkAnimation 5 false)] ∧
     ((mkAnimation 5 false).start 30).started = true ∧
     ∀ c : Animation,
       (0, c) ∉ [10, 20, 30].foldl (fun q t => animTick t q)
         [(0, mkAnimation 2 true), (1, mkAnimation 3 true),
          (2, mkAnimation 5 false)] ∧
       (1, c) ∉ [10, 20, 30].foldl (fun q t => animTick t q)
         [(0, mkAnimation 2 true), (1, mkAnimation 3 true),
          (2, mkAnimation 5 false)]) :=
  ⟨by decide, (claim_C6_parallel_grouping 0 1 2 2 3 5 10).1,
    (claim_C6_parallel_grouping 0 1 2 2 3 5 10).2.2.2.2.1 17 (by decide)
      (by decide),
    by decide, rfl,
    (claim_C6_parallel_grouping 0 1 2 2 3 5 10).2.2.2.2.2 [10, 20, 30]
      (by decide) (by decide) ((mkAnimation 5 false).start 30) (by decide)
      rfl⟩

/-- C7 counterexample: start at 0, pause at 10 (elapsed 15 would be
expected after resuming at 20 and running to 25), pause again at 25 —
the second `pause` stores `timer.elapsed() = 5`, *overwriting* the
previously frozen 10, so the logical elapsed time drops from 15 to 5 instead
of being preserved: pausing does not preserve the elapsed time
accumulated before an earlier pause. -/
theorem claim_C7_pause_resume_counterexample :
    ((((mkAnimation 100 false).start 0).pause 10).resume 20).logicalTime
      25 = 15 ∧
    (((((mkAnimation 100 false).start 0).pause 10).resume 20).pause
      25).logicalTime 25 = 5 := by
  decide

/-- C7 (amended): for a single pause/resume cycle the claim holds —
pausing freezes the logical elapsed time at `timer.elapsed()`, resuming
restarts the clock offset by that frozen value, and time spent paused
never counts; but `pause` *overwrites* `paused_time` with the time since
the most recent start/resume, so on a second pause the elapsed time
accumulated before the first pause is discarded rather than preserved. -/
theorem claim_C7_pause_resume_amended (d : ℕ) (par : Bool)
    (t0 t1 t2 t3 : ℕ) (h01 : t0 ≤ t1) (h12 : t1 ≤ t2) (h23 : t2 ≤ t3) :
    ((mkAnimation d par).start t0).logicalTime t1 = t1 - t0 ∧
    (∀ t : ℕ,
      (((mkAnimation d par).start t0).pause t1).logicalTime t = t1 - t0) ∧
    ((((mkAnimation d par).start t0).pause t1).resume t2).logicalTime t3 =
      (t1 - t0) + (t3 - t2) ∧
    (((((mkAnimation d par).start t0).pause t1).resume t2).pause
      t3).pausedTime = t3 - t2 ∧
    (((((mkAnimation d par).start t0).pause t1).resume t2).pause
      t3).logicalTime t3 = t3 - t2 := by
  refine ⟨?_, ?_, ?_, ?_, ?_⟩ <;>
    simp [mkAnimation, Animation.start, Animation.pause, Animation.resume,
      Animation.logicalTime, Animation.elapsed]

theorem claim_C7_pause_resume_amended_witness :
    (0 : ℕ) ≤ 10 ∧ (10 : ℕ) ≤ 20 ∧ (20 : ℕ) ≤ 25 ∧
    ((((mkAnimation 100 false).start 0).pause 10).resume 20).logicalTime
      25 = (10 - 0) + (25 - 20) :=
  ⟨by decide, by decide, by decide,
    (claim_C7_pause_resume_amended 100 false 0 10 20 25 (by decide)
      (by decide) (by decide)).2.2.1⟩

/-! ### Claim C8: zero-distance handling in the force pass -/

theorem vdist_self (p : ℝ × ℝ) : vdist p p = 0 := by
  unfold vdist
  simp

theorem vdist_eq_zero_iff (a b : ℝ × ℝ) : vdist a b = 0 ↔ a = b := by
  unfold vdist
  rw [show ((0 : ℝ) = Real.sqrt 0) from (Real.sqrt_zero).symm]
  rw [Real.sqrt_inj (by positivity) (by norm_num)]
  constructor
  · intro h
    have h1 : (a.1 - b.1) ^ 2 = 0 := by nlinarith [sq_nonneg (a.1 - b.1), sq_nonneg (a.2 - b.2)]
    have h2 : (a.2 - b.2) ^ 2 = 0 := by nlinarith [sq_nonneg (a.1 - b.1), sq_nonneg (a.2 - b.2)]
    rw [pow_eq_zero_iff (by norm_num), sub_eq_zero] at h1 h2
    rw [Prod.ext_iff]
    exact ⟨h1, h2⟩
  · intro h
    rw [h]
    ring

theorem updState_same (ns : ℕ → NodeState) (i : ℕ) (v : NodeState) :
    updState ns i v i = v := by
  unfold updState
  rw [if_pos rfl]

theorem updState_other (ns : ℕ → NodeState) (i : ℕ) (v : NodeState)
    {j : ℕ} (h : j ≠ i) : updState ns i v j = ns j := by
  unfold updState
  rw [if_neg h]

theorem sumForces_single (f : ℝ × ℝ) : sumForces [f] = f := by
  unfold sumForces
  rw [List.foldr_cons, List.foldr_nil, Prod.mk_zero_zero, add_zero]

theorem sumForces_nil : sumForces [] = 0 := by
  unfold sumForces
  rw [List.foldr_nil, Prod.mk_zero_zero]

theorem innerForceStep_zero_dist {g : Graph} {rand : ℕ → ℕ → ℝ × ℝ}
    {n1 n2 : ℕ} {ns : ℕ → NodeState}
    (hwc : g.weakly_connected n1 n2 = some true)
    (hpos : (ns n1).pos = (ns n2).pos) :
    innerForceStep g rand n1 ns n2 =
      updState ns n1 ((ns n1).add_force (rand n1 n2)) := by
  unfold innerForceStep
  rw [if_pos hwc, if_pos (show vdist (ns n1).pos (ns n2).pos = 0 from by
    rw [hpos]; exact vdist_self _)]

theorem outerForceStep_none_root {g : Graph} {rand : ℕ → ℕ → ℝ × ℝ}
    {acc : ℕ → NodeState} {i n1 : ℕ} (h : g.nodes[i]? = some n1) :
    outerForceStep g none rand acc i =
      updState ((g.nodes.drop (i + 1)).foldl (innerForceStep g rand n1) acc)
        n1
        ((((g.nodes.drop (i + 1)).foldl (innerForceStep g rand n1) acc)
          n1).evaluate_forces) := by
  simp only [outerForceStep, h]
  rw [if_neg (by simp)]

/-- The two-node zero-distance scenario: after one force pass the first
node of the pair has moved by exactly the drawn random vector and the
second node is untouched. -/
theorem forcePass_two_same (g : Graph) (n1 n2 : ℕ)
    (rand : ℕ → ℕ → ℝ × ℝ) (ns : ℕ → NodeState)
    (hnodes : g.nodes = [n1, n2]) (hne : n1 ≠ n2)
    (hwc : g.weakly_connected n1 n2 = some true)
    (hpos : (ns n1).pos = (ns n2).pos)
    (hdrag1 : (ns n1).drag = false) (hf1 : (ns n1).forces = [])
    (hdrag2 : (ns n2).drag = false) (hf2 : (ns n2).forces = []) :
    (forcePass g none rand ns n1).pos = (ns n1).pos + rand n1 n2 ∧
    (forcePass g none rand ns n1).forces = [] ∧
    (forcePass g none rand ns n2).pos = (ns n2).pos ∧
    (forcePass g none rand ns n2).forces = [] := by
  have hrange : List.range g.nodes.length = [0, 1] := by
    rw [hnodes]
    rfl
  have hg0 : g.nodes[0]? = some n1 := by rw [hnodes]; rfl
  have hg1 : g.nodes[1]? = some n2 := by rw [hnodes]; rfl
  have hd1 : g.nodes.drop 1 = [n2] := by rw [hnodes]; rfl
  have hd2 : g.nodes.drop 2 = [] := by rw [hnodes]; rfl
  have hne' : n2 ≠ n1 := hne.symm
  -- the state after node n1's outer iteration
  have hstep0 : outerForceStep g none rand ns 0 =
      updState (updState ns n1 ((ns n1).add_force (rand n1 n2))) n1
        ((updState ns n1 ((ns n1).add_force (rand n1 n2)) n1).evaluate_forces) := by
    rw [outerForceStep_none_root hg0, hd1, List.foldl_cons, List.foldl_nil,
      innerForceStep_zero_dist hwc hpos]
  set A := updState ns n1 ((ns n1).add_force (rand n1 n2)) with hA
  set B := updState A n1 ((A n1).evaluate_forces) with hB
  -- the state after node n2's outer iteration
  have hstep1 : outerForceStep g none rand B 1 =
      updState B n2 ((B n2).evaluate_forces) := by
    rw [outerForceStep_none_root hg1, hd2, List.foldl_nil]
  have hres : forcePass g none rand ns =
      updState B n2 ((B n2).evaluate_forces) := by
    unfold forcePass
    rw [hrange, List.foldl_cons, List.foldl_cons, List.foldl_nil, hstep0,
      hstep1]
  -- evaluate the projections
  have hAn1 : A n1 = (ns n1).add_force (rand n1 n2) := updState_same _ _ _
  have hAn2 : A n2 = ns n2 := updState_other _ _ _ hne'
  have hBn1 : B n1 = ((ns n1).add_force (rand n1 n2)).evaluate_forces := by
    rw [hB, updState_same, hAn1]
  have hBn2 : B n2 = ns n2 := by
    rw [hB, updState_other _ _ _ hne', hAn2]
  have heval1 : ((ns n1).add_force (rand n1 n2)).evaluate_forces =
      ⟨(ns n1).pos + rand n1 n2, [], (ns n1).drag⟩ := by
    unfold NodeState.add_force NodeState.evaluate_forces
    rw [if_neg (by rw [hdrag1]; exact Bool.noConfusion)]
    rw [hf1, List.nil_append, sumForces_single]
  have heval2 : (ns n2).evaluate_forces = ⟨(ns n2).pos, [], (ns n2).drag⟩ := by
    unfold NodeState.evaluate_forces
    rw [if_neg (by rw [hdrag2]; exact Bool.noConfusion)]
    rw [hf2, sumForces_nil, add_zero]
  refine ⟨?_, ?_, ?_, ?_⟩
  · rw [hres, updState_other _ _ _ hne, hBn1, heval1]
  · rw [hres, updState_other _ _ _ hne, hBn1, heval1]
  · rw [hres, updState_same, hBn2, heval2]
  · rw [hres, updState_same, hBn2, heval2]

/-- C8 counterexample: two weakly connected nodes at the same position
(nodes 1 and 2 of `twoNodeGraph`, both at the origin, with a nonzero
random vector available).  The `d == 0` branch of the pairwise pass adds
the random force to `n1` ONLY: node 2 receives no force at all and does
not move, so the pass does not "nudge both nodes apart" as the claim
states. -/
theorem claim_C8_zero_distance_counterexample :
    (forcePass twoNodeGraph none (fun _ _ => ((1 : ℝ), (1 : ℝ)))
      (fun _ => ⟨(0, 0), [], false⟩) 2).pos = ((0 : ℝ), (0 : ℝ)) ∧
    (forcePass twoNodeGraph none (fun _ _ => ((1 : ℝ), (1 : ℝ)))
      (fun _ => ⟨(0, 0), [], false⟩) 2).forces = [] ∧
    (forcePass twoNodeGraph none (fun _ _ => ((1 : ℝ), (1 : ℝ)))
      (fun _ => ⟨(0, 0), [], false⟩) 1).pos = ((1 : ℝ), (1 : ℝ)) := by
  obtain ⟨h1, -, h2, h3⟩ := forcePass_two_same twoNodeGraph 1 2
    (fun _ _ => ((1 : ℝ), (1 : ℝ))) (fun _ => ⟨(0, 0), [], false⟩)
    (by decide) (by decide) (by decide) rfl rfl rfl rfl rfl
  refine ⟨h2, h3, ?_⟩
  rw [h1]
  rw [Prod.ext_iff]
  constructor <;> norm_num

/-- C8 (amended): when two weakly connected nodes occupy the same
position at the start of the pairwise pass, the `d == 0` branch nudges
only the FIRST node of the pair with the random vector — skipping the
rest of the pair, so the zero-length unit-vector division is never
evaluated; in the two-node scenario, after one simulation step the
first node has moved by the random vector, the second is unmoved, and
the two nodes are at nonzero distance provided the random vector is
nonzero. -/
theorem claim_C8_zero_distance_amended (g : Graph) (n1 n2 : ℕ)
    (rand : ℕ → ℕ → ℝ × ℝ) (ns : ℕ → NodeState)
    (hnodes : g.nodes = [n1, n2]) (hne : n1 ≠ n2)
    (hwc : g.weakly_connected n1 n2 = some true)
    (hpos : (ns n1).pos = (ns n2).pos)
    (hdrag1 : (ns n1).drag = false) (hf1 : (ns n1).forces = [])
    (hdrag2 : (ns n2).drag = false) (hf2 : (ns n2).forces = [])
    (hr : rand n1 n2 ≠ 0) :
    (forcePass g none rand ns n1).pos = (ns n1).pos + rand n1 n2 ∧
    (forcePass g none rand ns n2).pos = (ns n2).pos ∧
    (forcePass g none rand ns n2).forces = [] ∧
    vdist (forcePass g none rand ns n1).pos
      (forcePass g none rand ns n2).pos ≠ 0 := by
  obtain ⟨h1, -, h2, h3⟩ := forcePass_two_same g n1 n2 rand ns hnodes hne
    hwc hpos hdrag1 hf1 hdrag2 hf2
  refine ⟨h1, h2, h3, ?_⟩
  rw [h1, h2, ← hpos, Ne, vdist_eq_zero_iff]
  intro he
  exact hr (add_right_eq_self.mp he)

theorem claim_C8_zero_distance_amended_witness :
    twoNodeGraph.nodes = [1, 2] ∧
    twoNodeGraph.weakly_connected 1 2 = some true ∧
    ((fun _ _ => ((1 : ℝ), (1 : ℝ))) 1 2 ≠ (0 : ℝ × ℝ)) ∧
    vdist (forcePass twoNodeGraph none (fun _ _ => ((1 : ℝ), (1 : ℝ)))
        (fun _ => ⟨(0, 0), [], false⟩) 1).pos
      (forcePass twoNodeGraph none (fun _ _ => ((1 : ℝ), (1 : ℝ)))
        (fun _ => ⟨(0, 0), [], false⟩) 2).pos ≠ 0 :=
  ⟨by decide, by decide, by simp [Prod.ext_iff],
    (claim_C8_zero_distance_amended twoNodeGraph 1 2
      (fun _ _ => ((1 : ℝ), (1 : ℝ))) (fun _ => ⟨(0, 0), [], false⟩)
      (by decide) (by decide) (by decide) rfl rfl rfl rfl rfl
      (by simp [Prod.ext_iff])).2.2.2⟩

/-! ### C5: dictionary bookkeeping for the serialization pair -/

theorem lookupS_eq_none {d : List (String × ℕ)} {s : String} :
    lookupS d s = none ↔ ∀ e ∈ d, e.1 ≠ s := by
  induction d with
  | nil => simp [lookupS]
  | cons e rest ih =>
    unfold lookupS
    by_cases he : e.1 = s
    · rw [if_pos he]
      constructor
      · intro h
        exact Option.noConfusion h
      · intro h
        exact absurd he (h e (List.mem_cons_self e rest))
    · rw [if_neg he, ih]
      constructor
      · intro h x hx
        rcases List.mem_cons.mp hx with rfl | hx2
        · exact he
        · exact h x hx2
      · intro h x hx
        exact h x (List.mem_cons_of_mem e hx)

theorem lookupS_mem {d : List (String × ℕ)} {s : String} {i : ℕ}
    (h : lookupS d s = some i) : (s, i) ∈ d := by
  induction d with
  | nil => exact Option.noConfusion h
  | cons e rest ih =>
    unfold lookupS at h
    by_cases he : e.1 = s
    · rw [if_pos he] at h
      injection h with h2
      have hei : (s, i) = e := by
        rw [Prod.ext_iff]
        exact ⟨he.symm, h2.symm⟩
      exact List.mem_cons.mpr (Or.inl hei)
    · rw [if_neg he] at h
      exact List.mem_cons_of_mem e (ih h)

theorem lookupS_append_left {d : List (String × ℕ)} {s : String} {i : ℕ}
    (h : lookupS d s = some i) (d' : List (String × ℕ)) :
    lookupS (d ++ d') s = some i := by
  induction d with
  | nil => exact Option.noConfusion h
  | cons e rest ih =>
    rw [List.cons_append]
    unfold lookupS at h ⊢
    by_cases he : e.1 = s
    · rw [if_pos he] at h ⊢
      exact h
    · rw [if_neg he] at h ⊢
      exact ih h

theorem lookupS_cons (e : String × ℕ) (rest : List (String × ℕ)) (s : String) :
    lookupS (e :: rest) s = if e.1 = s then some e.2 else lookupS rest s := rfl

theorem lookupS_append_none {d : List (String × ℕ)} {s : String}
    (h : lookupS d s = none) (d' : List (String × ℕ)) :
    lookupS (d ++ d') s = lookupS d' s := by
  induction d with
  | nil => rw [List.nil_append]
  | cons e rest ih =>
    rw [List.cons_append, lookupS_cons]
    rw [lookupS_cons] at h
    by_cases he : e.1 = s
    · rw [if_pos he] at h
      exact Option.noConfusion h
    · rw [if_neg he] at h ⊢
      exact ih h

theorem lookupS_of_mem_nodup {d : List (String × ℕ)}
    (hnd : d.Pairwise fun e e' => e.1 ≠ e'.1) {s : String} {i : ℕ}
    (h : (s, i) ∈ d) : lookupS d s = some i := by
  induction d with
  | nil => cases h
  | cons e rest ih =>
    rw [List.mem_cons] at h
    unfold lookupS
    rcases h with h | h
    · rw [if_pos (congrArg Prod.fst h).symm, ← h]
    · have hne : e.1 ≠ s := (List.pairwise_cons.mp hnd).1 (s, i) h
      rw [if_neg hne]
      exact ih (List.pairwise_cons.mp hnd).2 h

theorem lookupS_lt_length {d : List (String × ℕ)}
    (hpos : ∀ (p : ℕ) (e : String × ℕ), d[p]? = some e → e.2 = p)
    {s : String} {i : ℕ} (h : lookupS d s = some i) : i < d.length := by
  obtain ⟨p, hp⟩ := List.getElem?_of_mem (lookupS_mem h)
  have hip : i = p := hpos p (s, i) hp
  have hlt : p < d.length := by
    by_contra hge
    rw [List.getElem?_eq_none (Nat.le_of_not_lt hge)] at hp
    exact Option.noConfusion hp
  rw [hip]
  exact hlt

theorem rho_append {label : ℕ → Option String} {d : List (String × ℕ)}
    {n i : ℕ} (h : rho label d n = some i) (d' : List (String × ℕ)) :
    rho label (d ++ d') n = some i := by
  unfold rho at h ⊢
  obtain ⟨s, hs, hl⟩ := Option.bind_eq_some.mp h
  rw [hs]
  exact lookupS_append_left hl d'

theorem rho_inj {label : ℕ → Option String} {d : List (String × ℕ)}
    (hpos : ∀ (p : ℕ) (e : String × ℕ), d[p]? = some e → e.2 = p)
    {n m i : ℕ} (h1 : rho label d n = some i) (h2 : rho label d m = some i)
    (hlabel : label n = label m → n = m) : n = m := by
  unfold rho at h1 h2
  obtain ⟨s, hs, hls⟩ := Option.bind_eq_some.mp h1
  obtain ⟨t, ht, hlt⟩ := Option.bind_eq_some.mp h2
  obtain ⟨p, hp⟩ := List.getElem?_of_mem (lookupS_mem hls)
  obtain ⟨q, hq⟩ := List.getElem?_of_mem (lookupS_mem hlt)
  have hip : i = p := hpos p (s, i) hp
  have hiq : i = q := hpos q (t, i) hq
  rw [← hip] at hp
  rw [← hiq] at hq
  rw [hp] at hq
  injection hq with hq2
  have hst : s = t := congrArg Prod.fst hq2
  apply hlabel
  rw [hs, ht, hst]

theorem rho_lt {label : ℕ → Option String} {d : List (String × ℕ)}
    (hpos : ∀ (p : ℕ) (e : String × ℕ), d[p]? = some e → e.2 = p)
    {n i : ℕ} (h : rho label d n = some i) : i < d.length := by
  unfold rho at h
  obtain ⟨s, hs, hl⟩ := Option.bind_eq_some.mp h
  exact lookupS_lt_length hpos hl

theorem add_vertex_vertices_shape (g : Graph) (n1 n2 : ℕ) (w : ℚ) :
    ∃ extra, (g.add_vertex n1 n2 w).vertices = g.vertices ++ extra := by
  unfold Graph.add_vertex
  split
  · exact ⟨[], (List.append_nil _).symm⟩
  · split
    · exact ⟨[⟨n1, n2, w⟩], rfl⟩
    · exact ⟨[⟨n1, n2, w⟩, ⟨n2, n1, w⟩], rfl⟩

theorem isAdj_of_vertices_append {g g' : Graph} {extra : List Vert}
    (hx : g'.vertices = g.vertices ++ extra) {a b : ℕ}
    (h : g.isAdj a b) : g'.isAdj a b := by
  rw [isAdj_iff] at h ⊢
  obtain ⟨v, hv, hf, ht⟩ := h
  exact ⟨v, by rw [hx]; exact List.mem_append_left _ hv, hf, ht⟩

theorem isAdj_add_vertex_mono {g : Graph} {n1 n2 : ℕ} {w : ℚ} {a b : ℕ}
    (h : g.isAdj a b) : (g.add_vertex n1 n2 w).isAdj a b := by
  obtain ⟨extra, hx⟩ := add_vertex_vertices_shape g n1 n2 w
  exact isAdj_of_vertices_append hx h

theorem get_weight_vertices_append {g g' : Graph} {extra : List Vert}
    (hx : g'.vertices = g.vertices ++ extra) {a b : ℕ} (h : g.isAdj a b) :
    g'.get_weight a b = g.get_weight a b := by
  unfold Graph.get_weight
  rw [hx, List.find?_append]
  have hs : (g.vertices.find? fun v => v.nfrom = a ∧ v.nto = b).isSome := by
    rw [List.find?_isSome]
    rw [isAdj_iff] at h
    obtain ⟨v, hv, hf, ht⟩ := h
    exact ⟨v, hv, by simp [hf, ht]⟩
  obtain ⟨u, hu⟩ := Option.isSome_iff_exists.mp hs
  rw [hu]
  rfl

theorem get_weight_add_vertex {g : Graph} {n1 n2 : ℕ} {w : ℚ} {a b : ℕ}
    (h : g.isAdj a b) :
    (g.add_vertex n1 n2 w).get_weight a b = g.get_weight a b := by
  obtain ⟨extra, hx⟩ := add_vertex_vertices_shape g n1 n2 w
  exact get_weight_vertices_append hx h

theorem get_weight_append_new {g g' : Graph} {extra : List Vert}
    (hx : g'.vertices = g.vertices ++ extra) {a b : ℕ} (hnadj : ¬g.isAdj a b) :
    g'.get_weight a b =
      (extra.find? fun v => v.nfrom = a ∧ v.nto = b).map Vert.weight := by
  unfold Graph.get_weight
  rw [hx, List.find?_append]
  have hn : (g.vertices.find? fun v => v.nfrom = a ∧ v.nto = b) = none := by
    rw [List.find?_eq_none]
    intro v hv hpv
    apply hnadj
    rw [isAdj_iff]
    simp only [decide_eq_true_eq] at hpv
    exact ⟨v, hv, hpv.1, hpv.2⟩
  rw [hn, Option.none_or]

theorem ensureNode_inv {g : Graph} {label : ℕ → Option String}
    {st : Graph × List (String × ℕ)} (hI : ImportInv g label st)
    {name : String} (hname : ∃ n ∈ g.nodes, label n = some name) :
    ImportInv g label (ensureNode st name) ∧
    (∃ Δ, (ensureNode st name).2 = st.2 ++ Δ) ∧
    (lookupS (ensureNode st name).2 name).isSome ∧
    (ensureNode st name).1.vertices = st.1.vertices := by
  unfold ensureNode
  cases h : lookupS st.2 name with
  | some i =>
    refine ⟨hI, ⟨[], (List.append_nil _).symm⟩, ?_, rfl⟩
    rw [h]
    rfl
  | none =>
    refine ⟨⟨?_, ?_, ?_, ?_, ?_, ?_, ?_, ?_⟩,
      ⟨[(name, st.2.length)], rfl⟩, ?_, rfl⟩
    · rw [show ((st.1.add_node st.2.length, st.2 ++ [(name, st.2.length)]) :
        Graph × List (String × ℕ)).1.directed = st.1.directed from rfl]
      exact hI.dirEq
    · exact hI.wtEq
    · exact hI.wf.add_node st.2.length
    · rw [show ((st.1.add_node st.2.length, st.2 ++ [(name, st.2.length)]) :
        Graph × List (String × ℕ)).1.nodes = st.1.nodes ++ [st.2.length] from rfl,
        hI.nodesEq]
      simp [List.range_succ]
    · intro p e hp
      by_cases hpl : p < st.2.length
      · rw [show ((st.1.add_node st.2.length, st.2 ++ [(name, st.2.length)]) :
            Graph × List (String × ℕ)).2 = st.2 ++ [(name, st.2.length)] from rfl,
          List.getElem?_append, if_pos hpl] at hp
        exact hI.dictPos p e hp
      · rw [show ((st.1.add_node st.2.length, st.2 ++ [(name, st.2.length)]) :
            Graph × List (String × ℕ)).2 = st.2 ++ [(name, st.2.length)] from rfl,
          List.getElem?_append, if_neg hpl] at hp
        cases hps : p - st.2.length with
        | zero =>
          rw [hps] at hp
          rw [List.getElem?_cons_zero] at hp
          injection hp with he
          rw [← he]
          show st.2.length = p
          omega
        | succ q =>
          rw [hps] at hp
          rw [List.getElem?_cons_succ, List.getElem?_nil] at hp
          exact Option.noConfusion hp
    · intro e he
      rw [List.mem_append] at he
      rcases he with he | he
      · exact hI.dictNames e he
      · rw [List.mem_singleton] at he
        obtain ⟨n, hn, hln⟩ := hname
        refine ⟨n, hn, ?_⟩
        rw [he]
        exact hln
    · refine List.pairwise_append.mpr ⟨hI.dictNodup, List.pairwise_singleton _ _, ?_⟩
      intro a ha b hb
      rw [List.mem_singleton] at hb
      rw [hb]
      exact lookupS_eq_none.mp h a ha
    · intro i j hadj
      have hadj' : st.1.isAdj i j := hadj
      obtain ⟨a, ha, b, hb, hra, hrb, hab, hwab⟩ := hI.upper i j hadj'
      exact ⟨a, ha, b, hb, rho_append hra _, rho_append hrb _, hab,
        fun hwt => hwab hwt⟩
    · rw [show ((st.1.add_node st.2.length, st.2 ++ [(name, st.2.length)]) :
        Graph × List (String × ℕ)).2 = st.2 ++ [(name, st.2.length)] from rfl,
        lookupS_append_none h]
      unfold lookupS
      rw [if_pos rfl]
      rfl


theorem recalc_eq_self {g : Graph} (hw : WF g) : recalc g = g := by
  unfold recalc
  rw [← hw.comps]

/-- Effect of one `graph.add_vertex(n1, n2, weight)` call of the import
loop when the added edge is the image of an edge of `g` under the
dictionary correspondence: the invariant is preserved, existing edges
stay, and the image edge is present afterwards. -/
theorem add_vertex_import_inv {g : Graph} (hw : WF g)
    {label : ℕ → Option String}
    (hinj : ∀ n ∈ g.nodes, ∀ m ∈ g.nodes, label n = label m → n = m)
    {st : Graph × List (String × ℕ)} (hI : ImportInv g label st)
    {src dst : ℕ} (hsrc : src ∈ g.nodes) (hdst : dst ∈ g.nodes)
    {i1 i2 : ℕ} (h1 : rho label st.2 src = some i1)
    (h2 : rho label st.2 dst = some i2)
    (hedge : g.isAdj src dst)
    {w : ℚ} (hwt : g.weighted = true → g.get_weight src dst = some w) :
    ImportInv g label (st.1.add_vertex i1 i2 w, st.2) ∧
    (∀ i j, st.1.isAdj i j → (st.1.add_vertex i1 i2 w).isAdj i j) ∧
    (st.1.add_vertex i1 i2 w).isAdj i1 i2 := by
  have hi1mem : i1 ∈ st.1.nodes := by
    rw [hI.nodesEq]
    exact List.mem_range.mpr (rho_lt hI.dictPos h1)
  have hi2mem : i2 ∈ st.1.nodes := by
    rw [hI.nodesEq]
    exact List.mem_range.mpr (rho_lt hI.dictPos h2)
  by_cases hguard : (i1 = i2 ∧ st.1.directed = false) ∨ st.1.isAdj i1 i2
  · have hEq : st.1.add_vertex i1 i2 w = recalc st.1 := add_vertex_guard w hguard
    have hR : recalc st.1 = st.1 := recalc_eq_self hI.wf
    rw [hEq, hR]
    refine ⟨hI, fun i j h => h, ?_⟩
    rcases hguard with ⟨heq, hdirf⟩ | hadj
    · exfalso
      have hgdir : g.directed = false := by
        rw [← hI.dirEq]
        exact hdirf
      rw [← heq] at h2
      have hsd : src = dst :=
        rho_inj hI.dictPos h1 h2 (fun hl => hinj src hsrc dst hdst hl)
      rw [hsd] at hedge
      exact wf_no_loop hw hgdir dst hedge
    · exact hadj
  · push_neg at hguard
    obtain ⟨hne', hnadj⟩ := hguard
    cases hd : st.1.directed with
    | true =>
      have hx := add_vertex_vertices_directed w hd hnadj
      refine ⟨⟨?_, ?_, ?_, ?_, hI.dictPos, hI.dictNames, hI.dictNodup, ?_⟩,
        fun i j h => isAdj_add_vertex_mono h,
        (isAdj_add_vertex_directed w hd i1 i2).mpr (Or.inr ⟨rfl, rfl⟩)⟩
      · rw [show ((st.1.add_vertex i1 i2 w, st.2) :
          Graph × List (String × ℕ)).1.directed =
            (st.1.add_vertex i1 i2 w).directed from rfl, add_vertex_directed]
        exact hI.dirEq
      · rw [show ((st.1.add_vertex i1 i2 w, st.2) :
          Graph × List (String × ℕ)).1.weighted =
            (st.1.add_vertex i1 i2 w).weighted from rfl, add_vertex_weighted]
        exact hI.wtEq
      · exact hI.wf.add_vertex hi1mem hi2mem w
      · rw [show ((st.1.add_vertex i1 i2 w, st.2) :
          Graph × List (String × ℕ)).1.nodes =
            (st.1.add_vertex i1 i2 w).nodes from rfl, add_vertex_nodes]
        exact hI.nodesEq
      · intro i j hadj
        have hadj2 : (st.1.add_vertex i1 i2 w).isAdj i j := hadj
        rw [isAdj_add_vertex_directed w hd] at hadj2
        rcases hadj2 with hold | ⟨rfl, rfl⟩
        · obtain ⟨a, ha, b, hb, hra, hrb, hab, hwab⟩ := hI.upper i j hold
          refine ⟨a, ha, b, hb, hra, hrb, hab, ?_⟩
          intro hwtt
          rw [show ((st.1.add_vertex i1 i2 w, st.2) :
            Graph × List (String × ℕ)).1.get_weight i j =
              (st.1.add_vertex i1 i2 w).get_weight i j from rfl,
            get_weight_add_vertex hold]
          exact hwab hwtt
        · refine ⟨src, hsrc, dst, hdst, h1, h2, hedge, ?_⟩
          intro hwtt
          rw [show ((st.1.add_vertex i j w, st.2) :
            Graph × List (String × ℕ)).1.get_weight i j =
              (st.1.add_vertex i j w).get_weight i j from rfl,
            get_weight_append_new hx hnadj, hwt hwtt,
            List.find?_cons_of_pos _ (by simp)]
          rfl
    | false =>
      have hne : i1 ≠ i2 := fun hc => (hne' hc) hd
      have hx := add_vertex_vertices_undirected w hd hne hnadj
      have hgd : g.directed = false := by
        rw [← hI.dirEq]
        exact hd
      obtain ⟨hrev, hwrev⟩ := wf_rev_weight hw hgd hedge
      have hnadj21 : ¬st.1.isAdj i2 i1 := by
        intro hc
        exact hnadj (wf_rev_weight hI.wf hd hc).1
      refine ⟨⟨?_, ?_, ?_, ?_, hI.dictPos, hI.dictNames, hI.dictNodup, ?_⟩,
        fun i j h => isAdj_add_vertex_mono h,
        (isAdj_add_vertex_undirected w hd hne hnadj i1 i2).mpr
          (Or.inr (Or.inl ⟨rfl, rfl⟩))⟩
      · rw [show ((st.1.add_vertex i1 i2 w, st.2) :
          Graph × List (String × ℕ)).1.directed =
            (st.1.add_vertex i1 i2 w).directed from rfl, add_vertex_directed]
        exact hI.dirEq
      · rw [show ((st.1.add_vertex i1 i2 w, st.2) :
          Graph × List (String × ℕ)).1.weighted =
            (st.1.add_vertex i1 i2 w).weighted from rfl, add_vertex_weighted]
        exact hI.wtEq
      · exact hI.wf.add_vertex hi1mem hi2mem w
      · rw [show ((st.1.add_vertex i1 i2 w, st.2) :
          Graph × List (String × ℕ)).1.nodes =
            (st.1.add_vertex i1 i2 w).nodes from rfl, add_vertex_nodes]
        exact hI.nodesEq
      · intro i j hadj
        have hadj2 : (st.1.add_vertex i1 i2 w).isAdj i j := hadj
        rw [isAdj_add_vertex_undirected w hd hne hnadj] at hadj2
        rcases hadj2 with hold | ⟨rfl, rfl⟩ | ⟨rfl, rfl⟩
        · obtain ⟨a, ha, b, hb, hra, hrb, hab, hwab⟩ := hI.upper i j hold
          refine ⟨a, ha, b, hb, hra, hrb, hab, ?_⟩
          intro hwtt
          rw [show ((st.1.add_vertex i1 i2 w, st.2) :
            Graph × List (String × ℕ)).1.get_weight i j =
              (st.1.add_vertex i1 i2 w).get_weight i j from rfl,
            get_weight_add_vertex hold]
          exact hwab hwtt
        · refine ⟨src, hsrc, dst, hdst, h1, h2, hedge, ?_⟩
          intro hwtt
          rw [show ((st.1.add_vertex i j w, st.2) :
            Graph × List (String × ℕ)).1.get_weight i j =
              (st.1.add_vertex i j w).get_weight i j from rfl,
            get_weight_append_new hx hnadj, hwt hwtt,
            List.find?_cons_of_pos _ (by simp)]
          rfl
        · refine ⟨dst, hdst, src, hsrc, h2, h1, hrev, ?_⟩
          intro hwtt
          rw [show ((st.1.add_vertex j i w, st.2) :
            Graph × List (String × ℕ)).1.get_weight i j =
              (st.1.add_vertex j i w).get_weight i j from rfl,
            get_weight_append_new hx hnadj21, ← hwrev, hwt hwtt,
            List.find?_cons_of_neg _ (by simp [hne]),
            List.find?_cons_of_pos _ (by simp)]
          rfl


/-- Computation of the import loop body on an exported line: the two
names are read off, the nodes are created, and `add_vertex` is called
with the endpoints swapped exactly on a reverse-arrow line and with
weight 0 when the graph is unweighted. -/
theorem parseLine_encodeLine (d wt back : Bool) (st : Graph × List (String × ℕ))
    (sa sb : String) (w : ℚ) {iA iB : ℕ}
    (hA : lookupS (ensureNode (ensureNode st sa) sb).2 sa = some iA)
    (hB : lookupS (ensureNode (ensureNode st sa) sb).2 sb = some iB) :
    parseLine d wt st (encodeLine d wt back sa sb w) =
      (if d = true ∧ back = true then
        some ((ensureNode (ensureNode st sa) sb).1.add_vertex iB iA
          (if wt then w else 0), (ensureNode (ensureNode st sa) sb).2)
      else
        some ((ensureNode (ensureNode st sa) sb).1.add_vertex iA iB
          (if wt then w else 0), (ensureNode (ensureNode st sa) sb).2)) := by
  cases d <;> cases wt <;> cases back <;> simp [parseLine, encodeLine, hA, hB]


theorem isAdj_vertices_eq {g g' : Graph} (h : g'.vertices = g.vertices)
    (a b : ℕ) : g'.isAdj a b ↔ g.isAdj a b := by
  rw [isAdj_iff, isAdj_iff, h]

/-- Full effect of the import loop on one exported line: it succeeds,
preserves the invariant, only extends the dictionary and the edge set,
and afterwards the edge the line encodes is present (through the
dictionary correspondence). -/
theorem parseLine_import_step {g : Graph} (hw : WF g)
    {label : ℕ → Option String}
    (hinj : ∀ n ∈ g.nodes, ∀ m ∈ g.nodes, label n = label m → n = m)
    {st : Graph × List (String × ℕ)} (hI : ImportInv g label st)
    {back : Bool} {a b : ℕ} {sa sb : String} {w : ℚ}
    (ha : a ∈ g.nodes) (hb : b ∈ g.nodes)
    (hla : label a = some sa) (hlb : label b = some sb)
    (hedge : g.isAdj (if back then b else a) (if back then a else b))
    (hwt : g.weighted = true →
      g.get_weight (if back then b else a) (if back then a else b) = some w)
    (hback : back = true → g.directed = true) :
    ∃ st', parseLine g.directed g.weighted st
        (encodeLine g.directed g.weighted back sa sb w) = some st' ∧
      ImportInv g label st' ∧
      (∃ Δ, st'.2 = st.2 ++ Δ) ∧
      (∀ i j, st.1.isAdj i j → st'.1.isAdj i j) ∧
      (∃ i j, rho label st'.2 a = some i ∧ rho label st'.2 b = some j ∧
        st'.1.isAdj (if back then j else i) (if back then i else j)) := by
  obtain ⟨hI1, ⟨Δ1, hd1⟩, hs1, hv1⟩ := ensureNode_inv hI ⟨a, ha, hla⟩
  obtain ⟨hI2, ⟨Δ2, hd2⟩, hs2, hv2⟩ := ensureNode_inv hI1 ⟨b, hb, hlb⟩
  obtain ⟨iA, hiA0⟩ := Option.isSome_iff_exists.mp hs1
  have hiA : lookupS (ensureNode (ensureNode st sa) sb).2 sa = some iA := by
    rw [hd2]
    exact lookupS_append_left hiA0 Δ2
  obtain ⟨iB, hiB⟩ := Option.isSome_iff_exists.mp hs2
  have hra : rho label (ensureNode (ensureNode st sa) sb).2 a = some iA := by
    unfold rho
    rw [hla]
    exact hiA
  have hrb : rho label (ensureNode (ensureNode st sa) sb).2 b = some iB := by
    unfold rho
    rw [hlb]
    exact hiB
  have hred := parseLine_encodeLine g.directed g.weighted back st sa sb w hiA hiB
  have hdict : (ensureNode (ensureNode st sa) sb).2 = st.2 ++ (Δ1 ++ Δ2) := by
    rw [hd2, hd1, List.append_assoc]
  cases back with
  | false =>
    rw [if_neg (by simp)] at hred
    have hedge2 : g.isAdj a b := hedge
    have hwt2 : g.weighted = true →
        g.get_weight a b = some (if g.weighted = true then w else 0) := by
      intro hwtt
      rw [if_pos hwtt]
      exact hwt hwtt
    obtain ⟨hI3, hmono3, hpres3⟩ :=
      add_vertex_import_inv hw hinj hI2 ha hb hra hrb hedge2 hwt2
    refine ⟨_, hred, hI3, ⟨Δ1 ++ Δ2, hdict⟩, ?_, iA, iB, hra, hrb, hpres3⟩
    intro i j hij
    have hij1 : (ensureNode st sa).1.isAdj i j :=
      (isAdj_vertices_eq hv1 i j).mpr hij
    have hij2 : (ensureNode (ensureNode st sa) sb).1.isAdj i j :=
      (isAdj_vertices_eq hv2 i j).mpr hij1
    exact hmono3 i j hij2
  | true =>
    have hdt : g.directed = true := hback rfl
    rw [if_pos ⟨hdt, rfl⟩] at hred
    have hedge2 : g.isAdj b a := hedge
    have hwt2 : g.weighted = true →
        g.get_weight b a = some (if g.weighted = true then w else 0) := by
      intro hwtt
      rw [if_pos hwtt]
      exact hwt hwtt
    obtain ⟨hI3, hmono3, hpres3⟩ :=
      add_vertex_import_inv hw hinj hI2 hb ha hrb hra hedge2 hwt2
    refine ⟨_, hred, hI3, ⟨Δ1 ++ Δ2, hdict⟩, ?_, iA, iB, hra, hrb, hpres3⟩
    intro i j hij
    have hij1 : (ensureNode st sa).1.isAdj i j :=
      (isAdj_vertices_eq hv1 i j).mpr hij
    have hij2 : (ensureNode (ensureNode st sa) sb).1.isAdj i j :=
      (isAdj_vertices_eq hv2 i j).mpr hij1
    exact hmono3 i j hij2


/-- Induction along the import loop: on any list of export lines of `g`
the loop succeeds and preserves the invariant, extending the dictionary
and edge set monotonically. -/
theorem foldlM_parse_inv {g : Graph} (hw : WF g)
    {label : ℕ → Option String}
    (hinj : ∀ n ∈ g.nodes, ∀ m ∈ g.nodes, label n = label m → n = m) :
    ∀ (L : List (List Tok)) (st : Graph × List (String × ℕ)),
    (∀ line ∈ L, ExportLine g label line) →
    ImportInv g label st →
    ∃ st', L.foldlM (parseLine g.directed g.weighted) st = some st' ∧
      ImportInv g label st' ∧
      (∃ Δ, st'.2 = st.2 ++ Δ) ∧
      (∀ i j, st.1.isAdj i j → st'.1.isAdj i j) := by
  intro L
  induction L with
  | nil =>
    intro st _ hI
    exact ⟨st, rfl, hI, ⟨[], (List.append_nil _).symm⟩, fun i j h => h⟩
  | cons line rest ih =>
    intro st hlines hI
    obtain ⟨back, a, b, sa, sb, w, ha, hb, hla, hlb, hline, hedge, hwt, hback⟩ :=
      hlines line (List.mem_cons_self line rest)
    obtain ⟨st1, heq, hI1, ⟨Δ1, hd1⟩, hmono1, -⟩ :=
      parseLine_import_step hw hinj hI ha hb hla hlb hedge hwt hback
    obtain ⟨st2, heq2, hI2, ⟨Δ2, hd2⟩, hmono2⟩ :=
      ih st1 (fun l hl => hlines l (List.mem_cons_of_mem line hl)) hI1
    refine ⟨st2, ?_, hI2,
      ⟨Δ1 ++ Δ2, by rw [hd2, hd1, List.append_assoc]⟩,
      fun i j h => hmono2 i j (hmono1 i j h)⟩
    rw [List.foldlM_cons, hline, heq]
    exact heq2

/-- The edge encoded by any single export line is present in the final
imported graph (the dictionary and edge set only grow after the line is
processed). -/
theorem foldlM_parse_line_effect {g : Graph} (hw : WF g)
    {label : ℕ → Option String}
    (hinj : ∀ n ∈ g.nodes, ∀ m ∈ g.nodes, label n = label m → n = m)
    {L : List (List Tok)}
    (hlines : ∀ line ∈ L, ExportLine g label line)
    {st0 : Graph × List (String × ℕ)} (hI0 : ImportInv g label st0)
    {st' : Graph × List (String × ℕ)}
    (hfold : L.foldlM (parseLine g.directed g.weighted) st0 = some st')
    {line : List Tok} (hmem : line ∈ L)
    {back : Bool} {a b : ℕ} {sa sb : String} {w : ℚ}
    (ha : a ∈ g.nodes) (hb : b ∈ g.nodes)
    (hla : label a = some sa) (hlb : label b = some sb)
    (hline : line = encodeLine g.directed g.weighted back sa sb w)
    (hedge : g.isAdj (if back then b else a) (if back then a else b))
    (hwt : g.weighted = true →
      g.get_weight (if back then b else a) (if back then a else b) = some w)
    (hback : back = true → g.directed = true) :
    ∃ i j, rho label st'.2 a = some i ∧ rho label st'.2 b = some j ∧
      st'.1.isAdj (if back then j else i) (if back then i else j) := by
  obtain ⟨L1, L2, hsplit⟩ := List.append_of_mem hmem
  rw [hsplit, List.foldlM_append] at hfold
  obtain ⟨t1, ht1, hrest⟩ := Option.bind_eq_some.mp hfold
  rw [List.foldlM_cons] at hrest
  obtain ⟨t2, ht2, hrest2⟩ := Option.bind_eq_some.mp hrest
  obtain ⟨t1', he1, hI1, -, -⟩ := foldlM_parse_inv hw hinj L1 st0
    (fun l hl => hlines l (by rw [hsplit]; exact List.mem_append_left _ hl)) hI0
  rw [ht1] at he1
  injection he1 with he1'
  rw [← he1'] at hI1
  obtain ⟨t2', heq', hI2, -, -, i, j, hri, hrj, hadj⟩ :=
    parseLine_import_step hw hinj hI1 ha hb hla hlb hedge hwt hback
  rw [hline, heq'] at ht2
  injection ht2 with ht2'
  rw [ht2'] at hri hrj hadj hI2
  obtain ⟨st'', he2, -, ⟨Δ2, hd2⟩, hmono2⟩ := foldlM_parse_inv hw hinj L2 t2
    (fun l hl => hlines l (by
      rw [hsplit]
      exact List.mem_append_right _ (List.mem_cons_of_mem _ hl))) hI2
  rw [hrest2] at he2
  injection he2 with he2'
  rw [← he2'] at hd2 hmono2
  refine ⟨i, j, ?_, ?_, hmono2 _ _ hadj⟩
  · rw [hd2]
    exact rho_append hri Δ2
  · rw [hd2]
    exact rho_append hrj Δ2


/-- When every endpoint is labelled, the label/counter state of
`to_string` is never touched and the emitted lines are the concatenation
of the per-vertex lines. -/
theorem to_string_fold_labeled (g : Graph) (label : ℕ → Option String) :
    ∀ (vs : List Vert),
    (∀ v ∈ vs, (label v.nfrom).getD "" ≠ "" ∧ (label v.nto).getD "" ≠ "") →
    ∀ (st0 : ℕ × List (ℕ × String)) (acc : List (List Tok)),
    vs.foldl (to_stringFold g label) (st0, acc) =
      (st0, acc ++ vs.flatMap (emitLines g (fun n => (label n).getD ""))) := by
  intro vs
  induction vs with
  | nil =>
    intro _ st0 acc
    simp
  | cons v rest ih =>
    intro hlab st0 acc
    rw [List.foldl_cons, List.flatMap_cons]
    have hl1 : labelOf label st0 v.nfrom = ((label v.nfrom).getD "", st0) := by
      unfold labelOf
      rw [if_neg (hlab v (List.mem_cons_self v rest)).1]
    have hl2 : labelOf label st0 v.nto = ((label v.nto).getD "", st0) := by
      unfold labelOf
      rw [if_neg (hlab v (List.mem_cons_self v rest)).2]
    have hstep : to_stringFold g label (st0, acc) v =
        (st0, acc ++ emitLines g (fun n => (label n).getD "") v) := by
      by_cases hskip : g.directed = false ∧ v.nto < v.nfrom
      · simp [to_stringFold, emitLines, hskip]
      · by_cases hfwd : g.adjacentTo v.nfrom v.nto = true
        · by_cases hbwd : g.adjacentTo v.nto v.nfrom = true ∧ g.directed = true
          · simp [to_stringFold, emitLines, hskip, hfwd, hbwd, hl1, hl2]
          · simp [to_stringFold, emitLines, hskip, hfwd, hbwd, hl1, hl2]
        · by_cases hbwd : g.adjacentTo v.nto v.nfrom = true ∧ g.directed = true
          · simp [to_stringFold, emitLines, hskip, hfwd, hbwd, hl1, hl2]
          · simp [to_stringFold, emitLines, hskip, hfwd, hbwd, hl1, hl2]
    rw [hstep, ih (fun u hu => hlab u (List.mem_cons_of_mem v hu)) st0 _,
      List.append_assoc]

theorem to_string_labeled (g : Graph) (label : ℕ → Option String)
    (hlab : ∀ v ∈ g.vertices,
      (label v.nfrom).getD "" ≠ "" ∧ (label v.nto).getD "" ≠ "") :
    g.to_string label =
      g.vertices.flatMap (emitLines g (fun n => (label n).getD "")) := by
  unfold Graph.to_string
  rw [to_string_fold_labeled g label g.vertices hlab (0, []) []]
  simp

/-- Every emitted line is the encoding of an edge of the graph. -/
theorem emitLines_export {g : Graph} (hw : WF g) {label : ℕ → Option String}
    (hlab : ∀ n ∈ g.nodes, (label n).isSome)
    {v : Vert} (hv : v ∈ g.vertices) {line : List Tok}
    (hl : line ∈ emitLines g (fun n => (label n).getD "") v) :
    ExportLine g label line := by
  obtain ⟨hf, ht⟩ := hw.endpoints v hv
  obtain ⟨s1, hs1⟩ := Option.isSome_iff_exists.mp (hlab v.nfrom hf)
  obtain ⟨s2, hs2⟩ := Option.isSome_iff_exists.mp (hlab v.nto ht)
  have hg1 : (label v.nfrom).getD "" = s1 := by
    rw [hs1]
    rfl
  have hg2 : (label v.nto).getD "" = s2 := by
    rw [hs2]
    rfl
  have hadjf : g.isAdj v.nfrom v.nto := mem_vertices_isAdj hv
  unfold emitLines at hl
  by_cases hskip : g.directed = false ∧ v.nto < v.nfrom
  · rw [if_pos hskip] at hl
    cases hl
  · rw [if_neg hskip, List.mem_append] at hl
    rcases hl with hl | hl
    · by_cases hfwd : g.adjacentTo v.nfrom v.nto = true
      · rw [if_pos hfwd, List.mem_singleton] at hl
        refine ⟨false, v.nfrom, v.nto, s1, s2, v.weight, hf, ht, hs1, hs2,
          ?_, hadjf, fun _ => get_weight_of_mem hw hv,
          fun hc => Bool.noConfusion hc⟩
        rw [hl]
        dsimp only
        rw [hg1, hg2, get_weight_of_mem hw hv]
        unfold encodeLine
        rfl
      · rw [if_neg hfwd] at hl
        cases hl
    · by_cases hbwd : g.adjacentTo v.nto v.nfrom = true ∧ g.directed = true
      · rw [if_pos hbwd, List.mem_singleton] at hl
        have hadjb : g.isAdj v.nto v.nfrom := hbwd.1
        obtain ⟨wr, hwr⟩ := Option.isSome_iff_exists.mp
          ((get_weight_isSome_iff g v.nto v.nfrom).mpr hadjb)
        refine ⟨true, v.nfrom, v.nto, s1, s2, wr, hf, ht, hs1, hs2,
          ?_, hadjb, fun _ => hwr, fun _ => hbwd.2⟩
        rw [hl]
        dsimp only
        rw [hg1, hg2, hwr]
        unfold encodeLine
        rw [hbwd.2]
        rfl
      · rw [if_neg hbwd] at hl
        cases hl

/-- Every edge of the graph has some emitted line that encodes it in
forward orientation — possibly the line of its mirror vertex when the
graph is undirected. -/
theorem exists_emit_line {g : Graph} (hw : WF g) (lab : ℕ → String)
    {a b : ℕ} (h : g.isAdj a b) :
    ∃ src dst : ℕ, ∃ wq : ℚ,
      ((src = a ∧ dst = b) ∨ (g.directed = false ∧ src = b ∧ dst = a)) ∧
      g.isAdj src dst ∧
      (g.weighted = true → g.get_weight src dst = some wq) ∧
      ∃ v ∈ g.vertices,
        encodeLine g.directed g.weighted false (lab src) (lab dst) wq ∈
          emitLines g lab v := by
  rw [isAdj_iff] at h
  obtain ⟨v0, hv0, hvf, hvt⟩ := h
  subst hvf
  subst hvt
  have hadj0 : g.isAdj v0.nfrom v0.nto := mem_vertices_isAdj hv0
  by_cases hskip : g.directed = false ∧ v0.nto < v0.nfrom
  · -- undirected, vertex listed in skipped orientation: use the mirror
    have hv0' : (⟨v0.nto, v0.nfrom, v0.weight⟩ : Vert) ∈ g.vertices :=
      hw.sym hskip.1 v0 hv0
    have hadj' : g.isAdj v0.nto v0.nfrom := by
      rw [isAdj_iff]
      exact ⟨_, hv0', rfl, rfl⟩
    refine ⟨v0.nto, v0.nfrom, v0.weight,
      Or.inr ⟨hskip.1, rfl, rfl⟩, hadj', ?_, ⟨v0.nto, v0.nfrom, v0.weight⟩,
      hv0', ?_⟩
    · intro hwtt
      exact get_weight_of_mem hw hv0'
    · unfold emitLines
      rw [if_neg (by
        dsimp only
        intro hc
        exact absurd hc.2 (by omega))]
      apply List.mem_append_left
      rw [if_pos (by dsimp only; exact hadj')]
      rw [List.mem_singleton]
      unfold encodeLine
      rw [show Graph.get_weight g (⟨v0.nto, v0.nfrom, v0.weight⟩ : Vert).nfrom
          (⟨v0.nto, v0.nfrom, v0.weight⟩ : Vert).nto = some v0.weight from
        get_weight_of_mem hw hv0']
      rfl
  · refine ⟨v0.nfrom, v0.nto, v0.weight, Or.inl ⟨rfl, rfl⟩, hadj0,
      fun _ => get_weight_of_mem hw hv0, v0, hv0, ?_⟩
    unfold emitLines
    rw [if_neg hskip]
    apply List.mem_append_left
    have hadj0' : g.adjacentTo v0.nfrom v0.nto = true := hadj0
    rw [if_pos hadj0', List.mem_singleton]
    unfold encodeLine
    rw [get_weight_of_mem hw hv0]
    rfl


/-- The first exported line makes `from_string` infer exactly the flags
of the original graph, so the import loop runs with them. -/
theorem from_string_export (g : Graph) {first : List Tok}
    (rest : List (List Tok)) {bk : Bool} {sa sb : String} {w : ℚ}
    (hfirst : first = encodeLine g.directed g.weighted bk sa sb w)
    (hbk : bk = true → g.directed = true) :
    from_string (first :: rest) =
      (first :: rest).foldlM (parseLine g.directed g.weighted)
        ((initGraph.set_directed g.directed).set_weighted g.weighted, []) := by
  subst hfirst
  cases bk with
  | true =>
    have hd : g.directed = true := hbk rfl
    cases hwt : g.weighted
    all_goals simp only [hd, hwt]
    all_goals rfl
  | false =>
    cases hd : g.directed
    all_goals cases hwt : g.weighted
    all_goals rfl

/-- The state the import loop starts from satisfies the invariant. -/
theorem importInv_init (g : Graph) (label : ℕ → Option String) :
    ImportInv g label
      ((initGraph.set_directed g.directed).set_weighted g.weighted, []) := by
  refine ⟨rfl, rfl, ?_, rfl, ?_, ?_, List.Pairwise.nil, ?_⟩
  · refine ⟨?_, ?_, ?_, ?_, ?_⟩
    · intro v hv
      cases hv
    · exact List.Pairwise.nil
    · intro _ v hv
      cases hv
    · intro _ v hv
      cases hv
    · rfl
  · intro p e hp
    rw [List.getElem?_nil] at hp
    exact Option.noConfusion hp
  · intro e he
    cases he
  · intro i j hadj
    exact Bool.noConfusion hadj

/-- Every edge of `g` is present, through the dictionary correspondence,
in the graph built by importing the export of `g`. -/
theorem export_edge_present {g : Graph} (hw : WF g)
    {label : ℕ → Option String}
    (hlab : ∀ n ∈ g.nodes, (label n).isSome)
    (hgood : ∀ n ∈ g.nodes, (label n).getD "" ≠ "")
    (hinj : ∀ n ∈ g.nodes, ∀ m ∈ g.nodes, label n = label m → n = m)
    {st0 st' : Graph × List (String × ℕ)}
    (hI0 : ImportInv g label st0)
    (hfold : (g.to_string label).foldlM (parseLine g.directed g.weighted) st0 =
      some st')
    {a b : ℕ} (ha : a ∈ g.nodes) (hb : b ∈ g.nodes) (hab : g.isAdj a b) :
    ∃ i j, rho label st'.2 a = some i ∧ rho label st'.2 b = some j ∧
      st'.1.isAdj i j := by
  have hIf : ImportInv g label st' := by
    obtain ⟨st'', he, hI'', -, -⟩ := foldlM_parse_inv hw hinj
      (g.to_string label) st0 (fun line hl => by
        rw [to_string_labeled g label (fun v hv =>
          ⟨hgood _ (hw.endpoints v hv).1, hgood _ (hw.endpoints v hv).2⟩),
          List.mem_flatMap] at hl
        obtain ⟨v, hv, hlv⟩ := hl
        exact emitLines_export hw hlab hv hlv) hI0
    rw [hfold] at he
    injection he with he'
    rw [← he'] at hI''
    exact hI''
  have hlines : ∀ line ∈ g.to_string label, ExportLine g label line := by
    intro line hl
    rw [to_string_labeled g label (fun v hv =>
      ⟨hgood _ (hw.endpoints v hv).1, hgood _ (hw.endpoints v hv).2⟩),
      List.mem_flatMap] at hl
    obtain ⟨v, hv, hlv⟩ := hl
    exact emitLines_export hw hlab hv hlv
  obtain ⟨src, dst, wq, hcase, hedge, hwtw, u, hu, hmem⟩ :=
    exists_emit_line hw (fun n => (label n).getD "") hab
  have hsrcmem : src ∈ g.nodes := by
    rcases hcase with ⟨h1, -⟩ | ⟨-, h1, -⟩
    · rw [h1]; exact ha
    · rw [h1]; exact hb
  have hdstmem : dst ∈ g.nodes := by
    rcases hcase with ⟨-, h1⟩ | ⟨-, -, h1⟩
    · rw [h1]; exact hb
    · rw [h1]; exact ha
  obtain ⟨ssrc, hssrc⟩ := Option.isSome_iff_exists.mp (hlab src hsrcmem)
  obtain ⟨sdst, hsdst⟩ := Option.isSome_iff_exists.mp (hlab dst hdstmem)
  have hla : label src = some ((label src).getD "") := by
    rw [hssrc]
    rfl
  have hlb : label dst = some ((label dst).getD "") := by
    rw [hsdst]
    rfl
  have hmemL : encodeLine g.directed g.weighted false
      ((label src).getD "") ((label dst).getD "") wq ∈ g.to_string label := by
    rw [to_string_labeled g label (fun v hv =>
      ⟨hgood _ (hw.endpoints v hv).1, hgood _ (hw.endpoints v hv).2⟩),
      List.mem_flatMap]
    exact ⟨u, hu, hmem⟩
  obtain ⟨i0, j0, hri0, hrj0, hadj0⟩ := foldlM_parse_line_effect hw hinj
    hlines hI0 hfold hmemL hsrcmem hdstmem hla hlb rfl hedge hwtw
    (fun hc => Bool.noConfusion hc)
  rcases hcase with ⟨hs1, hs2⟩ | ⟨hdirf, hs1, hs2⟩
  · rw [hs1] at hri0
    rw [hs2] at hrj0
    exact ⟨i0, j0, hri0, hrj0, hadj0⟩
  · rw [hs1] at hri0
    rw [hs2] at hrj0
    have hd' : st'.1.directed = false := by
      rw [hIf.dirEq]
      exact hdirf
    exact ⟨j0, i0, hrj0, hri0, (wf_rev_weight hIf.wf hd' hadj0).1⟩


/-! ### Claim C5 -/

end Grafatko